import Mathlib

/-!
# Verification of the UrbanAirspaceSim planner core

Shallow embedding of `src/main_script.py`: the time-extended A* planner
(`astar_search`), the conflict detector (`detect_conflict`), the CBS solver
(`cbs_search`) and the auction controller (`multi_round_auction`), together
with theorems settling the specification claims.

Modelling conventions:
* Python `int` becomes `Int` (or `Nat` where the source value is provably
  non-negative by construction: g-costs, times of search nodes, heuristic).
* Python tuples `(r, c)` become `Int × Int`.
* A grid (list of rows) becomes `List (List Char)`; Python's `IndexError`
  on a ragged grid is modelled by `Except Unit`.
* Python dicts keyed by insertion order become association lists.
* `heapq` pops a minimal element with respect to `__lt__`; its tie order
  among incomparable elements is an implementation detail of the binary
  heap layout, modelled here by taking the leftmost minimal element.
* Unbounded `while` loops take an explicit fuel counter; running out of
  fuel yields the extra result `none` ("undetermined"), kept distinct from
  the source's own `None` result.
-/

namespace UrbanAirspaceSim

abbrev Cell : Type := Int × Int

abbrev AgentId : Type := Nat

abbrev Grid : Type := List (List Char)

/-- A constraint dict as consumed by `astar_search`.  Each field models
`c.get(...)` on the Python dict: `none` means the key is absent (for
`agent`, an absent key and an explicit `None` are indistinguishable under
`c.get('agent')`, and both mean a global constraint).  `src`/`dst` model the
`'from'`/`'to'` keys. -/
structure RawConstraint where
  agent : Option AgentId
  time  : Option Int
  ctype : Option String
  pos   : Option Cell
  src   : Option Cell
  dst   : Option Cell
deriving DecidableEq

/-- The per-entry branch of the constraint-preprocessing loop of
`astar_search` (lines 54-70): an entry contributes a vertex bucket entry, an
edge bucket entry, or is silently dropped. -/
inductive IndexedEntry where
  | vertex (agent : Option AgentId) (time : Int) (pos : Cell)
  | edge (agent : Option AgentId) (time : Int) (src dst : Cell)
deriving DecidableEq

/-- Classify one constraint dict exactly as the preprocessing loop does:
missing `time` drops the entry; `type` absent or `'vertex'` reads `pos`
(dropped when absent); `type == 'edge'` reads `from`/`to` (dropped when
either is absent); any other `type` string is dropped. -/
def indexEntry (c : RawConstraint) : Option IndexedEntry :=
  match c.time with
  | none => none
  | some t =>
    match c.ctype with
    | none => c.pos.map (IndexedEntry.vertex c.agent t)
    | some ty =>
      if ty = "vertex" then c.pos.map (IndexedEntry.vertex c.agent t)
      else if ty = "edge" then
        match c.src, c.dst with
        | some u, some v => some (IndexedEntry.edge c.agent t u v)
        | _, _ => none
      else none

/-- `vertex_constraints[(a, t)]` of `astar_search`: the set (as a list) of
cells forbidden for scope `a` at time `t`. -/
def vertexConstraintsAt (cs : List RawConstraint) (a : Option AgentId) (t : Int) :
    List Cell :=
  cs.filterMap fun c =>
    match indexEntry c with
    | some (IndexedEntry.vertex a2 t2 p) => if a2 = a ∧ t2 = t then some p else none
    | _ => none

/-- `edge_constraints[(a, t)]` of `astar_search`: the set (as a list) of
forbidden transitions for scope `a` at time `t`. -/
def edgeConstraintsAt (cs : List RawConstraint) (a : Option AgentId) (t : Int) :
    List (Cell × Cell) :=
  cs.filterMap fun c =>
    match indexEntry c with
    | some (IndexedEntry.edge a2 t2 u v) => if a2 = a ∧ t2 = t then some (u, v) else none
    | _ => none

/-- Manhattan-distance heuristic of `astar_search` (line 48). -/
def heuristic (p1 p2 : Cell) : Nat :=
  (p1.1 - p2.1).natAbs + (p1.2 - p2.2).natAbs

/-- `AstarNode` (lines 8-24): position, g-cost, h-cost, parent link, time. -/
inductive AstarNode where
  | mk (position : Cell) (g_cost : Nat) (h_cost : Nat)
      (parent : Option AstarNode) (time : Nat)

namespace AstarNode

/-- Structural equality test (the derive handler does not support the
nested `Option AstarNode` field). -/
def beq : AstarNode → AstarNode → Bool
  | .mk p g h par t, .mk p2 g2 h2 par2 t2 =>
    decide (p = p2) && decide (g = g2) && decide (h = h2) && decide (t = t2) &&
    (match par, par2 with
     | none, none => true
     | some a, some b => beq a b
     | _, _ => false)

theorem beq_iff : ∀ a b : AstarNode, beq a b = true ↔ a = b
  | .mk p g h par t, .mk p2 g2 h2 par2 t2 => by
    unfold beq
    simp only [Bool.and_eq_true, decide_eq_true_eq]
    constructor
    · rintro ⟨⟨⟨⟨rfl, rfl⟩, rfl⟩, rfl⟩, hpar⟩
      match par, par2, hpar with
      | none, none, _ => rfl
      | some a2, some b2, hp =>
        have := (beq_iff a2 b2).mp hp
        subst this
        rfl
    · intro hEq
      injection hEq with h1 h2 h3 h4 h5
      subst h1; subst h2; subst h3; subst h4; subst h5
      refine ⟨⟨⟨⟨rfl, rfl⟩, rfl⟩, rfl⟩, ?_⟩
      match par with
      | none => rfl
      | some a2 => exact (beq_iff a2 a2).mpr rfl

instance : DecidableEq AstarNode := fun a b =>
  decidable_of_iff (beq a b = true) (beq_iff a b)

def position : AstarNode → Cell
  | .mk p _ _ _ _ => p

def g_cost : AstarNode → Nat
  | .mk _ g _ _ _ => g

def h_cost : AstarNode → Nat
  | .mk _ _ h _ _ => h

def parent : AstarNode → Option AstarNode
  | .mk _ _ _ par _ => par

def time : AstarNode → Nat
  | .mk _ _ _ _ t => t

/-- `f_cost` property (line 17). -/
def f_cost (n : AstarNode) : Nat := n.g_cost + n.h_cost

/-- `__lt__` (lines 20-24): order by f-cost, ties by smaller h-cost. -/
def lt (a b : AstarNode) : Bool :=
  if a.f_cost = b.f_cost then a.h_cost < b.h_cost else a.f_cost < b.f_cost

/-- The reversed parent chain: `path` accumulated in lines 92-96 before the
final `[::-1]`. -/
def revPath : AstarNode → List Cell
  | .mk p _ _ par _ =>
    p :: (match par with
          | none => []
          | some q => revPath q)

end AstarNode

/-- Extract a minimal element (with respect to a strict order given as a
`Bool` relation) from a list, returning it and the remaining elements.
Models `heapq.heappop`: the result is minimal, leftmost among ties. -/
def extractMin (lt : α → α → Bool) : List α → Option (α × List α)
  | [] => none
  | x :: xs =>
    match extractMin lt xs with
    | none => some (x, [])
    | some (m, rest) => if lt m x then some (m, x :: rest) else some (x, xs)

/-- Association-list lookup with decidable key equality (Python dict read). -/
def assocFind [DecidableEq κ] (k : κ) : List (κ × β) → Option β
  | [] => none
  | (k2, v) :: rest => if k2 = k then some v else assocFind k rest

instance {ε α : Type} [DecidableEq ε] [DecidableEq α] :
    DecidableEq (Except ε α) := fun a b =>
  match a, b with
  | .error e1, .error e2 =>
    if h : e1 = e2 then isTrue (by rw [h])
    else isFalse (by intro hc; injection hc; exact h ‹_›)
  | .error e1, .ok a2 => isFalse (by intro hc; cases hc)
  | .ok a1, .error e2 => isFalse (by intro hc; cases hc)
  | .ok a1, .ok a2 =>
    if h : a1 = a2 then isTrue (by rw [h])
    else isFalse (by intro hc; injection hc; exact h ‹_›)

instance : DecidableEq (Option (Option (List (AgentId × List Cell)))) :=
  Option.instDecidableEq

/-- The future-goal test of the goal check (lines 85-90): some time in
`[t0, maxT]` has a vertex constraint (per-agent or global) on `goal`. -/
def forbiddenLater (cs : List RawConstraint) (aid : AgentId) (goal : Cell)
    (t0 maxT : Nat) : Bool :=
  (List.range' t0 (maxT + 1 - t0)).any fun t =>
    decide (goal ∈ vertexConstraintsAt cs (some aid) t ∨
            goal ∈ vertexConstraintsAt cs none t)

/-- Grid cell lookup `grid_map[nx][ny]` for `0 ≤ nx < len(grid_map)`:
`none` models the `IndexError` raised when row `nx` is shorter than `ny+1`
(a ragged grid). -/
def cellAt (grid : Grid) (nx ny : Int) : Option Char :=
  (grid.getD nx.toNat []).get? ny.toNat

/-- The neighbor-direction list of line 101: 4 moves plus wait. -/
def directions : List (Int × Int) := [(0, 1), (0, -1), (1, 0), (-1, 0), (0, 0)]

/-- One iteration of the neighbor loop (lines 101-123) for direction `d`:
check bounds, static obstacle, vertex and edge constraints at time `t+1`,
and the time horizon; a surviving move is appended as a new open node.
`Except.error` models the `IndexError` on a ragged grid. -/
def expandStep (goal : Cell) (cs : List RawConstraint) (grid : Grid)
    (rows cols : Nat) (aid : AgentId) (maxT : Nat) (curr : AstarNode)
    (acc : List AstarNode) (d : Int × Int) : Except Unit (List AstarNode) :=
  let nx : Int := curr.position.1 + d.1
  let ny : Int := curr.position.2 + d.2
  if 0 ≤ nx ∧ nx < (rows : Int) ∧ 0 ≤ ny ∧ ny < (cols : Int) then
    match cellAt grid nx ny with
    | none => throw ()
    | some ch =>
      if ch = '#' then pure acc
      else
        let nt : Nat := curr.time + 1
        let nextPos : Cell := (nx, ny)
        if nextPos ∈ vertexConstraintsAt cs (some aid) (nt : Int) ∨
           nextPos ∈ vertexConstraintsAt cs none (nt : Int) then pure acc
        else if (curr.position, nextPos) ∈ edgeConstraintsAt cs (some aid) (nt : Int) ∨
                (curr.position, nextPos) ∈ edgeConstraintsAt cs none (nt : Int) then
          pure acc
        else if nt > maxT then pure acc
        else
          pure (acc ++ [AstarNode.mk nextPos (curr.g_cost + 1)
                  (heuristic nextPos goal) (some curr) nt])
  else pure acc

/-- Expansion of one popped node (lines 101-123): the neighbor loop over the
5 directions, threading the accumulated pushes. -/
def expandNode (goal : Cell) (cs : List RawConstraint) (grid : Grid)
    (rows cols : Nat) (aid : AgentId) (maxT : Nat) (curr : AstarNode) :
    Except Unit (List AstarNode) :=
  directions.foldlM (expandStep goal cs grid rows cols aid maxT curr) []

/-- The `while open_heap` loop of `astar_search` (lines 76-125).  Result:
`.error ()` models an `IndexError` (ragged grid); `.ok none` means the fuel
ran out (the embedding could not determine the answer); `.ok (some none)`
is the source's `return None` on an emptied open set; `.ok (some (some p))`
is a returned path. -/
def astarLoop (goal : Cell) (cs : List RawConstraint) (grid : Grid)
    (rows cols : Nat) (aid : AgentId) (maxT : Nat) :
    Nat → List AstarNode → List ((Cell × Nat) × Nat) →
    Except Unit (Option (Option (List Cell)))
  | 0, _, _ => .ok none
  | fuel + 1, openList, closed =>
    match extractMin AstarNode.lt openList with
    | none => .ok (some none)
    | some (curr, openRest) =>
      let key : Cell × Nat := (curr.position, curr.time)
      let skip : Bool :=
        match assocFind key closed with
        | some g0 => g0 ≤ curr.g_cost
        | none => false
      if skip then
        astarLoop goal cs grid rows cols aid maxT fuel openRest closed
      else
        let closed1 := (key, curr.g_cost) :: closed
        if curr.position = goal ∧ forbiddenLater cs aid goal curr.time maxT = false then
          .ok (some (some curr.revPath.reverse))
        else
          match expandNode goal cs grid rows cols aid maxT curr with
          | .error e => .error e
          | .ok newNodes =>
            astarLoop goal cs grid rows cols aid maxT fuel
              (openRest ++ newNodes) closed1

/-- The effective time bound of `astar_search` (lines 45-46): when the
`max_time` argument is not an `int` (modelled by `none`) or is `≤ 0`, it is
replaced by `rows * cols * 2`. -/
def effectiveMaxTime (maxTimeArg : Option Int) (rows cols : Nat) : Nat :=
  match maxTimeArg with
  | some k => if k ≤ 0 then rows * cols * 2 else k.toNat
  | none => rows * cols * 2

/-- Fuel that will be shown sufficient for the A* loop to terminate on its
own: a bound on the number of iterations of the `while` loop. -/
def astarFuel (rows cols maxT : Nat) : Nat :=
  6 * (rows * cols * (maxT + 1) + 1) + 2

/-- `astar_search` (lines 27-125).  `maxTimeArg = some k` models an `int`
argument `k` (the Python default is `200`); `maxTimeArg = none` models a
non-`int` argument such as `None`. -/
def astar_search (start goal : Cell) (constraints : List RawConstraint)
    (grid : Grid) (aid : AgentId) (maxTimeArg : Option Int) :
    Except Unit (Option (Option (List Cell))) :=
  if grid = [] ∨ grid.headD [] = [] then .ok (some none)
  else
    let rows := grid.length
    let cols := (grid.headD []).length
    let maxT := effectiveMaxTime maxTimeArg rows cols
    let startNode : AstarNode := .mk start 0 (heuristic start goal) none 0
    astarLoop goal constraints grid rows cols aid maxT
      (astarFuel rows cols maxT) [startNode] []

/-! ## Properties of the priority-queue model -/

theorem extractMin_eq_none {lt : α → α → Bool} {l : List α} :
    extractMin lt l = none ↔ l = [] := by
  cases l with
  | nil => simp [extractMin]
  | cons x xs =>
    simp only [extractMin]
    constructor
    · intro h
      cases hx : extractMin lt xs with
      | none => rw [hx] at h; simp at h
      | some p => rw [hx] at h; cases p with
        | mk m rest => by_cases hlt : lt m x <;> simp [hlt] at h
    · intro h; cases h

theorem extractMin_perm {lt : α → α → Bool} :
    ∀ {l : List α} {m : α} {rest : List α},
      extractMin lt l = some (m, rest) → l.Perm (m :: rest)
  | [], m, rest => by intro h; simp [extractMin] at h
  | x :: xs, m, rest => by
    intro h
    simp only [extractMin] at h
    cases hx : extractMin lt xs with
    | none =>
      rw [hx] at h
      have hxs : xs = [] := extractMin_eq_none.mp hx
      subst hxs
      simp only [Option.some.injEq, Prod.mk.injEq] at h
      obtain ⟨rfl, rfl⟩ := h
      exact List.Perm.refl _
    | some p =>
      obtain ⟨m2, rest2⟩ := p
      rw [hx] at h
      dsimp only at h
      by_cases hlt : lt m2 x = true
      · rw [if_pos hlt] at h
        simp only [Option.some.injEq, Prod.mk.injEq] at h
        obtain ⟨h1, h2⟩ := h
        subst h1; subst h2
        have ih := extractMin_perm hx
        exact (List.Perm.cons x ih).trans (List.Perm.swap m2 x rest2)
      · rw [if_neg hlt] at h
        simp only [Option.some.injEq, Prod.mk.injEq] at h
        obtain ⟨h1, h2⟩ := h
        subst h1; subst h2
        exact List.Perm.refl _

theorem extractMin_mem {lt : α → α → Bool} {l : List α} {m : α} {rest : List α}
    (h : extractMin lt l = some (m, rest)) : m ∈ l :=
  (extractMin_perm h).symm.subset (List.mem_cons_self m rest)

/-- The extracted element is minimal: nothing in the list is strictly below
it, provided `lt` is irreflexive, asymmetric and negatively transitive
(all hold for the lexicographic orders used by the planner). -/
theorem extractMin_min {lt : α → α → Bool}
    (hirr : ∀ a, lt a a = false)
    (hasym : ∀ a b, lt a b = true → lt b a = false)
    (hneg : ∀ a b c, lt a b = false → lt b c = false → lt a c = false) :
    ∀ {l : List α} {m : α} {rest : List α},
      extractMin lt l = some (m, rest) → ∀ y ∈ l, lt y m = false
  | [], m, rest => by intro h; simp [extractMin] at h
  | x :: xs, m, rest => by
    intro h y hy
    simp only [extractMin] at h
    cases hx : extractMin lt xs with
    | none =>
      rw [hx] at h
      have hxs : xs = [] := extractMin_eq_none.mp hx
      subst hxs
      simp only [Option.some.injEq, Prod.mk.injEq] at h
      obtain ⟨rfl, rfl⟩ := h
      simp only [List.mem_singleton] at hy
      subst hy
      exact hirr y
    | some p =>
      obtain ⟨m2, rest2⟩ := p
      rw [hx] at h
      dsimp only at h
      have ih := fun y hy => extractMin_min hirr hasym hneg hx y hy
      by_cases hlt : lt m2 x = true
      · rw [if_pos hlt] at h
        simp only [Option.some.injEq, Prod.mk.injEq] at h
        obtain ⟨h1, h2⟩ := h
        subst h1; subst h2
        rcases List.mem_cons.mp hy with rfl | hy2
        · exact hasym _ _ hlt
        · exact ih y hy2
      · rw [if_neg hlt] at h
        simp only [Option.some.injEq, Prod.mk.injEq] at h
        obtain ⟨h1, h2⟩ := h
        subst h1; subst h2
        rcases List.mem_cons.mp hy with rfl | hy2
        · exact hirr y
        · have h1 : lt y m2 = false := ih y hy2
          have h2 : lt m2 x = false := by
            cases h3 : lt m2 x
            · rfl
            · exact absurd h3 hlt
          exact hneg y m2 x h1 h2

theorem AstarNode.lt_iff (a b : AstarNode) :
    AstarNode.lt a b = true ↔
      (a.f_cost < b.f_cost ∨ (a.f_cost = b.f_cost ∧ a.h_cost < b.h_cost)) := by
  unfold AstarNode.lt
  by_cases hf : a.f_cost = b.f_cost <;> simp [hf]

theorem AstarNode.lt_irrefl (a : AstarNode) : AstarNode.lt a a = false := by
  cases h : AstarNode.lt a a
  · rfl
  · have := (AstarNode.lt_iff a a).mp h
    omega

theorem AstarNode.lt_asymm (a b : AstarNode) :
    AstarNode.lt a b = true → AstarNode.lt b a = false := by
  intro h
  have h1 := (AstarNode.lt_iff a b).mp h
  cases h2 : AstarNode.lt b a
  · rfl
  · have := (AstarNode.lt_iff b a).mp h2
    omega

theorem AstarNode.lt_negtrans (a b c : AstarNode) :
    AstarNode.lt a b = false → AstarNode.lt b c = false →
    AstarNode.lt a c = false := by
  intro h1 h2
  have h1' : ¬(a.f_cost < b.f_cost ∨ (a.f_cost = b.f_cost ∧ a.h_cost < b.h_cost)) := by
    intro hcon
    rw [← AstarNode.lt_iff] at hcon
    rw [h1] at hcon
    cases hcon
  have h2' : ¬(b.f_cost < c.f_cost ∨ (b.f_cost = c.f_cost ∧ b.h_cost < c.h_cost)) := by
    intro hcon
    rw [← AstarNode.lt_iff] at hcon
    rw [h2] at hcon
    cases hcon
  cases h3 : AstarNode.lt a c
  · rfl
  · have h3' := (AstarNode.lt_iff a c).mp h3
    push_neg at h1' h2'
    omega

/-- The minimality fact specialised to the A* open list. -/
theorem extractMin_astar_min {l : List AstarNode} {m : AstarNode} {rest : List AstarNode}
    (h : extractMin AstarNode.lt l = some (m, rest)) :
    ∀ y ∈ l, AstarNode.lt y m = false :=
  extractMin_min AstarNode.lt_irrefl AstarNode.lt_asymm AstarNode.lt_negtrans h

/-! ## Search contexts, legal steps, feasible paths -/

/-- All parameters of one `astar_search` call, after the preamble fixed
`rows`, `cols` and the effective `max_time`. -/
structure SearchCtx where
  start : Cell
  goal : Cell
  cs : List RawConstraint
  grid : Grid
  rows : Nat
  cols : Nat
  aid : AgentId
  maxT : Nat

def defaultCell : Cell := (0, 0)

def inBounds (rows cols : Nat) (q : Cell) : Prop :=
  0 ≤ q.1 ∧ q.1 < (rows : Int) ∧ 0 ≤ q.2 ∧ q.2 < (cols : Int)

instance (rows cols : Nat) (q : Cell) : Decidable (inBounds rows cols q) := by
  unfold inBounds; infer_instance

/-- A legal move of the time-expanded search: arriving at cell `q` at time
`t` from cell `p`, exactly the conditions checked by the neighbor loop. -/
def stepOK (C : SearchCtx) (p : Cell) (t : Nat) (q : Cell) : Prop :=
  (∃ d ∈ directions, q = (p.1 + d.1, p.2 + d.2)) ∧
  inBounds C.rows C.cols q ∧
  (∃ ch, cellAt C.grid q.1 q.2 = some ch ∧ ch ≠ '#') ∧
  q ∉ vertexConstraintsAt C.cs (some C.aid) (t : Int) ∧
  q ∉ vertexConstraintsAt C.cs none (t : Int) ∧
  (p, q) ∉ edgeConstraintsAt C.cs (some C.aid) (t : Int) ∧
  (p, q) ∉ edgeConstraintsAt C.cs none (t : Int) ∧
  t ≤ C.maxT

/-- Well-formedness of an open-list node: its bookkeeping fields are
consistent and its parent chain records a legal walk from the start. -/
def GoodNode (C : SearchCtx) : AstarNode → Prop
  | .mk p g h par t =>
    h = heuristic p C.goal ∧ g = t ∧
    match par with
    | none => p = C.start ∧ t = 0
    | some q => GoodNode C q ∧ t = q.time + 1 ∧ stepOK C q.position t p

/-- A nonempty legal constrained walk starting at `C.start`, the cell at
index `i` occupied at time `i`. -/
def ChainOK (C : SearchCtx) (π : List Cell) : Prop :=
  π ≠ [] ∧ π.getD 0 defaultCell = C.start ∧
  ∀ i, i + 1 < π.length →
    stepOK C (π.getD i defaultCell) (i + 1) (π.getD (i + 1) defaultCell)

/-- A path the search may return: a legal walk from start that ends at the
goal at a time whose whole future window `[arrival, maxT]` is free of
vertex constraints on the goal. -/
def FeasiblePath (C : SearchCtx) (π : List Cell) : Prop :=
  ChainOK C π ∧
  π.getD (π.length - 1) defaultCell = C.goal ∧
  forbiddenLater C.cs C.aid C.goal (π.length - 1) C.maxT = false

theorem GoodNode.h_eq {C : SearchCtx} {n : AstarNode} (h : GoodNode C n) :
    n.h_cost = heuristic n.position C.goal := by
  cases n with
  | mk p g hc par t =>
    unfold GoodNode at h
    exact h.1

theorem GoodNode.g_eq_time {C : SearchCtx} {n : AstarNode} (h : GoodNode C n) :
    n.g_cost = n.time := by
  cases n with
  | mk p g hc par t =>
    unfold GoodNode at h
    exact h.2.1

theorem GoodNode.time_le_maxT {C : SearchCtx} {n : AstarNode} (h : GoodNode C n) :
    n.time ≤ C.maxT := by
  cases n with
  | mk p g hc par t =>
    unfold GoodNode at h
    cases par with
    | none => simp [AstarNode.time, h.2.2.2]
    | some q =>
      have hs := h.2.2.2.2
      unfold stepOK at hs
      simp only [AstarNode.time]
      exact hs.2.2.2.2.2.2.2

theorem getD_append_left {l l2 : List α} {i : Nat} (h : i < l.length) (d : α) :
    (l ++ l2).getD i d = l.getD i d := by
  simp [List.getD_eq_getElem?_getD, List.getElem?_append, h]

theorem getD_append_length {l : List α} (a d : α) :
    (l ++ [a]).getD l.length d = a := by
  simp [List.getD_eq_getElem?_getD]

/-- The reconstructed path of a well-formed node is a legal walk of length
`time + 1` ending at the node's position. -/
theorem GoodNode.revPath_spec {C : SearchCtx} :
    ∀ n : AstarNode, GoodNode C n →
      n.revPath.reverse.length = n.time + 1 ∧
      ChainOK C n.revPath.reverse ∧
      n.revPath.reverse.getD n.time defaultCell = n.position
  | .mk p g h par t => by
    intro hg
    unfold GoodNode at hg
    obtain ⟨hh, hgt, hrest⟩ := hg
    cases par with
    | none =>
      obtain ⟨hp, ht⟩ := hrest
      subst hp; subst ht
      refine ⟨rfl, ⟨by simp [AstarNode.revPath], by simp [AstarNode.revPath], ?_⟩, by
        simp [AstarNode.revPath, AstarNode.time, AstarNode.position]⟩
      intro i hi
      simp [AstarNode.revPath] at hi
    | some q =>
      obtain ⟨hq, ht, hstep⟩ := hrest
      have ih := GoodNode.revPath_spec q hq
      obtain ⟨ihlen, ⟨ihne, ihhead, ihsteps⟩, ihlast⟩ := ih
      have hrev : (AstarNode.revPath (.mk p g h (some q) t)).reverse
          = q.revPath.reverse ++ [p] := by
        simp [AstarNode.revPath]
      have htime : (AstarNode.mk p g h (some q) t).time = t := rfl
      have hpos : (AstarNode.mk p g h (some q) t).position = p := rfl
      rw [hrev, htime, hpos]
      have hlen : (q.revPath.reverse ++ [p]).length = t + 1 := by
        simp [ihlen, ht]
      refine ⟨hlen, ⟨by simp, ?_, ?_⟩, ?_⟩
      · rw [getD_append_left (by omega) defaultCell]
        exact ihhead
      · intro i hi
        rw [hlen] at hi
        by_cases hcase : i + 1 < q.revPath.reverse.length
        · rw [getD_append_left (by omega) defaultCell,
            getD_append_left hcase defaultCell]
          exact ihsteps i hcase
        · have hieq : i + 1 = q.revPath.reverse.length := by omega
          have hi2 : i = q.time := by omega
          rw [getD_append_left (by omega) defaultCell]
          have : (q.revPath.reverse ++ [p]).getD (i + 1) defaultCell = p := by
            rw [hieq]
            exact getD_append_length p defaultCell
          rw [this, hi2, ihlast]
          have ht2 : q.time + 1 = t := by omega
          rw [ht2]
          exact hstep
      · have : t = q.revPath.reverse.length := by omega
        rw [this]
        exact getD_append_length p defaultCell


/-! ## Expansion lemmas -/

/-- The node pushed by the neighbor loop for a surviving move to `q`. -/
def stepNode (C : SearchCtx) (curr : AstarNode) (q : Cell) : AstarNode :=
  AstarNode.mk q (curr.g_cost + 1) (heuristic q C.goal) (some curr) (curr.time + 1)

theorem except_bind_ok {α β : Type} {x : Except Unit α} {g : α → Except Unit β} {out : β}
    (h : (x >>= g) = .ok out) : ∃ a, x = .ok a ∧ g a = .ok out := by
  cases x with
  | error e => simp [Bind.bind, Except.bind] at h
  | ok a => exact ⟨a, rfl, h⟩

theorem expandStep_sound {C : SearchCtx} {curr : AstarNode} {acc : List AstarNode}
    {d : Int × Int} {out : List AstarNode} (hd : d ∈ directions)
    (h : expandStep C.goal C.cs C.grid C.rows C.cols C.aid C.maxT curr acc d = .ok out) :
    out = acc ∨
      ∃ q, stepOK C curr.position (curr.time + 1) q ∧ out = acc ++ [stepNode C curr q] := by
  unfold expandStep at h
  by_cases hb : 0 ≤ curr.position.1 + d.1 ∧ curr.position.1 + d.1 < (C.rows : Int) ∧
      0 ≤ curr.position.2 + d.2 ∧ curr.position.2 + d.2 < (C.cols : Int)
  · rw [if_pos hb] at h
    cases hcell : cellAt C.grid (curr.position.1 + d.1) (curr.position.2 + d.2) with
    | none =>
      rw [hcell] at h
      simp [throw, throwThe, MonadExceptOf.throw] at h
    | some ch =>
      rw [hcell] at h
      dsimp only at h
      by_cases hch : ch = '#'
      · rw [if_pos hch] at h
        simp only [pure, Except.pure, Except.ok.injEq] at h
        exact Or.inl h.symm
      · rw [if_neg hch] at h
        by_cases hv : ((curr.position.1 + d.1, curr.position.2 + d.2) : Cell) ∈
            vertexConstraintsAt C.cs (some C.aid) ((curr.time + 1 : Nat) : Int) ∨
            ((curr.position.1 + d.1, curr.position.2 + d.2) : Cell) ∈
            vertexConstraintsAt C.cs none ((curr.time + 1 : Nat) : Int)
        · rw [if_pos hv] at h
          simp only [pure, Except.pure, Except.ok.injEq] at h
          exact Or.inl h.symm
        · rw [if_neg hv] at h
          by_cases he : (curr.position, ((curr.position.1 + d.1, curr.position.2 + d.2) : Cell)) ∈
              edgeConstraintsAt C.cs (some C.aid) ((curr.time + 1 : Nat) : Int) ∨
              (curr.position, ((curr.position.1 + d.1, curr.position.2 + d.2) : Cell)) ∈
              edgeConstraintsAt C.cs none ((curr.time + 1 : Nat) : Int)
          · rw [if_pos he] at h
            simp only [pure, Except.pure, Except.ok.injEq] at h
            exact Or.inl h.symm
          · rw [if_neg he] at h
            by_cases ht : curr.time + 1 > C.maxT
            · rw [if_pos ht] at h
              simp only [pure, Except.pure, Except.ok.injEq] at h
              exact Or.inl h.symm
            · rw [if_neg ht] at h
              simp only [pure, Except.pure, Except.ok.injEq] at h
              refine Or.inr ⟨(curr.position.1 + d.1, curr.position.2 + d.2), ?_, h.symm⟩
              push_neg at hv he
              exact ⟨⟨d, hd, rfl⟩, hb, ⟨ch, hcell, hch⟩, hv.1, hv.2, he.1, he.2, by omega⟩
  · rw [if_neg hb] at h
    simp only [pure, Except.pure, Except.ok.injEq] at h
    exact Or.inl h.symm

theorem expandStep_push {C : SearchCtx} {curr : AstarNode} {acc : List AstarNode}
    {d : Int × Int} {q : Cell}
    (hq : q = (curr.position.1 + d.1, curr.position.2 + d.2))
    (hstep : stepOK C curr.position (curr.time + 1) q) :
    expandStep C.goal C.cs C.grid C.rows C.cols C.aid C.maxT curr acc d =
      .ok (acc ++ [stepNode C curr q]) := by
  obtain ⟨hgeo, hib, ⟨ch, hch, hchne⟩, hv1, hv2, he1, he2, hle⟩ := hstep
  subst hq
  unfold expandStep
  unfold inBounds at hib
  rw [if_pos hib]
  dsimp only at hch
  rw [hch]
  dsimp only
  rw [if_neg hchne]
  rw [if_neg (not_or.mpr ⟨hv1, hv2⟩)]
  rw [if_neg (not_or.mpr ⟨he1, he2⟩)]
  rw [if_neg (by omega)]
  rfl

theorem expandFold_sound {C : SearchCtx} {curr : AstarNode} :
    ∀ (ds : List (Int × Int)) (acc out : List AstarNode),
    (∀ d ∈ ds, d ∈ directions) →
    ds.foldlM (expandStep C.goal C.cs C.grid C.rows C.cols C.aid C.maxT curr) acc = .ok out →
    ∀ n ∈ out, n ∈ acc ∨ ∃ q, stepOK C curr.position (curr.time + 1) q ∧ n = stepNode C curr q
  | [], acc, out => by
    intro _ h n hn
    simp only [List.foldlM_nil, pure, Except.pure, Except.ok.injEq] at h
    subst h
    exact Or.inl hn
  | d :: ds, acc, out => by
    intro hds h n hn
    rw [List.foldlM_cons] at h
    obtain ⟨acc1, hstep, hrest⟩ := except_bind_ok h
    have ih := expandFold_sound ds acc1 out (fun d2 hd2 => hds d2 (List.mem_cons_of_mem d hd2))
      hrest n hn
    rcases ih with hmem | hnew
    · rcases expandStep_sound (hds d (List.mem_cons_self d ds)) hstep with rfl | ⟨q, hsq, rfl⟩
      · exact Or.inl hmem
      · rcases List.mem_append.mp hmem with h1 | h2
        · exact Or.inl h1
        · simp only [List.mem_singleton] at h2
          exact Or.inr ⟨q, hsq, h2⟩
    · exact Or.inr hnew

theorem expandFold_mono {C : SearchCtx} {curr : AstarNode} :
    ∀ (ds : List (Int × Int)) (acc out : List AstarNode),
    (∀ d ∈ ds, d ∈ directions) →
    ds.foldlM (expandStep C.goal C.cs C.grid C.rows C.cols C.aid C.maxT curr) acc = .ok out →
    ∀ n ∈ acc, n ∈ out
  | [], acc, out => by
    intro _ h n hn
    simp only [List.foldlM_nil, pure, Except.pure, Except.ok.injEq] at h
    subst h
    exact hn
  | d :: ds, acc, out => by
    intro hds h n hn
    rw [List.foldlM_cons] at h
    obtain ⟨acc1, hstep, hrest⟩ := except_bind_ok h
    have ih := expandFold_mono ds acc1 out (fun d2 hd2 => hds d2 (List.mem_cons_of_mem d hd2)) hrest
    rcases expandStep_sound (hds d (List.mem_cons_self d ds)) hstep with rfl | ⟨q, hsq, rfl⟩
    · exact ih n hn
    · exact ih n (List.mem_append.mpr (Or.inl hn))

theorem expandFold_complete {C : SearchCtx} {curr : AstarNode} :
    ∀ (ds : List (Int × Int)) (acc out : List AstarNode),
    (∀ d ∈ ds, d ∈ directions) →
    ds.foldlM (expandStep C.goal C.cs C.grid C.rows C.cols C.aid C.maxT curr) acc = .ok out →
    ∀ (q : Cell) (d : Int × Int), d ∈ ds →
      q = (curr.position.1 + d.1, curr.position.2 + d.2) →
      stepOK C curr.position (curr.time + 1) q →
      stepNode C curr q ∈ out
  | [], acc, out => by
    intro _ _ q d hd
    simp at hd
  | d :: ds, acc, out => by
    intro hds h q d2 hd2 hq hstep
    rw [List.foldlM_cons] at h
    obtain ⟨acc1, hstepd, hrest⟩ := except_bind_ok h
    rcases List.mem_cons.mp hd2 with rfl | hd2tail
    · have hpush := @expandStep_push C curr acc _ _ hq hstep
      rw [hpush] at hstepd
      simp only [Except.ok.injEq] at hstepd
      subst hstepd
      exact expandFold_mono ds _ out (fun d3 hd3 => hds d3 (List.mem_cons_of_mem d2 hd3)) hrest
        (stepNode C curr q) (List.mem_append.mpr (Or.inr (List.mem_singleton.mpr rfl)))
    · exact expandFold_complete ds acc1 out
        (fun d3 hd3 => hds d3 (List.mem_cons_of_mem d hd3)) hrest q d2 hd2tail hq hstep

theorem expandNode_sound {C : SearchCtx} {curr : AstarNode} {out : List AstarNode}
    (h : expandNode C.goal C.cs C.grid C.rows C.cols C.aid C.maxT curr = .ok out) :
    ∀ n ∈ out, ∃ q, stepOK C curr.position (curr.time + 1) q ∧ n = stepNode C curr q := by
  intro n hn
  have hall := expandFold_sound directions [] out (fun d hd => hd) h n hn
  rcases hall with hmem | hnew
  · simp at hmem
  · exact hnew

theorem expandNode_complete {C : SearchCtx} {curr : AstarNode} {out : List AstarNode}
    (h : expandNode C.goal C.cs C.grid C.rows C.cols C.aid C.maxT curr = .ok out)
    {q : Cell} (hstep : stepOK C curr.position (curr.time + 1) q) :
    stepNode C curr q ∈ out := by
  obtain ⟨d, hd, hq⟩ := hstep.1
  exact expandFold_complete directions [] out (fun d2 hd2 => hd2) h q d hd hq hstep

theorem GoodNode.stepNode {C : SearchCtx} {curr : AstarNode} {q : Cell}
    (hcurr : GoodNode C curr) (hstep : stepOK C curr.position (curr.time + 1) q) :
    GoodNode C (UrbanAirspaceSim.stepNode C curr q) := by
  unfold UrbanAirspaceSim.stepNode
  unfold GoodNode
  refine ⟨rfl, ?_, hcurr, rfl, hstep⟩
  exact congrArg (· + 1) hcurr.g_eq_time

/-! ## Soundness of the A* loop -/

theorem astarLoop_sound {C : SearchCtx} :
    ∀ (fuel : Nat) (openList : List AstarNode) (closed : List ((Cell × Nat) × Nat))
      (p : List Cell),
      (∀ n ∈ openList, GoodNode C n) →
      astarLoop C.goal C.cs C.grid C.rows C.cols C.aid C.maxT fuel openList closed =
        .ok (some (some p)) →
      ∃ n : AstarNode, GoodNode C n ∧ n.position = C.goal ∧
        forbiddenLater C.cs C.aid C.goal n.time C.maxT = false ∧
        p = n.revPath.reverse
  | 0, openList, closed => by
    intro p hgood h
    simp [astarLoop] at h
  | fuel + 1, openList, closed => by
    intro p hgood h
    unfold astarLoop at h
    cases hext : extractMin AstarNode.lt openList with
    | none =>
      rw [hext] at h
      simp at h
    | some pr =>
      obtain ⟨curr, openRest⟩ := pr
      rw [hext] at h
      dsimp only at h
      have hcurr : GoodNode C curr := hgood curr (extractMin_mem hext)
      have hrest : ∀ n ∈ openRest, GoodNode C n := fun n hn =>
        hgood n ((extractMin_perm hext).symm.subset (List.mem_cons_of_mem curr hn))
      cases hfind : assocFind (curr.position, curr.time) closed with
      | some g0 =>
        rw [hfind] at h
        dsimp only at h
        by_cases hle : g0 ≤ curr.g_cost
        · rw [if_pos (by simpa using hle)] at h
          exact astarLoop_sound fuel openRest closed p hrest h
        · rw [if_neg (by simpa using hle)] at h
          by_cases hacc : curr.position = C.goal ∧
              forbiddenLater C.cs C.aid C.goal curr.time C.maxT = false
          · rw [if_pos hacc] at h
            simp only [Except.ok.injEq, Option.some.injEq] at h
            exact ⟨curr, hcurr, hacc.1, hacc.2, h.symm⟩
          · rw [if_neg hacc] at h
            cases hexp : expandNode C.goal C.cs C.grid C.rows C.cols C.aid C.maxT curr with
            | error e =>
              rw [hexp] at h
              simp at h
            | ok newNodes =>
              rw [hexp] at h
              dsimp only at h
              have hnew : ∀ n ∈ openRest ++ newNodes, GoodNode C n := by
                intro n hn
                rcases List.mem_append.mp hn with h1 | h2
                · exact hrest n h1
                · obtain ⟨q, hq, rfl⟩ := expandNode_sound hexp n h2
                  exact GoodNode.stepNode hcurr hq
              exact astarLoop_sound fuel (openRest ++ newNodes) _ p hnew h
      | none =>
        rw [hfind] at h
        dsimp only at h
        rw [if_neg (by simp)] at h
        by_cases hacc : curr.position = C.goal ∧
            forbiddenLater C.cs C.aid C.goal curr.time C.maxT = false
        · rw [if_pos hacc] at h
          simp only [Except.ok.injEq, Option.some.injEq] at h
          exact ⟨curr, hcurr, hacc.1, hacc.2, h.symm⟩
        · rw [if_neg hacc] at h
          cases hexp : expandNode C.goal C.cs C.grid C.rows C.cols C.aid C.maxT curr with
          | error e =>
            rw [hexp] at h
            simp at h
          | ok newNodes =>
            rw [hexp] at h
            dsimp only at h
            have hnew : ∀ n ∈ openRest ++ newNodes, GoodNode C n := by
              intro n hn
              rcases List.mem_append.mp hn with h1 | h2
              · exact hrest n h1
              · obtain ⟨q, hq, rfl⟩ := expandNode_sound hexp n h2
                exact GoodNode.stepNode hcurr hq
            exact astarLoop_sound fuel (openRest ++ newNodes) _ p hnew h

/-- The search context of a call `astar_search start goal cs grid aid m`. -/
def astarCtx (start goal : Cell) (cs : List RawConstraint) (grid : Grid)
    (aid : AgentId) (maxTimeArg : Option Int) : SearchCtx :=
  ⟨start, goal, cs, grid, grid.length, (grid.headD []).length, aid,
    effectiveMaxTime maxTimeArg grid.length (grid.headD []).length⟩

/-- A start node is well-formed. -/
theorem GoodNode.start (C : SearchCtx) :
    GoodNode C (AstarNode.mk C.start 0 (heuristic C.start C.goal) none 0) := by
  unfold GoodNode
  exact ⟨rfl, rfl, rfl, rfl⟩

/-- Soundness of `astar_search`: a returned path is a feasible path of the
corresponding search context. -/
theorem astar_search_sound {start goal : Cell} {cs : List RawConstraint} {grid : Grid}
    {aid : AgentId} {maxTimeArg : Option Int} {p : List Cell}
    (h : astar_search start goal cs grid aid maxTimeArg = .ok (some (some p))) :
    FeasiblePath (astarCtx start goal cs grid aid maxTimeArg) p := by
  unfold astar_search at h
  by_cases hempty : grid = [] ∨ grid.headD [] = []
  · rw [if_pos hempty] at h
    simp at h
  · rw [if_neg hempty] at h
    dsimp only at h
    have hsound := @astarLoop_sound (astarCtx start goal cs grid aid maxTimeArg)
      (astarFuel grid.length (grid.headD []).length
        (effectiveMaxTime maxTimeArg grid.length (grid.headD []).length))
      [AstarNode.mk start 0 (heuristic start goal) none 0] [] p
      (by
        intro n hn
        simp only [List.mem_singleton] at hn
        subst hn
        exact GoodNode.start (astarCtx start goal cs grid aid maxTimeArg))
      h
    obtain ⟨n, hg, hpos, hforb, rfl⟩ := hsound
    obtain ⟨hlen, hchain, hlast⟩ := GoodNode.revPath_spec n hg
    refine ⟨hchain, ?_, ?_⟩
    · rw [hlen]
      simp only [Nat.add_sub_cancel]
      rw [hlast, hpos]
    · rw [hlen]
      simp only [Nat.add_sub_cancel]
      exact hforb


/-! ## Optimality of the A* loop -/

theorem heuristic_self (p : Cell) : heuristic p p = 0 := by
  simp [heuristic]

theorem heuristic_step {C : SearchCtx} {p : Cell} {t : Nat} {q : Cell}
    (h : stepOK C p t q) : heuristic p C.goal ≤ heuristic q C.goal + 1 := by
  obtain ⟨⟨d, hd, hq⟩, _⟩ := h
  subst hq
  simp only [directions, List.mem_cons, List.mem_singleton] at hd
  unfold heuristic
  rcases hd with rfl | rfl | rfl | rfl | rfl | hfalse
  · dsimp only; omega
  · dsimp only; omega
  · dsimp only; omega
  · dsimp only; omega
  · dsimp only; omega
  · simp at hfalse

/-- Along a feasible path, the heuristic at index `j` is at most the number
of remaining steps (admissibility along the path). -/
theorem feasible_heuristic_bound {C : SearchCtx} {π : List Cell}
    (hf : FeasiblePath C π) :
    ∀ k j, j + k = π.length - 1 → heuristic (π.getD j defaultCell) C.goal ≤ k := by
  intro k
  induction k with
  | zero =>
    intro j hj
    simp only [Nat.add_zero] at hj
    rw [hj, hf.2.1, heuristic_self]
  | succ k ih =>
    intro j hj
    obtain ⟨⟨hne, hhead, hsteps⟩, hlast, hforb⟩ := hf
    have hlen : 1 ≤ π.length := List.length_pos.mpr hne
    have hstep := hsteps j (by omega)
    have h1 := heuristic_step hstep
    have h2 := ih (j + 1) (by omega)
    omega

theorem GoodNode.f_eq {C : SearchCtx} {n : AstarNode} (h : GoodNode C n) :
    n.f_cost = n.time + heuristic n.position C.goal := by
  unfold AstarNode.f_cost
  rw [h.g_eq_time, h.h_eq]

/-- The closed dict has a binding for state `s`. -/
def closedHas (closed : List ((Cell × Nat) × Nat)) (s : Cell × Nat) : Prop :=
  (assocFind s closed).isSome = true

instance (closed : List ((Cell × Nat) × Nat)) (s : Cell × Nat) :
    Decidable (closedHas closed s) := by
  unfold closedHas; infer_instance

/-- Open-list witness invariant: for every feasible path, every not-yet-closed
state of the path whose predecessor is closed (or which is the start) is
represented on the open list. -/
def OpenInv (C : SearchCtx) (openList : List AstarNode)
    (closed : List ((Cell × Nat) × Nat)) : Prop :=
  ∀ π : List Cell, FeasiblePath C π → ∀ j, j < π.length →
    ¬ closedHas closed (π.getD j defaultCell, j) →
    (j = 0 ∨ closedHas closed (π.getD (j - 1) defaultCell, j - 1)) →
    ∃ n ∈ openList, n.position = π.getD j defaultCell ∧ n.time = j

/-- No accepted goal state is closed while the loop keeps running (closing
one returns immediately). -/
def NoAccClosed (C : SearchCtx) (closed : List ((Cell × Nat) × Nat)) : Prop :=
  ∀ pos t, closedHas closed (pos, t) →
    ¬(pos = C.goal ∧ forbiddenLater C.cs C.aid C.goal t C.maxT = false)

theorem exists_boundary (cov : Nat → Prop) [DecidablePred cov] {len : Nat}
    (hlen : 0 < len) (hlast : ¬cov (len - 1)) :
    ∃ j, j < len ∧ ¬cov j ∧ (j = 0 ∨ cov (j - 1)) := by
  have hex : ∃ j, ¬cov j := ⟨len - 1, hlast⟩
  have hj0 : ¬cov (Nat.find hex) := Nat.find_spec hex
  have hle : Nat.find hex ≤ len - 1 := Nat.find_min' hex hlast
  refine ⟨Nat.find hex, by omega, hj0, ?_⟩
  by_cases h0 : Nat.find hex = 0
  · exact Or.inl h0
  · refine Or.inr ?_
    have hmin := Nat.find_min hex
      (show Nat.find hex - 1 < Nat.find hex by omega)
    exact not_not.mp hmin

theorem assocFind_cons [DecidableEq κ] {k2 : κ} {v : β} {rest : List (κ × β)} {k : κ} :
    assocFind k ((k2, v) :: rest) = if k2 = k then some v else assocFind k rest := rfl

theorem closedHas_cons {closed : List ((Cell × Nat) × Nat)} {key : Cell × Nat} {g : Nat}
    {s : Cell × Nat} :
    closedHas ((key, g) :: closed) s ↔ s = key ∨ closedHas closed s := by
  unfold closedHas
  rw [assocFind_cons]
  by_cases hk : key = s
  · rw [if_pos hk]
    simp [hk.symm]
  · rw [if_neg hk]
    have hns : ¬ s = key := fun he => hk he.symm
    simp [hns]

theorem OpenInv.skip {C : SearchCtx} {openList openRest : List AstarNode}
    {closed : List ((Cell × Nat) × Nat)} {curr : AstarNode}
    (hext : extractMin AstarNode.lt openList = some (curr, openRest))
    (hinv : OpenInv C openList closed)
    (hcov : closedHas closed (curr.position, curr.time)) :
    OpenInv C openRest closed := by
  intro π hπ j hj huncov hprev
  obtain ⟨n, hnmem, hnpos, hntime⟩ := hinv π hπ j hj huncov hprev
  have hne : n ≠ curr := by
    intro hne
    subst hne
    apply huncov
    rw [← hnpos, ← hntime]
    exact hcov
  have hsub := (extractMin_perm hext).subset hnmem
  rcases List.mem_cons.mp hsub with h1 | h2
  · exact absurd h1 hne
  · exact ⟨n, h2, hnpos, hntime⟩

theorem OpenInv.process {C : SearchCtx} {openList openRest : List AstarNode}
    {closed : List ((Cell × Nat) × Nat)} {curr : AstarNode} {newNodes : List AstarNode}
    (hext : extractMin AstarNode.lt openList = some (curr, openRest))
    (hinv : OpenInv C openList closed)
    (hexp : expandNode C.goal C.cs C.grid C.rows C.cols C.aid C.maxT curr = .ok newNodes) :
    OpenInv C (openRest ++ newNodes) (((curr.position, curr.time), curr.g_cost) :: closed) := by
  intro π hπ j hj huncov hprev
  have huncov1 : ¬ closedHas closed (π.getD j defaultCell, j) := by
    intro hc
    exact huncov (closedHas_cons.mpr (Or.inr hc))
  have hneqkey : ((π.getD j defaultCell, j) : Cell × Nat) ≠ (curr.position, curr.time) := by
    intro he
    exact huncov (closedHas_cons.mpr (Or.inl he))
  have hwitOld : (j = 0 ∨ closedHas closed (π.getD (j - 1) defaultCell, j - 1)) →
      ∃ n ∈ openRest ++ newNodes, n.position = π.getD j defaultCell ∧ n.time = j := by
    intro hb
    obtain ⟨n, hnmem, hnpos, hntime⟩ := hinv π hπ j hj huncov1 hb
    have hne : n ≠ curr := by
      intro hne
      subst hne
      apply hneqkey
      rw [hnpos, hntime]
    have hsub := (extractMin_perm hext).subset hnmem
    rcases List.mem_cons.mp hsub with h1 | h2
    · exact absurd h1 hne
    · exact ⟨n, List.mem_append.mpr (Or.inl h2), hnpos, hntime⟩
  rcases hprev with h0 | hprevcov
  · exact hwitOld (Or.inl h0)
  · rcases closedHas_cons.mp hprevcov with hkey | hprevold
    · have hj1 : 1 ≤ j := by
        rcases Nat.eq_zero_or_pos j with rfl | h
        · exact absurd hkey hneqkey
        · exact h
      obtain ⟨⟨hπne, hπhead, hπsteps⟩, hπlast, hπforb⟩ := hπ
      have hj0 : j - 1 + 1 = j := by omega
      have hstep := hπsteps (j - 1) (by omega)
      rw [hj0] at hstep
      have hkey1 : π.getD (j - 1) defaultCell = curr.position := congrArg Prod.fst hkey
      have hkey2 : j - 1 = curr.time := congrArg Prod.snd hkey
      rw [hkey1] at hstep
      have hteq : curr.time + 1 = j := by omega
      have hstep2 : stepOK C curr.position (curr.time + 1) (π.getD j defaultCell) := by
        rw [hteq]
        exact hstep
      have hpush := expandNode_complete hexp hstep2
      refine ⟨stepNode C curr (π.getD j defaultCell),
        List.mem_append.mpr (Or.inr hpush), rfl, ?_⟩
      show curr.time + 1 = j
      omega
    · exact hwitOld (Or.inr hprevold)

theorem NoAccClosed.push {C : SearchCtx} {closed : List ((Cell × Nat) × Nat)}
    {curr : AstarNode} (hnoacc : NoAccClosed C closed)
    (hnacc : ¬(curr.position = C.goal ∧
      forbiddenLater C.cs C.aid C.goal curr.time C.maxT = false)) :
    NoAccClosed C (((curr.position, curr.time), curr.g_cost) :: closed) := by
  intro pos t hcov
  rcases closedHas_cons.mp hcov with heq | hold
  · have h1 : pos = curr.position := congrArg Prod.fst heq
    have h2 : t = curr.time := congrArg Prod.snd heq
    subst h1; subst h2
    exact hnacc
  · exact hnoacc pos t hold

/-- Optimality: a path returned by the loop is no longer than any feasible
path, given the open-list witness invariant. -/
theorem astarLoop_opt {C : SearchCtx} :
    ∀ (fuel : Nat) (openList : List AstarNode) (closed : List ((Cell × Nat) × Nat))
      (p : List Cell),
      (∀ n ∈ openList, GoodNode C n) →
      OpenInv C openList closed →
      NoAccClosed C closed →
      astarLoop C.goal C.cs C.grid C.rows C.cols C.aid C.maxT fuel openList closed =
        .ok (some (some p)) →
      ∀ π, FeasiblePath C π → p.length ≤ π.length
  | 0, openList, closed => by
    intro p hgood hinv hnoacc h π hπ
    simp [astarLoop] at h
  | fuel + 1, openList, closed => by
    intro p hgood hinv hnoacc h π hπ
    unfold astarLoop at h
    cases hext : extractMin AstarNode.lt openList with
    | none =>
      rw [hext] at h
      simp at h
    | some pr =>
      obtain ⟨curr, openRest⟩ := pr
      rw [hext] at h
      dsimp only at h
      have hcurr : GoodNode C curr := hgood curr (extractMin_mem hext)
      have hrest : ∀ n ∈ openRest, GoodNode C n := fun n hn =>
        hgood n ((extractMin_perm hext).symm.subset (List.mem_cons_of_mem curr hn))
      have hreturn : curr.position = C.goal ∧
          forbiddenLater C.cs C.aid C.goal curr.time C.maxT = false →
          p = curr.revPath.reverse → p.length ≤ π.length := by
        rintro ⟨hpos, hforb⟩ rfl
        obtain ⟨⟨hπne, hπhead, hπsteps⟩, hπlast, hπforb⟩ := hπ
        have hπlen : 1 ≤ π.length := List.length_pos.mpr hπne
        have hlastopen :
            ¬ closedHas closed (π.getD (π.length - 1) defaultCell, π.length - 1) := by
          intro hcov
          exact hnoacc _ _ hcov ⟨hπlast, hπforb⟩
        obtain ⟨j, hjlt, hjuncov, hjprev⟩ :=
          exists_boundary (fun j => closedHas closed (π.getD j defaultCell, j)) hπlen hlastopen
        obtain ⟨n, hnmem, hnpos, hntime⟩ :=
          hinv π ⟨⟨hπne, hπhead, hπsteps⟩, hπlast, hπforb⟩ j hjlt hjuncov hjprev
        have hngood := hgood n hnmem
        have hnf : n.f_cost ≤ π.length - 1 := by
          rw [hngood.f_eq, hnpos, hntime]
          have hb := feasible_heuristic_bound (π := π)
            ⟨⟨hπne, hπhead, hπsteps⟩, hπlast, hπforb⟩ (π.length - 1 - j) j (by omega)
          omega
        have hcf : curr.f_cost = curr.time := by
          rw [hcurr.f_eq, hpos, heuristic_self]
          omega
        have hmin := extractMin_astar_min hext n hnmem
        have hnlt : ¬(n.f_cost < curr.f_cost) := by
          intro hlt
          have hc : AstarNode.lt n curr = true := (AstarNode.lt_iff n curr).mpr (Or.inl hlt)
          rw [hmin] at hc
          cases hc
        have hplen : (curr.revPath.reverse).length = curr.time + 1 :=
          (GoodNode.revPath_spec curr hcurr).1
        omega
      have hprocess : ∀ newNodes,
          expandNode C.goal C.cs C.grid C.rows C.cols C.aid C.maxT curr = .ok newNodes →
          ¬(curr.position = C.goal ∧
            forbiddenLater C.cs C.aid C.goal curr.time C.maxT = false) →
          astarLoop C.goal C.cs C.grid C.rows C.cols C.aid C.maxT fuel
            (openRest ++ newNodes) (((curr.position, curr.time), curr.g_cost) :: closed) =
            .ok (some (some p)) →
          p.length ≤ π.length := by
        intro newNodes hexp hnacc hrec
        have hgood2 : ∀ n ∈ openRest ++ newNodes, GoodNode C n := by
          intro n hn
          rcases List.mem_append.mp hn with h1 | h2
          · exact hrest n h1
          · obtain ⟨q, hq, rfl⟩ := expandNode_sound hexp n h2
            exact GoodNode.stepNode hcurr hq
        exact astarLoop_opt fuel (openRest ++ newNodes) _ p hgood2
          (OpenInv.process hext hinv hexp) (NoAccClosed.push hnoacc hnacc) hrec π hπ
      cases hfind : assocFind (curr.position, curr.time) closed with
      | some g0 =>
        rw [hfind] at h
        dsimp only at h
        by_cases hle : g0 ≤ curr.g_cost
        · rw [if_pos (by simpa using hle)] at h
          have hcov : closedHas closed (curr.position, curr.time) := by
            unfold closedHas
            rw [hfind]
            rfl
          exact astarLoop_opt fuel openRest closed p hrest
            (OpenInv.skip hext hinv hcov) hnoacc h π hπ
        · rw [if_neg (by simpa using hle)] at h
          by_cases hacc : curr.position = C.goal ∧
              forbiddenLater C.cs C.aid C.goal curr.time C.maxT = false
          · rw [if_pos hacc] at h
            simp only [Except.ok.injEq, Option.some.injEq] at h
            exact hreturn hacc h.symm
          · rw [if_neg hacc] at h
            cases hexp : expandNode C.goal C.cs C.grid C.rows C.cols C.aid C.maxT curr with
            | error e =>
              rw [hexp] at h
              simp at h
            | ok newNodes =>
              rw [hexp] at h
              dsimp only at h
              exact hprocess newNodes hexp hacc h
      | none =>
        rw [hfind] at h
        dsimp only at h
        rw [if_neg (by simp)] at h
        by_cases hacc : curr.position = C.goal ∧
            forbiddenLater C.cs C.aid C.goal curr.time C.maxT = false
        · rw [if_pos hacc] at h
          simp only [Except.ok.injEq, Option.some.injEq] at h
          exact hreturn hacc h.symm
        · rw [if_neg hacc] at h
          cases hexp : expandNode C.goal C.cs C.grid C.rows C.cols C.aid C.maxT curr with
          | error e =>
            rw [hexp] at h
            simp at h
          | ok newNodes =>
            rw [hexp] at h
            dsimp only at h
            exact hprocess newNodes hexp hacc h

/-- Optimality of `astar_search`: a returned path is no longer than any
feasible path of the same search context. -/
theorem astar_search_opt {start goal : Cell} {cs : List RawConstraint} {grid : Grid}
    {aid : AgentId} {maxTimeArg : Option Int} {p : List Cell}
    (h : astar_search start goal cs grid aid maxTimeArg = .ok (some (some p))) :
    ∀ π, FeasiblePath (astarCtx start goal cs grid aid maxTimeArg) π →
      p.length ≤ π.length := by
  intro π hπ
  unfold astar_search at h
  by_cases hempty : grid = [] ∨ grid.headD [] = []
  · rw [if_pos hempty] at h
    simp at h
  · rw [if_neg hempty] at h
    dsimp only at h
    refine @astarLoop_opt (astarCtx start goal cs grid aid maxTimeArg)
      (astarFuel grid.length (grid.headD []).length
        (effectiveMaxTime maxTimeArg grid.length (grid.headD []).length))
      [AstarNode.mk start 0 (heuristic start goal) none 0] [] p
      ?_ ?_ ?_ h π hπ
    · intro n hn
      simp only [List.mem_singleton] at hn
      subst hn
      exact GoodNode.start (astarCtx start goal cs grid aid maxTimeArg)
    · intro π2 hπ2 j hj huncov hprev
      rcases hprev with rfl | hcovered
      · refine ⟨AstarNode.mk start 0 (heuristic start goal) none 0, List.mem_singleton.mpr rfl,
          ?_, rfl⟩
        exact (hπ2.1.2.1).symm
      · exact absurd hcovered (by simp [closedHas, assocFind])
    · intro pos t hcov
      exact absurd hcov (by simp [closedHas, assocFind])


/-! ## Conflict detection (`detect_conflict`, lines 129-182) -/

inductive Conflict where
  | vertex (time : Nat) (agent1 agent2 : AgentId) (pos : Cell)
  | edge (time : Nat) (agent1 agent2 : AgentId) (a1_from a1_to a2_from a2_to : Cell)
deriving DecidableEq

def Conflict.time : Conflict → Nat
  | .vertex t _ _ _ => t
  | .edge t _ _ _ _ _ _ => t

/-- `pos_at` (lines 142-149): position of an agent at time `t`; the agent
holds its last cell for `landing_hold` extra steps, then is absent (`none`).
`path[-1]` on an empty path raises (`Except.error`). -/
def posAt (landingHold : Nat) (path : List Cell) (t : Nat) : Except Unit (Option Cell) :=
  if t < path.length then
    match path.get? t with
    | some c => .ok (some c)
    | none => .error ()
  else if t < path.length + landingHold then
    match path.getLast? with
    | some c => .ok (some c)
    | none => .error ()
  else .ok none

/-- Append `aid` to the group of `pos` (`occ[pos].append(aid)` on a
`defaultdict(list)`, preserving first-insertion key order). -/
def occAdd (occ : List (Cell × List AgentId)) (pos : Cell) (aid : AgentId) :
    List (Cell × List AgentId) :=
  match occ with
  | [] => [(pos, [aid])]
  | (p, l) :: rest =>
    if p = pos then (p, l ++ [aid]) :: rest else (p, l) :: occAdd rest pos aid

/-- All ordered pairs `(l[i], l[j])` with `i < j`: the nested loops of the
vertex scan (lines 160-161) and `itertools.combinations(..., 2)` (line 170). -/
def pairsOf : List α → List (α × α)
  | [] => []
  | x :: xs => xs.map (fun y => (x, y)) ++ pairsOf xs

/-- Conflicts emitted for one occupancy group (lines 158-166). -/
def groupConflicts (t : Nat) (pos : Cell) (agents : List AgentId) : List Conflict :=
  if agents.length > 1 then
    (pairsOf agents).map fun ab => Conflict.vertex t ab.1 ab.2 pos
  else []

/-- One `t` iteration of the vertex scan (lines 152-166). -/
def vertexScanAt (paths : List (AgentId × List Cell)) (landingHold : Nat) (t : Nat) :
    Except Unit (List Conflict) := do
  let occ ← paths.foldlM
    (fun occ ap => do
      match ← posAt landingHold ap.2 t with
      | none => pure occ
      | some c => pure (occAdd occ c ap.1))
    []
  pure (occ.foldl (fun acc entry => acc ++ groupConflicts t entry.1 entry.2) [])

/-- The body of the edge scan for one pair (lines 171-181). -/
def edgeCheckPair (landingHold : Nat) (t : Nat)
    (p1 p2 : AgentId × List Cell) : Except Unit (List Conflict) := do
  let a1_t ← posAt landingHold p1.2 t
  let a1_t1 ← posAt landingHold p1.2 (t - 1)
  let a2_t ← posAt landingHold p2.2 t
  let a2_t1 ← posAt landingHold p2.2 (t - 1)
  match a1_t, a1_t1, a2_t, a2_t1 with
  | some c1, some c1p, some c2, some c2p =>
    if c1 = c2p ∧ c2 = c1p ∧ c1p ≠ c1 then
      pure [Conflict.edge t p1.1 p2.1 c1p c1 c2p c2]
    else pure []
  | _, _, _, _ => pure []

/-- One `t` iteration of the edge scan (lines 169-181). -/
def edgeScanAt (paths : List (AgentId × List Cell)) (landingHold : Nat) (t : Nat) :
    Except Unit (List Conflict) :=
  (pairsOf paths).foldlM
    (fun acc pp => do pure (acc ++ (← edgeCheckPair landingHold t pp.1 pp.2)))
    []

/-- `max(len(p) for p in paths.values()) + landing_hold` (line 140). -/
def detectHorizon (paths : List (AgentId × List Cell)) (landingHold : Nat) : Nat :=
  (paths.map fun ap => ap.2.length).foldl max 0 + landingHold

/-- `detect_conflict` (lines 129-182): vertex conflicts over `[0, T)`, then
edge (swap) conflicts over `[1, T)`. -/
def detect_conflict (paths : List (AgentId × List Cell)) (landingHold : Nat) :
    Except Unit (List Conflict) :=
  if paths = [] then .ok []
  else do
    let maxTime := detectHorizon paths landingHold
    let vcs ← (List.range maxTime).foldlM
      (fun acc t => do pure (acc ++ (← vertexScanAt paths landingHold t))) []
    let ecs ← (List.range' 1 (maxTime - 1)).foldlM
      (fun acc t => do pure (acc ++ (← edgeScanAt paths landingHold t))) []
    pure (vcs ++ ecs)

/-! ## CBS (`cbs_search`, lines 186-245) -/

structure CBSNode where
  constraints : List RawConstraint
  paths : List (AgentId × List Cell)
  cost : Nat
deriving DecidableEq

/-- `CBSNode.__lt__` (lines 200-201). -/
def CBSNode.lt (a b : CBSNode) : Bool := a.cost < b.cost

/-- `sum(len(p) for p in paths.values())`. -/
def sumLen (paths : List (AgentId × List Cell)) : Nat :=
  paths.foldl (fun acc ap => acc + ap.2.length) 0

/-- Python dict update `d[k] = v`: replace in place, append when absent. -/
def dictSet (paths : List (AgentId × β)) (k : AgentId) (v : β) : List (AgentId × β) :=
  match paths with
  | [] => [(k, v)]
  | (k2, v2) :: rest =>
    if k2 = k then (k2, v) :: rest else (k2, v2) :: dictSet rest k v

/-- `min(conflicts, key=lambda c: c['time'])`: leftmost minimal time. -/
def minByTime : Conflict → List Conflict → Conflict
  | best, [] => best
  | best, c :: rest =>
    if c.time < best.time then minByTime c rest else minByTime best rest

/-- Branch alternatives of a conflict (lines 222-236): each of the two
agents receives the corresponding new constraint dict. -/
def branchList (c : Conflict) : List (AgentId × RawConstraint) :=
  match c with
  | .vertex t a1 a2 pos =>
      [(a1, ⟨some a1, some (t : Int), some "vertex", some pos, none, none⟩),
       (a2, ⟨some a2, some (t : Int), some "vertex", some pos, none, none⟩)]
  | .edge t a1 a2 f1 to1 f2 to2 =>
      [(a1, ⟨some a1, some (t : Int), some "edge", none, some f1, some to1⟩),
       (a2, ⟨some a2, some (t : Int), some "edge", none, some f2, some to2⟩)]

/-- One CBS child (lines 224-231 and 235-242): extend the constraints,
replan the constrained agent (`agents[agent]` raising `KeyError` is
`Except.error`), keep the child only when the replanned path is truthy.
`.ok none` propagates an undetermined (out-of-fuel) A* answer;
`.ok (some none)` is a pruned child. -/
def cbsChild (agents : List (AgentId × (Cell × Cell))) (grid : Grid)
    (maxAstar : Option Int) (node : CBSNode) (agent : AgentId) (newC : RawConstraint) :
    Except Unit (Option (Option CBSNode)) :=
  let newConstraints := node.constraints ++ [newC]
  match assocFind agent agents with
  | none => .error ()
  | some sg =>
    match astar_search sg.1 sg.2 newConstraints grid agent maxAstar with
    | .error e => .error e
    | .ok none => .ok none
    | .ok (some none) => .ok (some none)
    | .ok (some (some p)) =>
      if p = [] then .ok (some none)
      else
        let newPaths := dictSet node.paths agent p
        .ok (some (some ⟨newConstraints, newPaths, sumLen newPaths⟩))

/-- The `children` list of one expansion (lines 221-242). -/
def cbsChildren (agents : List (AgentId × (Cell × Cell))) (grid : Grid)
    (maxAstar : Option Int) (node : CBSNode) :
    List (AgentId × RawConstraint) → Except Unit (Option (List CBSNode))
  | [] => .ok (some [])
  | ac :: rest =>
    match cbsChild agents grid maxAstar node ac.1 ac.2 with
    | .error e => .error e
    | .ok none => .ok none
    | .ok (some none) => cbsChildren agents grid maxAstar node rest
    | .ok (some (some child)) =>
      match cbsChildren agents grid maxAstar node rest with
      | .error e => .error e
      | .ok none => .ok none
      | .ok (some cs2) => .ok (some (child :: cs2))

/-- The CBS best-first loop (lines 213-245).  The second component is the
trace of popped node costs.  `.ok none` means the fuel ran out before the
source loop would have ended. -/
def cbsLoop (agents : List (AgentId × (Cell × Cell))) (grid : Grid)
    (maxAstar : Option Int) :
    Nat → List CBSNode →
    Except Unit (Option (Option (List (AgentId × List Cell)))) × List Nat
  | 0, _ => (.ok none, [])
  | fuel + 1, heap =>
    match extractMin CBSNode.lt heap with
    | none => (.ok (some none), [])
    | some (node, rest) =>
      match detect_conflict node.paths 2 with
      | .error e => (.error e, [node.cost])
      | .ok [] => (.ok (some (some node.paths)), [node.cost])
      | .ok (c0 :: more) =>
        match cbsChildren agents grid maxAstar node (branchList (minByTime c0 more)) with
        | .error e => (.error e, [node.cost])
        | .ok none => (.ok none, [node.cost])
        | .ok (some children) =>
          let res := cbsLoop agents grid maxAstar fuel (rest ++ children)
          (res.1, node.cost :: res.2)

/-- Root construction (lines 203-209): plan every agent against the initial
constraints, failing (the source's `return None`) as soon as one has no path. -/
def cbsRootPaths (grid : Grid) (extra : List RawConstraint) (maxAstar : Option Int) :
    List (AgentId × (Cell × Cell)) →
    Except Unit (Option (Option (List (AgentId × List Cell))))
  | [] => .ok (some (some []))
  | (aid, sg) :: rest =>
    match astar_search sg.1 sg.2 extra grid aid maxAstar with
    | .error e => .error e
    | .ok none => .ok none
    | .ok (some none) => .ok (some none)
    | .ok (some (some p)) =>
      match cbsRootPaths grid extra maxAstar rest with
      | .error e => .error e
      | .ok none => .ok none
      | .ok (some none) => .ok (some none)
      | .ok (some (some ps)) => .ok (some (some ((aid, p) :: ps)))

/-- `cbs_search` (lines 186-245).  `extra` models `extra_constraints`
(`None` defaulted to `[]` by the caller), `maxAstar` models `max_astar_time`
(Python default `200`).  Result: the solution mapping, the source's `None`,
or fuel exhaustion (`.ok none`), paired with the popped-cost trace. -/
def cbs_search (agents : List (AgentId × (Cell × Cell))) (grid : Grid)
    (extra : List RawConstraint) (maxAstar : Option Int) (fuel : Nat) :
    Except Unit (Option (Option (List (AgentId × List Cell)))) × List Nat :=
  match cbsRootPaths grid extra maxAstar agents with
  | .error e => (.error e, [])
  | .ok none => (.ok none, [])
  | .ok (some none) => (.ok (some none), [])
  | .ok (some (some rootPaths)) =>
    cbsLoop agents grid maxAstar fuel [CBSNode.mk extra rootPaths (sumLen rootPaths)]


/-! ## Auction (`multi_round_auction`, lines 249-324)

Floating-point prices are modelled by exact rationals; `round(x, 2)` is
banker's rounding on the exact value, and the transcendental `math.log` of
the non-`linear` pricing strategy is supplied as an explicit parameter
`lnApprox`.  The pseudo-random draws of `random.random()` are an explicit
tape `tape : Nat → ℚ` consumed left to right (`random.uniform(1, 1.5)` is
`1 + 0.5 * random()`). -/

structure AuctionItem where
  pos : Cell
  count : Nat
  price : ℚ
deriving DecidableEq

structure RoundRecord where
  round : Nat
  auctions : List AuctionItem
  bids : List (Cell × ℚ)
deriving DecidableEq

/-- The return dict shapes of `multi_round_auction`; `undetermined` marks a
run in which an embedded fuel counter ran out. -/
inductive AuctionOutcome where
  | solution (paths : List (AgentId × List Cell)) (history : Option (List RoundRecord))
  | agentNoPath (aid : AgentId)
  | noCongestion (history : List RoundRecord)
  | noBidders (history : List RoundRecord)
  | exceededMaxRounds (history : List RoundRecord)
  | undetermined
deriving DecidableEq

/-- Python `round(x, 2)` (banker's rounding) on the exact rational value. -/
def round2 (q : ℚ) : ℚ :=
  if q * 100 - (⌊q * 100⌋ : ℚ) < 1/2 then (⌊q * 100⌋ : ℚ) / 100
  else if (1 : ℚ)/2 < q * 100 - (⌊q * 100⌋ : ℚ) then ((⌊q * 100⌋ + 1 : Int) : ℚ) / 100
  else (if ⌊q * 100⌋ % 2 = 0 then ((⌊q * 100⌋ : Int) : ℚ) else ((⌊q * 100⌋ + 1 : Int) : ℚ)) / 100

def counterInc (l : List (Cell × Nat)) (c : Cell) : List (Cell × Nat) :=
  match l with
  | [] => [(c, 1)]
  | (p, n) :: rest => if p = c then (p, n + 1) :: rest else (p, n) :: counterInc rest c

/-- Congestion counter (lines 278-285): vertex conflicts increment their
cell, edge conflicts increment both destination cells. -/
def congestionCounter (conflicts : List Conflict) : List (Cell × Nat) :=
  conflicts.foldl
    (fun l cf =>
      match cf with
      | .vertex _ _ _ pos => counterInc l pos
      | .edge _ _ _ _ a1to _ a2to => counterInc (counterInc l a1to) a2to)
    []

/-- Prices and the `auctions` list (lines 289-298): `linear` multiplies the
base price by the count, anything else uses `base_price * log(1 + count)`. -/
def auctionPrices (strategy : String) (lnApprox : ℚ → ℚ) (basePrice : ℚ)
    (counter : List (Cell × Nat)) : List AuctionItem :=
  counter.map fun pc =>
    ⟨pc.1, pc.2,
      round2 (if strategy = "linear" then basePrice * pc.2
              else basePrice * lnApprox (1 + (pc.2 : ℚ)))⟩

/-- Bid simulation (lines 301-304): each item gets a bid iff its
`random()` draw is `< 0.7`, at price `price * uniform(1, 1.5)`; returns the
bids dict and the next tape index. -/
def simulateBids (tape : Nat → ℚ) : List AuctionItem → Nat → List (Cell × ℚ) × Nat
  | [], ti => ([], ti)
  | item :: rest, ti =>
    if tape ti < 7/10 then
      let res := simulateBids tape rest (ti + 2)
      ((item.pos, round2 (item.price * (1 + tape (ti + 1) * (1/2)))) :: res.1, res.2)
    else
      simulateBids tape rest (ti + 1)

/-- The constraints materialized from one round's bid cells
(lines 313-318): a global vertex constraint on each bid cell for every
`t ∈ [0, horizon)` with `horizon = 50`. -/
def auctionConstraints (bidCells : List Cell) : List RawConstraint :=
  bidCells.flatMap fun pos =>
    (List.range 50).map fun t : Nat =>
      ⟨none, some (t : Int), some "vertex", some pos, none, none⟩

/-- `max(prices[pos]['price'] for pos in bids.keys())` (line 311): the bid
cells are always priced cells, so the lookup never fails. -/
def maxBidPrice (auctions : List AuctionItem) (bids : List (Cell × ℚ)) : ℚ :=
  (bids.map fun b => ((auctions.find? fun it => it.pos = b.1).map AuctionItem.price).getD 0).foldl
    max 0

/-- The unconstrained replanning loop of a round (lines 269-275):
`astar_search(s, g, [], grid_map, aid)` for every agent (Python default
`max_time = 200`); `.inl aid` reports the first agent with no path. -/
def independentPaths (grid : Grid) :
    List (AgentId × (Cell × Cell)) →
    Except Unit (Option (AgentId ⊕ List (AgentId × List Cell)))
  | [] => .ok (some (.inr []))
  | (aid, sg) :: rest =>
    match astar_search sg.1 sg.2 [] grid aid (some 200) with
    | .error e => .error e
    | .ok none => .ok none
    | .ok (some none) => .ok (some (.inl aid))
    | .ok (some (some p)) =>
      match independentPaths grid rest with
      | .error e => .error e
      | .ok none => .ok none
      | .ok (some (.inl a)) => .ok (some (.inl a))
      | .ok (some (.inr ps)) => .ok (some (.inr ((aid, p) :: ps)))

/-- What one round of the `for round_id` loop does next. -/
inductive StepRes where
  | done (outcome : AuctionOutcome)
  | nextRound (basePrice : ℚ) (history : List RoundRecord) (ti : Nat)
deriving DecidableEq

/-- One round body of `multi_round_auction` (lines 269-322), at loop state
`(round_id, base_price, history, tape index)`.  The second component
records, when the round reaches the constraint-materialization step (lines
313-320), the bid cells and the exact `extra_constraints` list passed to
`cbs_search`. -/
def auctionRoundStep (agents : List (AgentId × (Cell × Cell))) (grid : Grid)
    (strategy : String) (lnApprox : ℚ → ℚ) (tape : Nat → ℚ) (cbsFuel : Nat)
    (roundId : Nat) (basePrice : ℚ) (history : List RoundRecord) (ti : Nat) :
    Except Unit (StepRes × Option (List Cell × List RawConstraint)) :=
  match independentPaths grid agents with
  | .error e => .error e
  | .ok none => .ok (.done .undetermined, none)
  | .ok (some (.inl aid)) => .ok (.done (.agentNoPath aid), none)
  | .ok (some (.inr rootPaths)) =>
    match detect_conflict rootPaths 2 with
    | .error e => .error e
    | .ok conflicts =>
      match congestionCounter conflicts with
      | [] => .ok (.done (.noCongestion history), none)
      | c1 :: crest =>
        let counter := c1 :: crest
        let auctions := auctionPrices strategy lnApprox basePrice counter
        let bres := simulateBids tape auctions ti
        let history1 := history ++ [⟨roundId, auctions, bres.1⟩]
        if bres.1 = [] then .ok (.done (.noBidders history1), none)
        else
          let basePrice1 := 1/2 * basePrice + 1/2 * maxBidPrice auctions bres.1
          let bidCells := bres.1.map Prod.fst
          let cbsArg := auctionConstraints bidCells
          match (cbs_search agents grid cbsArg (some 200) cbsFuel).1 with
          | .error e => .error e
          | .ok none => .ok (.done .undetermined, some (bidCells, cbsArg))
          | .ok (some none) =>
            .ok (.nextRound basePrice1 history1 bres.2, some (bidCells, cbsArg))
          | .ok (some (some sol)) =>
            if sol = [] then .ok (.nextRound basePrice1 history1 bres.2, some (bidCells, cbsArg))
            else .ok (.done (.solution sol (some history1)), some (bidCells, cbsArg))

/-- The `for round_id in range(1, max_rounds + 1)` loop (lines 268-322),
also accumulating the per-round materialization records. -/
def auctionRounds (agents : List (AgentId × (Cell × Cell))) (grid : Grid)
    (strategy : String) (lnApprox : ℚ → ℚ) (tape : Nat → ℚ) (cbsFuel : Nat) :
    Nat → Nat → ℚ → List RoundRecord → Nat →
    Except Unit (AuctionOutcome × List (List Cell × List RawConstraint))
  | _, 0, _, history, _ => .ok (.exceededMaxRounds history, [])
  | roundId, remaining + 1, basePrice, history, ti =>
    match auctionRoundStep agents grid strategy lnApprox tape cbsFuel roundId
        basePrice history ti with
    | .error e => .error e
    | .ok (.done outcome, instr) => .ok (outcome, instr.toList)
    | .ok (.nextRound bp1 h1 ti2, instr) =>
      match auctionRounds agents grid strategy lnApprox tape cbsFuel
          (roundId + 1) remaining bp1 h1 ti2 with
      | .error e => .error e
      | .ok (outcome, instrs) => .ok (outcome, instr.toList ++ instrs)

/-- `multi_round_auction` (lines 249-324): round 0 runs CBS on the bare
problem (`if solution:` is dict truthiness — `None` and `{}` both fall
through to the rounds); the result is paired with the materialization
records of all rounds. -/
def multi_round_auction (agents : List (AgentId × (Cell × Cell))) (grid : Grid)
    (maxRounds : Nat) (basePrice : ℚ) (strategy : String)
    (lnApprox : ℚ → ℚ) (tape : Nat → ℚ) (cbsFuel : Nat) :
    Except Unit (AuctionOutcome × List (List Cell × List RawConstraint)) :=
  match (cbs_search agents grid [] (some 200) cbsFuel).1 with
  | .error e => .error e
  | .ok none => .ok (.undetermined, [])
  | .ok (some none) =>
    auctionRounds agents grid strategy lnApprox tape cbsFuel 1 maxRounds basePrice [] 0
  | .ok (some (some sol)) =>
    if sol = [] then
      auctionRounds agents grid strategy lnApprox tape cbsFuel 1 maxRounds basePrice [] 0
    else .ok (.solution sol none, [])


/-! ## Constraint-index lemmas -/

theorem forbiddenLater_eq_false_iff {cs : List RawConstraint} {aid : AgentId}
    {goal : Cell} {t0 maxT : Nat} :
    forbiddenLater cs aid goal t0 maxT = false ↔
      ∀ t2, t0 ≤ t2 → t2 ≤ maxT →
        goal ∉ vertexConstraintsAt cs (some aid) (t2 : Int) ∧
        goal ∉ vertexConstraintsAt cs none (t2 : Int) := by
  unfold forbiddenLater
  rw [List.any_eq_false]
  constructor
  · intro h t2 h1 h2
    have hmem : t2 ∈ List.range' t0 (maxT + 1 - t0) := by
      rw [List.mem_range'_1]
      exact ⟨h1, by omega⟩
    have := h t2 hmem
    simp only [decide_eq_true_eq] at this
    push_neg at this
    exact this
  · intro h t2 hmem
    rw [List.mem_range'_1] at hmem
    simp only [decide_eq_true_eq]
    push_neg
    exact h t2 hmem.1 (by omega)

theorem vertexConstraintsAt_append {cs1 cs2 : List RawConstraint} {a : Option AgentId}
    {t : Int} :
    vertexConstraintsAt (cs1 ++ cs2) a t =
      vertexConstraintsAt cs1 a t ++ vertexConstraintsAt cs2 a t := by
  unfold vertexConstraintsAt
  exact List.filterMap_append cs1 cs2 _

theorem edgeConstraintsAt_append {cs1 cs2 : List RawConstraint} {a : Option AgentId}
    {t : Int} :
    edgeConstraintsAt (cs1 ++ cs2) a t =
      edgeConstraintsAt cs1 a t ++ edgeConstraintsAt cs2 a t := by
  unfold edgeConstraintsAt
  exact List.filterMap_append cs1 cs2 _

/-- A dropped entry contributes nothing to the vertex index. -/
theorem vertexConstraintsAt_dropped {c : RawConstraint} (hc : indexEntry c = none)
    {l1 l2 : List RawConstraint} (a : Option AgentId) (t : Int) :
    vertexConstraintsAt (l1 ++ c :: l2) a t = vertexConstraintsAt (l1 ++ l2) a t := by
  unfold vertexConstraintsAt
  rw [List.filterMap_append, List.filterMap_append, List.filterMap_cons, hc]

theorem edgeConstraintsAt_dropped {c : RawConstraint} (hc : indexEntry c = none)
    {l1 l2 : List RawConstraint} (a : Option AgentId) (t : Int) :
    edgeConstraintsAt (l1 ++ c :: l2) a t = edgeConstraintsAt (l1 ++ l2) a t := by
  unfold edgeConstraintsAt
  rw [List.filterMap_append, List.filterMap_append, List.filterMap_cons, hc]

theorem forbiddenLater_congr {cs1 cs2 : List RawConstraint}
    (hv : ∀ a t, vertexConstraintsAt cs1 a t = vertexConstraintsAt cs2 a t)
    (aid : AgentId) (goal : Cell) (t0 maxT : Nat) :
    forbiddenLater cs1 aid goal t0 maxT = forbiddenLater cs2 aid goal t0 maxT := by
  unfold forbiddenLater
  have hfun : (fun t : Nat => decide (goal ∈ vertexConstraintsAt cs1 (some aid) (t : Int) ∨
      goal ∈ vertexConstraintsAt cs1 none (t : Int))) =
      (fun t : Nat => decide (goal ∈ vertexConstraintsAt cs2 (some aid) (t : Int) ∨
      goal ∈ vertexConstraintsAt cs2 none (t : Int))) := by
    funext t
    rw [hv (some aid) (t : Int), hv none (t : Int)]
  rw [hfun]

theorem expandStep_congr {cs1 cs2 : List RawConstraint}
    (hv : ∀ a t, vertexConstraintsAt cs1 a t = vertexConstraintsAt cs2 a t)
    (he : ∀ a t, edgeConstraintsAt cs1 a t = edgeConstraintsAt cs2 a t)
    (goal : Cell) (grid : Grid) (rows cols : Nat) (aid : AgentId) (maxT : Nat)
    (curr : AstarNode) (acc : List AstarNode) (d : Int × Int) :
    expandStep goal cs1 grid rows cols aid maxT curr acc d =
      expandStep goal cs2 grid rows cols aid maxT curr acc d := by
  unfold expandStep
  simp only [hv, he]

theorem expandNode_congr {cs1 cs2 : List RawConstraint}
    (hv : ∀ a t, vertexConstraintsAt cs1 a t = vertexConstraintsAt cs2 a t)
    (he : ∀ a t, edgeConstraintsAt cs1 a t = edgeConstraintsAt cs2 a t)
    (goal : Cell) (grid : Grid) (rows cols : Nat) (aid : AgentId) (maxT : Nat)
    (curr : AstarNode) :
    expandNode goal cs1 grid rows cols aid maxT curr =
      expandNode goal cs2 grid rows cols aid maxT curr := by
  unfold expandNode
  have hstep : expandStep goal cs1 grid rows cols aid maxT curr =
      expandStep goal cs2 grid rows cols aid maxT curr := by
    funext acc d
    exact expandStep_congr hv he goal grid rows cols aid maxT curr acc d
  rw [hstep]

theorem astarLoop_congr {cs1 cs2 : List RawConstraint}
    (hv : ∀ a t, vertexConstraintsAt cs1 a t = vertexConstraintsAt cs2 a t)
    (he : ∀ a t, edgeConstraintsAt cs1 a t = edgeConstraintsAt cs2 a t)
    (goal : Cell) (grid : Grid) (rows cols : Nat) (aid : AgentId) (maxT : Nat) :
    ∀ (fuel : Nat) (openList : List AstarNode) (closed : List ((Cell × Nat) × Nat)),
      astarLoop goal cs1 grid rows cols aid maxT fuel openList closed =
        astarLoop goal cs2 grid rows cols aid maxT fuel openList closed
  | 0, openList, closed => rfl
  | fuel + 1, openList, closed => by
    unfold astarLoop
    cases hext : extractMin AstarNode.lt openList with
    | none => rfl
    | some pr =>
      obtain ⟨curr, openRest⟩ := pr
      dsimp only
      rw [forbiddenLater_congr hv aid goal curr.time maxT,
        expandNode_congr hv he goal grid rows cols aid maxT curr]
      cases hfind : assocFind (curr.position, curr.time) closed with
      | some g0 =>
        dsimp only
        cases hdec : (decide (g0 ≤ curr.g_cost)) with
        | true =>
          rw [if_pos (rfl : true = true), if_pos (rfl : true = true)]
          exact astarLoop_congr hv he goal grid rows cols aid maxT fuel openRest closed
        | false =>
          rw [if_neg (by simp : ¬(false = true)), if_neg (by simp : ¬(false = true))]
          by_cases hacc : curr.position = goal ∧
              forbiddenLater cs2 aid goal curr.time maxT = false
          · rw [if_pos hacc, if_pos hacc]
          · rw [if_neg hacc, if_neg hacc]
            cases expandNode goal cs2 grid rows cols aid maxT curr with
            | error e => rfl
            | ok newNodes =>
              exact astarLoop_congr hv he goal grid rows cols aid maxT fuel
                (openRest ++ newNodes) _
      | none =>
        dsimp only
        rw [if_neg (by simp : ¬(false = true)), if_neg (by simp : ¬(false = true))]
        by_cases hacc : curr.position = goal ∧
            forbiddenLater cs2 aid goal curr.time maxT = false
        · rw [if_pos hacc, if_pos hacc]
        · rw [if_neg hacc, if_neg hacc]
          cases expandNode goal cs2 grid rows cols aid maxT curr with
          | error e => rfl
          | ok newNodes =>
            exact astarLoop_congr hv he goal grid rows cols aid maxT fuel
              (openRest ++ newNodes) _

/-- Splicing out any entry the indexing drops leaves `astar_search`
unchanged, for all arguments. -/
theorem astar_search_dropped {c : RawConstraint} (hc : indexEntry c = none)
    (start goal : Cell) (l1 l2 : List RawConstraint) (grid : Grid)
    (aid : AgentId) (maxTimeArg : Option Int) :
    astar_search start goal (l1 ++ c :: l2) grid aid maxTimeArg =
      astar_search start goal (l1 ++ l2) grid aid maxTimeArg := by
  unfold astar_search
  by_cases hempty : grid = [] ∨ grid.headD [] = []
  · rw [if_pos hempty, if_pos hempty]
  · rw [if_neg hempty, if_neg hempty]
    exact astarLoop_congr (vertexConstraintsAt_dropped hc)
      (edgeConstraintsAt_dropped hc) goal grid _ _ aid _ _ _ _


/-! ## Detector lemmas -/

theorem posAt_lt_length {landingHold : Nat} {path : List Cell} {t : Nat}
    (h : t < path.length) : ∃ c ∈ path, posAt landingHold path t = .ok (some c) := by
  unfold posAt
  rw [if_pos h]
  cases hg : path.get? t with
  | none =>
    rw [List.get?_eq_none] at hg
    omega
  | some c =>
    exact ⟨c, List.get?_mem hg, rfl⟩

theorem posAt_hold {landingHold : Nat} {path : List Cell} {t : Nat}
    (hne : path ≠ []) (h1 : path.length ≤ t) (h2 : t < path.length + landingHold) :
    ∃ c ∈ path, posAt landingHold path t = .ok (some c) := by
  unfold posAt
  rw [if_neg (by omega), if_pos h2]
  cases hg : path.getLast? with
  | none =>
    rw [List.getLast?_eq_none_iff] at hg
    exact absurd hg hne
  | some c =>
    refine ⟨c, ?_, rfl⟩
    obtain ⟨hne2, heq⟩ := List.mem_getLast?_eq_getLast (by rw [hg]; rfl)
    rw [heq]
    exact List.getLast_mem hne2

theorem posAt_absent {landingHold : Nat} {path : List Cell} {t : Nat}
    (h : path.length + landingHold ≤ t) : posAt landingHold path t = .ok none := by
  unfold posAt
  rw [if_neg (by omega), if_neg (by omega)]

theorem posAt_ok {landingHold : Nat} {path : List Cell} {t : Nat} (hne : path ≠ []) :
    ∃ r, posAt landingHold path t = .ok r := by
  by_cases h1 : t < path.length
  · obtain ⟨c, _, hc⟩ := @posAt_lt_length landingHold _ _ h1
    exact ⟨some c, hc⟩
  · by_cases h2 : t < path.length + landingHold
    · obtain ⟨c, _, hc⟩ := posAt_hold hne (by omega) h2
      exact ⟨some c, hc⟩
    · exact ⟨none, posAt_absent (by omega)⟩

/-- Shape of the accumulating conflict-scan folds of `detect_conflict`. -/
theorem scanFold_ok {α : Type} {scan : α → Except Unit (List Conflict)} :
    ∀ (ds : List α) (acc out : List Conflict),
      ds.foldlM (fun acc t => do pure (acc ++ (← scan t))) acc = .ok out →
      (∀ x ∈ acc, x ∈ out) ∧ ∀ t ∈ ds, ∃ lt, scan t = .ok lt ∧ ∀ x ∈ lt, x ∈ out
  | [], acc, out => by
    intro h
    simp only [List.foldlM_nil, pure, Except.pure, Except.ok.injEq] at h
    subst h
    exact ⟨fun x hx => hx, by simp⟩
  | t :: ds, acc, out => by
    intro h
    rw [List.foldlM_cons] at h
    have hbind : (scan t >>= fun l => pure (acc ++ l) :
        Except Unit (List Conflict)) >>= (fun acc2 =>
          ds.foldlM (fun acc t => do pure (acc ++ (← scan t))) acc2) = .ok out := h
    obtain ⟨acc2, hstep, hrest⟩ := except_bind_ok hbind
    obtain ⟨lt, hlt, hacc2⟩ := except_bind_ok hstep
    simp only [pure, Except.pure, Except.ok.injEq] at hacc2
    subst hacc2
    obtain ⟨hmono, hall⟩ := scanFold_ok ds (acc ++ lt) out hrest
    refine ⟨fun x hx => hmono x (List.mem_append.mpr (Or.inl hx)), ?_⟩
    intro t2 ht2
    rcases List.mem_cons.mp ht2 with rfl | ht2tail
    · exact ⟨lt, hlt, fun x hx => hmono x (List.mem_append.mpr (Or.inr hx))⟩
    · exact hall t2 ht2tail

theorem detect_conflict_decomp {paths : List (AgentId × List Cell)} {landingHold : Nat}
    {out : List Conflict} (hne : paths ≠ [])
    (h : detect_conflict paths landingHold = .ok out) :
    (∀ t ∈ List.range (detectHorizon paths landingHold),
      ∃ lt, vertexScanAt paths landingHold t = .ok lt ∧ ∀ x ∈ lt, x ∈ out) ∧
    (∀ t ∈ List.range' 1 (detectHorizon paths landingHold - 1),
      ∃ lt, edgeScanAt paths landingHold t = .ok lt ∧ ∀ x ∈ lt, x ∈ out) := by
  unfold detect_conflict at h
  rw [if_neg hne] at h
  obtain ⟨vcs, hvcs, hrest⟩ := except_bind_ok h
  obtain ⟨ecs, hecs, hout⟩ := except_bind_ok hrest
  simp only [pure, Except.pure, Except.ok.injEq] at hout
  subst hout
  obtain ⟨_, hvall⟩ := scanFold_ok _ [] vcs hvcs
  obtain ⟨_, heall⟩ := scanFold_ok _ [] ecs hecs
  constructor
  · intro t ht
    obtain ⟨lt, hlt, hmem⟩ := hvall t ht
    exact ⟨lt, hlt, fun x hx => List.mem_append.mpr (Or.inl (hmem x hx))⟩
  · intro t ht
    obtain ⟨lt, hlt, hmem⟩ := heall t ht
    exact ⟨lt, hlt, fun x hx => List.mem_append.mpr (Or.inr (hmem x hx))⟩


theorem occAdd_find (occ : List (Cell × List AgentId)) (pos : Cell) (aid : AgentId)
    (c : Cell) :
    assocFind c (occAdd occ pos aid) =
      if pos = c then some (((assocFind c occ).getD []) ++ [aid]) else assocFind c occ := by
  induction occ with
  | nil =>
    by_cases hc : pos = c
    · simp [occAdd, assocFind, hc]
    · simp [occAdd, assocFind, hc]
  | cons e rest ih =>
    obtain ⟨p, l⟩ := e
    by_cases hp : p = pos
    · subst hp
      by_cases hc : p = c
      · subst hc
        simp [occAdd, assocFind]
      · simp [occAdd, assocFind, hc]
    · simp only [occAdd, if_neg hp]
      by_cases hc : p = c
      · subst hc
        have hpc : ¬ pos = p := fun he => hp he.symm
        simp [assocFind, hpc]
      · simp [assocFind, hc, ih]

/-- The occupancy fold produces, for each cell, exactly the agent ids of the
items occupying that cell at time `t`, in item order. -/
theorem occFold_groups {landingHold t : Nat} :
    ∀ (ps : List (AgentId × List Cell)) (occ0 occ : List (Cell × List AgentId)),
      ps.foldlM
        (fun occ ap => do
          match ← posAt landingHold ap.2 t with
          | none => pure occ
          | some c => pure (occAdd occ c ap.1))
        occ0 = .ok occ →
      ∀ c, (assocFind c occ).getD [] =
        (assocFind c occ0).getD [] ++
          ps.filterMap (fun ap =>
            if posAt landingHold ap.2 t = .ok (some c) then some ap.1 else none)
  | [], occ0, occ => by
    intro h c
    simp only [List.foldlM_nil, pure, Except.pure, Except.ok.injEq] at h
    subst h
    simp
  | ap :: ps, occ0, occ => by
    intro h c
    rw [List.foldlM_cons] at h
    obtain ⟨occ1, hstep, hrest⟩ := except_bind_ok h
    have ih := occFold_groups ps occ1 occ hrest c
    rw [List.filterMap_cons]
    cases hpos : posAt landingHold ap.2 t with
    | error e =>
      rw [hpos] at hstep
      simp [Bind.bind, Except.bind] at hstep
    | ok r =>
      rw [hpos] at hstep
      cases r with
      | none =>
        simp only [Bind.bind, Except.bind, pure, Except.pure, Except.ok.injEq] at hstep
        subst hstep
        rw [if_neg (show ¬ (Except.ok none : Except Unit (Option Cell)) =
          Except.ok (some c) by simp)]
        exact ih
      | some c2 =>
        simp only [Bind.bind, Except.bind, pure, Except.pure, Except.ok.injEq] at hstep
        subst hstep
        by_cases hc : c2 = c
        · subst hc
          rw [if_pos rfl, ih, occAdd_find, if_pos rfl]
          simp
        · rw [if_neg (show ¬ (Except.ok (some c2) : Except Unit (Option Cell)) =
            Except.ok (some c) by simp [hc])]
          rw [ih, occAdd_find, if_neg hc]

theorem foldl_append_eq_nil {f : β → List Conflict} :
    ∀ (l : List β) (acc : List Conflict),
      l.foldl (fun acc e => acc ++ f e) acc = [] →
      acc = [] ∧ ∀ e ∈ l, f e = []
  | [], acc => by
    intro h
    exact ⟨h, by simp⟩
  | e :: l, acc => by
    intro h
    rw [List.foldl_cons] at h
    obtain ⟨hnil, hall⟩ := foldl_append_eq_nil l (acc ++ f e) h
    rw [List.append_eq_nil] at hnil
    refine ⟨hnil.1, ?_⟩
    intro e2 he2
    rcases List.mem_cons.mp he2 with rfl | htail
    · exact hnil.2
    · exact hall e2 htail

theorem pairsOf_ne_nil {l : List α} (h : 2 ≤ l.length) : pairsOf l ≠ [] := by
  cases l with
  | nil => simp at h
  | cons x xs =>
    cases xs with
    | nil => simp at h
    | cons y ys =>
      simp [pairsOf]

theorem groupConflicts_eq_nil {t : Nat} {pos : Cell} {agents : List AgentId}
    (h : groupConflicts t pos agents = []) : agents.length ≤ 1 := by
  by_contra hlen
  push_neg at hlen
  unfold groupConflicts at h
  rw [if_pos (by omega)] at h
  rw [List.map_eq_nil_iff] at h
  exact pairsOf_ne_nil (by omega) h

theorem assocFind_mem [DecidableEq κ] {k : κ} {v : β} :
    ∀ {l : List (κ × β)}, assocFind k l = some v → (k, v) ∈ l
  | [] => by intro h; simp [assocFind] at h
  | (k2, v2) :: rest => by
    intro h
    unfold assocFind at h
    by_cases hk : k2 = k
    · subst hk
      rw [if_pos rfl] at h
      injection h with h2
      subst h2
      exact List.mem_cons_self _ _
    · rw [if_neg hk] at h
      exact List.mem_cons_of_mem _ (assocFind_mem h)

theorem pair_sublist :
    ∀ (l : List α) (i j : Nat) (hij : i < j) (hi : i < l.length) (hj : j < l.length),
      List.Sublist [l.get ⟨i, hi⟩, l.get ⟨j, hj⟩] l
  | [], i, j, hij, hi, hj => by simp at hj
  | x :: xs, 0, j + 1, hij, hi, hj => by
    refine List.Sublist.cons₂ x ?_
    rw [List.singleton_sublist]
    exact List.get_mem xs _ _
  | x :: xs, i + 1, j + 1, hij, hi, hj => by
    refine List.Sublist.cons x ?_
    exact pair_sublist xs i j (by omega) (by simpa using hi) (by simpa using hj)

theorem pairsOf_mem :
    ∀ (l : List α) (i j : Nat) (hij : i < j) (hi : i < l.length) (hj : j < l.length),
      (l.get ⟨i, hi⟩, l.get ⟨j, hj⟩) ∈ pairsOf l
  | [], i, j, hij, hi, hj => by simp at hj
  | x :: xs, 0, j + 1, hij, hi, hj => by
    unfold pairsOf
    refine List.mem_append.mpr (Or.inl ?_)
    rw [List.mem_map]
    exact ⟨xs.get ⟨j, by simpa using hj⟩, List.get_mem xs _ _, rfl⟩
  | x :: xs, i + 1, j + 1, hij, hi, hj => by
    unfold pairsOf
    exact List.mem_append.mpr
      (Or.inr (pairsOf_mem xs i j (by omega) (by simpa using hi) (by simpa using hj)))


def Conflict.agent1 : Conflict → AgentId
  | .vertex _ a1 _ _ => a1
  | .edge _ a1 _ _ _ _ _ => a1

def Conflict.agent2 : Conflict → AgentId
  | .vertex _ _ a2 _ => a2
  | .edge _ _ a2 _ _ _ _ => a2

theorem getD_eq_get {l : List α} {i : Nat} (h : i < l.length) (d : α) :
    l.getD i d = l.get ⟨i, h⟩ := by
  rw [List.getD_eq_getElem?_getD, List.getElem?_eq_getElem h]
  rfl

theorem scanFold_total {α : Type} {scan : α → Except Unit (List Conflict)} :
    ∀ (ds : List α), (∀ t ∈ ds, ∃ lt, scan t = .ok lt) →
      ∀ acc, ∃ out, ds.foldlM (fun acc t => do pure (acc ++ (← scan t))) acc = .ok out
  | [] => by
    intro _ acc
    exact ⟨acc, rfl⟩
  | t :: ds => by
    intro hall acc
    obtain ⟨lt, hlt⟩ := hall t (List.mem_cons_self t ds)
    obtain ⟨out, hout⟩ := scanFold_total ds
      (fun t2 ht2 => hall t2 (List.mem_cons_of_mem t ht2)) (acc ++ lt)
    refine ⟨out, ?_⟩
    rw [List.foldlM_cons]
    show (scan t >>= fun l => pure (acc ++ l) : Except Unit (List Conflict)) >>= _ = _
    rw [hlt]
    simp only [Bind.bind, Except.bind, pure, Except.pure]
    exact hout

theorem occFold_total {landingHold t : Nat} :
    ∀ (ps : List (AgentId × List Cell)), (∀ ap ∈ ps, ap.2 ≠ []) →
      ∀ occ0, ∃ occ,
        ps.foldlM
          (fun occ ap => do
            match ← posAt landingHold ap.2 t with
            | none => pure occ
            | some c => pure (occAdd occ c ap.1))
          occ0 = .ok occ
  | [] => by
    intro _ occ0
    exact ⟨occ0, rfl⟩
  | ap :: ps => by
    intro hall occ0
    obtain ⟨r, hr⟩ := @posAt_ok landingHold _ t
      (hall ap (List.mem_cons_self ap ps))
    have hrec := @occFold_total landingHold t ps
      (fun ap2 h2 => hall ap2 (List.mem_cons_of_mem ap h2))
    rw [List.foldlM_cons]
    cases r with
    | none =>
      obtain ⟨occ, hocc⟩ := hrec occ0
      refine ⟨occ, ?_⟩
      show (posAt landingHold ap.2 t >>= _ : Except Unit _) >>= _ = _
      rw [hr]
      simp only [Bind.bind, Except.bind, pure, Except.pure]
      exact hocc
    | some c =>
      obtain ⟨occ, hocc⟩ := hrec (occAdd occ0 c ap.1)
      refine ⟨occ, ?_⟩
      show (posAt landingHold ap.2 t >>= _ : Except Unit _) >>= _ = _
      rw [hr]
      simp only [Bind.bind, Except.bind, pure, Except.pure]
      exact hocc

theorem occAdd_mem_groups {pos : Cell} {aid : AgentId} :
    ∀ (occ : List (Cell × List AgentId)), ∀ entry ∈ occAdd occ pos aid, ∀ a ∈ entry.2,
      (∃ e2 ∈ occ, a ∈ e2.2) ∨ a = aid
  | [] => by
    intro entry he a ha
    unfold occAdd at he
    rw [List.mem_singleton] at he
    subst he
    rw [List.mem_singleton] at ha
    exact Or.inr ha
  | (p, l) :: rest => by
    intro entry he a ha
    unfold occAdd at he
    by_cases hp : p = pos
    · rw [if_pos hp] at he
      rcases List.mem_cons.mp he with heq | htail
      · subst heq
        rcases List.mem_append.mp ha with h1 | h2
        · exact Or.inl ⟨(p, l), List.mem_cons_self _ _, h1⟩
        · rw [List.mem_singleton] at h2
          exact Or.inr h2
      · exact Or.inl ⟨entry, List.mem_cons_of_mem _ htail, ha⟩
    · rw [if_neg hp] at he
      rcases List.mem_cons.mp he with heq | htail
      · subst heq
        exact Or.inl ⟨(p, l), List.mem_cons_self _ _, ha⟩
      · rcases occAdd_mem_groups rest entry htail a ha with ⟨e2, he2, hae2⟩ | heq
        · exact Or.inl ⟨e2, List.mem_cons_of_mem _ he2, hae2⟩
        · exact Or.inr heq

theorem occFold_mem_groups {landingHold t : Nat} :
    ∀ (ps : List (AgentId × List Cell)) (occ0 occ : List (Cell × List AgentId)),
      ps.foldlM
        (fun occ ap => do
          match ← posAt landingHold ap.2 t with
          | none => pure occ
          | some c => pure (occAdd occ c ap.1))
        occ0 = .ok occ →
      ∀ entry ∈ occ, ∀ a ∈ entry.2,
        (∃ e2 ∈ occ0, a ∈ e2.2) ∨ a ∈ ps.map Prod.fst
  | [], occ0, occ => by
    intro h entry he a ha
    simp only [List.foldlM_nil, pure, Except.pure, Except.ok.injEq] at h
    subst h
    exact Or.inl ⟨entry, he, ha⟩
  | ap :: ps, occ0, occ => by
    intro h entry he a ha
    rw [List.foldlM_cons] at h
    obtain ⟨occ1, hstep, hrest⟩ := except_bind_ok h
    have ih := occFold_mem_groups ps occ1 occ hrest entry he a ha
    rcases ih with ⟨e2, he2, hae2⟩ | hin
    · cases hpos : posAt landingHold ap.2 t with
      | error e =>
        rw [hpos] at hstep
        simp [Bind.bind, Except.bind] at hstep
      | ok r =>
        rw [hpos] at hstep
        cases r with
        | none =>
          simp only [Bind.bind, Except.bind, pure, Except.pure, Except.ok.injEq] at hstep
          subst hstep
          exact Or.inl ⟨e2, he2, hae2⟩
        | some c =>
          simp only [Bind.bind, Except.bind, pure, Except.pure, Except.ok.injEq] at hstep
          subst hstep
          rcases occAdd_mem_groups _ e2 he2 a hae2 with ⟨e3, he3, hae3⟩ | heq
          · exact Or.inl ⟨e3, he3, hae3⟩
          · subst heq
            exact Or.inr (by simp)
    · exact Or.inr (List.mem_cons_of_mem _ hin)

theorem foldl_append_mem {f : β → List Conflict} {x : Conflict} :
    ∀ (l : List β) (acc : List Conflict),
      x ∈ l.foldl (fun acc e => acc ++ f e) acc →
      x ∈ acc ∨ ∃ e ∈ l, x ∈ f e
  | [], acc => by
    intro h
    exact Or.inl h
  | e :: l, acc => by
    intro h
    rw [List.foldl_cons] at h
    rcases foldl_append_mem l (acc ++ f e) h with hacc | ⟨e2, he2, hx⟩
    · rcases List.mem_append.mp hacc with h1 | h2
      · exact Or.inl h1
      · exact Or.inr ⟨e, List.mem_cons_self _ _, h2⟩
    · exact Or.inr ⟨e2, List.mem_cons_of_mem _ he2, hx⟩

theorem groupConflicts_mem {t : Nat} {pos : Cell} {agents : List AgentId} {x : Conflict}
    (h : x ∈ groupConflicts t pos agents) :
    x.time = t ∧ x.agent1 ∈ agents ∧ x.agent2 ∈ agents := by
  unfold groupConflicts at h
  by_cases hlen : agents.length > 1
  · rw [if_pos hlen] at h
    rw [List.mem_map] at h
    obtain ⟨ab, hab, rfl⟩ := h
    have hsub : ab.1 ∈ agents ∧ ab.2 ∈ agents := by
      clear hlen
      induction agents with
      | nil => simp [pairsOf] at hab
      | cons y ys ih =>
        simp only [pairsOf, List.mem_append, List.mem_map] at hab
        rcases hab with ⟨z, hz, hzz⟩ | htail
        · rw [← hzz]
          exact ⟨List.mem_cons_self _ _, List.mem_cons_of_mem _ hz⟩
        · obtain ⟨h1, h2⟩ := ih htail
          exact ⟨List.mem_cons_of_mem _ h1, List.mem_cons_of_mem _ h2⟩
    exact ⟨rfl, hsub.1, hsub.2⟩
  · rw [if_neg hlen] at h
    simp at h

theorem pairsOf_sub {l : List (AgentId × List Cell)} {pp : (AgentId × List Cell) × (AgentId × List Cell)} :
    pp ∈ pairsOf l → pp.1 ∈ l ∧ pp.2 ∈ l := by
  induction l with
  | nil => intro h; simp [pairsOf] at h
  | cons y ys ih =>
    intro h
    simp only [pairsOf, List.mem_append, List.mem_map] at h
    rcases h with ⟨z, hz, hzz⟩ | htail
    · rw [← hzz]
      exact ⟨List.mem_cons_self _ _, List.mem_cons_of_mem _ hz⟩
    · obtain ⟨h1, h2⟩ := ih htail
      exact ⟨List.mem_cons_of_mem _ h1, List.mem_cons_of_mem _ h2⟩


theorem scanFold_origin {α : Type} {scan : α → Except Unit (List Conflict)} :
    ∀ (ds : List α) (acc out : List Conflict),
      ds.foldlM (fun acc t => do pure (acc ++ (← scan t))) acc = .ok out →
      ∀ x ∈ out, x ∈ acc ∨ ∃ t ∈ ds, ∃ lt, scan t = .ok lt ∧ x ∈ lt
  | [], acc, out => by
    intro h x hx
    simp only [List.foldlM_nil, pure, Except.pure, Except.ok.injEq] at h
    subst h
    exact Or.inl hx
  | t :: ds, acc, out => by
    intro h x hx
    rw [List.foldlM_cons] at h
    have hbind : (scan t >>= fun l => pure (acc ++ l) :
        Except Unit (List Conflict)) >>= (fun acc2 =>
          ds.foldlM (fun acc t => do pure (acc ++ (← scan t))) acc2) = .ok out := h
    obtain ⟨acc2, hstep, hrest⟩ := except_bind_ok hbind
    obtain ⟨lt, hlt, hacc2⟩ := except_bind_ok hstep
    simp only [pure, Except.pure, Except.ok.injEq] at hacc2
    subst hacc2
    rcases scanFold_origin ds (acc ++ lt) out hrest x hx with hacc | ⟨t2, ht2, lt2, hlt2, hx2⟩
    · rcases List.mem_append.mp hacc with h1 | h2
      · exact Or.inl h1
      · exact Or.inr ⟨t, List.mem_cons_self _ _, lt, hlt, h2⟩
    · exact Or.inr ⟨t2, List.mem_cons_of_mem _ ht2, lt2, hlt2, hx2⟩

theorem vertexScanAt_inv {paths : List (AgentId × List Cell)} {hold t : Nat}
    {out : List Conflict} (h : vertexScanAt paths hold t = .ok out) :
    ∃ occ, paths.foldlM
        (fun occ ap => do
          match ← posAt hold ap.2 t with
          | none => pure occ
          | some c => pure (occAdd occ c ap.1))
        [] = .ok occ ∧
      out = occ.foldl (fun acc entry => acc ++ groupConflicts t entry.1 entry.2) [] := by
  unfold vertexScanAt at h
  obtain ⟨occ, hocc, hout⟩ := except_bind_ok h
  simp only [pure, Except.pure, Except.ok.injEq] at hout
  exact ⟨occ, hocc, hout.symm⟩

theorem vertexScanAt_ok {paths : List (AgentId × List Cell)} {hold t : Nat}
    (hne : ∀ ap ∈ paths, ap.2 ≠ []) :
    ∃ out, vertexScanAt paths hold t = .ok out := by
  obtain ⟨occ, hocc⟩ := @occFold_total hold t paths hne []
  refine ⟨occ.foldl (fun acc entry => acc ++ groupConflicts t entry.1 entry.2) [], ?_⟩
  unfold vertexScanAt
  rw [hocc]
  rfl

theorem vertexScanAt_times {paths : List (AgentId × List Cell)} {hold t : Nat}
    {out : List Conflict} (h : vertexScanAt paths hold t = .ok out) :
    ∀ x ∈ out, x.time = t ∧ x.agent1 ∈ paths.map Prod.fst ∧
      x.agent2 ∈ paths.map Prod.fst := by
  intro x hx
  obtain ⟨occ, hocc, hout⟩ := vertexScanAt_inv h
  subst hout
  rcases foldl_append_mem occ [] hx with hnil | ⟨entry, hentry, hxg⟩
  · simp at hnil
  · obtain ⟨ht, h1, h2⟩ := groupConflicts_mem hxg
    have hgroups := occFold_mem_groups paths [] occ hocc entry hentry
    have hin1 := hgroups _ h1
    have hin2 := hgroups _ h2
    rcases hin1 with ⟨e2, he2, _⟩ | hin1
    · simp at he2
    · rcases hin2 with ⟨e2, he2, _⟩ | hin2
      · simp at he2
      · exact ⟨ht, hin1, hin2⟩

theorem vertexScanAt_empty_no_clash {paths : List (AgentId × List Cell)} {hold t : Nat}
    (h : vertexScanAt paths hold t = .ok []) :
    ∀ (i j : Nat) (hi : i < paths.length) (hj : j < paths.length), i < j → ∀ c : Cell,
      ¬(posAt hold (paths.get ⟨i, hi⟩).2 t = .ok (some c) ∧
        posAt hold (paths.get ⟨j, hj⟩).2 t = .ok (some c)) := by
  intro i j hi hj hij c hcl
  obtain ⟨occ, hocc, hout⟩ := vertexScanAt_inv h
  obtain ⟨_, hallnil⟩ := foldl_append_eq_nil occ [] hout.symm
  have hgroup := occFold_groups paths [] occ hocc c
  simp only [assocFind, Option.getD_none, List.nil_append] at hgroup
  have hsub : List.Sublist [paths.get ⟨i, hi⟩, paths.get ⟨j, hj⟩] paths :=
    pair_sublist paths i j hij hi hj
  have hsubf := List.Sublist.filterMap
    (fun ap => if posAt hold ap.2 t = Except.ok (some c) then some ap.1 else none) hsub
  have hlen2 : 2 ≤ (paths.filterMap (fun ap =>
      if posAt hold ap.2 t = Except.ok (some c) then some ap.1 else none)).length := by
    have hlenle := List.Sublist.length_le hsubf
    have : List.filterMap (fun ap =>
        if posAt hold ap.2 t = Except.ok (some c) then some ap.1 else none)
        [paths.get ⟨i, hi⟩, paths.get ⟨j, hj⟩] =
        [(paths.get ⟨i, hi⟩).1, (paths.get ⟨j, hj⟩).1] := by
      simp only [List.filterMap_cons, List.filterMap_nil]
      rw [if_pos hcl.1, if_pos hcl.2]
    rw [this] at hlenle
    simpa using hlenle
  have hlen2g : 2 ≤ ((assocFind c occ).getD []).length := by
    rw [hgroup]
    exact hlen2
  cases hfind : assocFind c occ with
  | none =>
    rw [hfind] at hlen2g
    simp at hlen2g
  | some grp =>
    rw [hfind] at hlen2g
    simp only [Option.getD_some] at hlen2g
    have hmem := assocFind_mem hfind
    have hnil : groupConflicts t c grp = [] := hallnil (c, grp) hmem
    have hle := groupConflicts_eq_nil hnil
    omega

theorem edgeCheckPair_eval {hold t : Nat} {p1 p2 : AgentId × List Cell}
    {c1 c1p c2 c2p : Cell}
    (h1 : posAt hold p1.2 t = .ok (some c1))
    (h2 : posAt hold p1.2 (t - 1) = .ok (some c1p))
    (h3 : posAt hold p2.2 t = .ok (some c2))
    (h4 : posAt hold p2.2 (t - 1) = .ok (some c2p)) :
    edgeCheckPair hold t p1 p2 = .ok (if c1 = c2p ∧ c2 = c1p ∧ c1p ≠ c1
      then [Conflict.edge t p1.1 p2.1 c1p c1 c2p c2] else []) := by
  unfold edgeCheckPair
  rw [h1]
  simp only [Bind.bind, Except.bind]
  rw [h2]
  simp only [Bind.bind, Except.bind]
  rw [h3]
  simp only [Bind.bind, Except.bind]
  rw [h4]
  simp only [Bind.bind, Except.bind]
  show (if c1 = c2p ∧ c2 = c1p ∧ c1p ≠ c1
      then (pure [Conflict.edge t p1.1 p2.1 c1p c1 c2p c2] : Except Unit (List Conflict))
      else pure []) = Except.ok (if c1 = c2p ∧ c2 = c1p ∧ c1p ≠ c1
      then [Conflict.edge t p1.1 p2.1 c1p c1 c2p c2] else [])
  by_cases hcond : c1 = c2p ∧ c2 = c1p ∧ c1p ≠ c1
  · rw [if_pos hcond, if_pos hcond]
    rfl
  · rw [if_neg hcond, if_neg hcond]
    rfl

theorem edgeCheckPair_ok {hold t : Nat} {p1 p2 : AgentId × List Cell}
    (h1 : p1.2 ≠ []) (h2 : p2.2 ≠ []) :
    ∃ l, edgeCheckPair hold t p1 p2 = .ok l := by
  obtain ⟨r1, hr1⟩ := @posAt_ok hold _ t h1
  obtain ⟨r2, hr2⟩ := @posAt_ok hold _ (t - 1) h1
  obtain ⟨r3, hr3⟩ := @posAt_ok hold _ t h2
  obtain ⟨r4, hr4⟩ := @posAt_ok hold _ (t - 1) h2
  unfold edgeCheckPair
  rw [hr1]
  simp only [Bind.bind, Except.bind]
  rw [hr2]
  simp only [Bind.bind, Except.bind]
  rw [hr3]
  simp only [Bind.bind, Except.bind]
  rw [hr4]
  simp only [Bind.bind, Except.bind]
  cases r1 with
  | none => exact ⟨[], rfl⟩
  | some c1 =>
    cases r2 with
    | none => exact ⟨[], rfl⟩
    | some c1p =>
      cases r3 with
      | none => exact ⟨[], rfl⟩
      | some c2 =>
        cases r4 with
        | none => exact ⟨[], rfl⟩
        | some c2p =>
          show ∃ l, (if c1 = c2p ∧ c2 = c1p ∧ c1p ≠ c1
              then (pure [Conflict.edge t p1.1 p2.1 c1p c1 c2p c2] : Except Unit (List Conflict))
              else pure []) = Except.ok l
          by_cases hcond : c1 = c2p ∧ c2 = c1p ∧ c1p ≠ c1
          · rw [if_pos hcond]
            exact ⟨_, rfl⟩
          · rw [if_neg hcond]
            exact ⟨[], rfl⟩

theorem edgeCheckPair_shape {hold t : Nat} {p1 p2 : AgentId × List Cell}
    {l : List Conflict} (h : edgeCheckPair hold t p1 p2 = .ok l) :
    ∀ x ∈ l, x.time = t ∧ x.agent1 = p1.1 ∧ x.agent2 = p2.1 := by
  intro x hx
  unfold edgeCheckPair at h
  obtain ⟨r1, hr1, h⟩ := except_bind_ok h
  obtain ⟨r2, hr2, h⟩ := except_bind_ok h
  obtain ⟨r3, hr3, h⟩ := except_bind_ok h
  obtain ⟨r4, hr4, h⟩ := except_bind_ok h
  cases r1 with
  | none =>
    simp only [pure, Except.pure, Except.ok.injEq] at h
    subst h
    simp at hx
  | some c1 =>
    cases r2 with
    | none =>
      simp only [pure, Except.pure, Except.ok.injEq] at h
      subst h
      simp at hx
    | some c1p =>
      cases r3 with
      | none =>
        simp only [pure, Except.pure, Except.ok.injEq] at h
        subst h
        simp at hx
      | some c2 =>
        cases r4 with
        | none =>
          simp only [pure, Except.pure, Except.ok.injEq] at h
          subst h
          simp at hx
        | some c2p =>
          have h' : (if c1 = c2p ∧ c2 = c1p ∧ c1p ≠ c1
              then (pure [Conflict.edge t p1.1 p2.1 c1p c1 c2p c2] : Except Unit (List Conflict))
              else pure []) = Except.ok l := h
          by_cases hcond : c1 = c2p ∧ c2 = c1p ∧ c1p ≠ c1
          · rw [if_pos hcond] at h'
            simp only [pure, Except.pure, Except.ok.injEq] at h'
            subst h'
            rw [List.mem_singleton] at hx
            subst hx
            exact ⟨rfl, rfl, rfl⟩
          · rw [if_neg hcond] at h'
            simp only [pure, Except.pure, Except.ok.injEq] at h'
            subst h'
            simp at hx

theorem edgeScanAt_ok {paths : List (AgentId × List Cell)} {hold t : Nat}
    (hne : ∀ ap ∈ paths, ap.2 ≠ []) :
    ∃ out, edgeScanAt paths hold t = .ok out := by
  unfold edgeScanAt
  refine scanFold_total (pairsOf paths) ?_ []
  intro pp hpp
  obtain ⟨h1, h2⟩ := pairsOf_sub hpp
  exact edgeCheckPair_ok (hne pp.1 h1) (hne pp.2 h2)

theorem edgeScanAt_times {paths : List (AgentId × List Cell)} {hold t : Nat}
    {out : List Conflict} (h : edgeScanAt paths hold t = .ok out) :
    ∀ x ∈ out, x.time = t ∧ x.agent1 ∈ paths.map Prod.fst ∧
      x.agent2 ∈ paths.map Prod.fst := by
  intro x hx
  unfold edgeScanAt at h
  rcases scanFold_origin (pairsOf paths) [] out h x hx with hnil | ⟨pp, hpp, lt, hlt, hxlt⟩
  · simp at hnil
  · obtain ⟨ht, h1, h2⟩ := edgeCheckPair_shape hlt x hxlt
    obtain ⟨hm1, hm2⟩ := pairsOf_sub hpp
    refine ⟨ht, ?_, ?_⟩
    · rw [h1]
      exact List.mem_map.mpr ⟨pp.1, hm1, rfl⟩
    · rw [h2]
      exact List.mem_map.mpr ⟨pp.2, hm2, rfl⟩

theorem edgeScanAt_empty_no_swap {paths : List (AgentId × List Cell)} {hold t : Nat}
    (h : edgeScanAt paths hold t = .ok []) :
    ∀ (i j : Nat) (hi : i < paths.length) (hj : j < paths.length), i < j →
    ∀ c1 c1p c2 c2p : Cell,
      posAt hold (paths.get ⟨i, hi⟩).2 t = .ok (some c1) →
      posAt hold (paths.get ⟨i, hi⟩).2 (t - 1) = .ok (some c1p) →
      posAt hold (paths.get ⟨j, hj⟩).2 t = .ok (some c2) →
      posAt hold (paths.get ⟨j, hj⟩).2 (t - 1) = .ok (some c2p) →
      ¬(c1 = c2p ∧ c2 = c1p ∧ c1p ≠ c1) := by
  intro i j hi hj hij c1 c1p c2 c2p h1 h2 h3 h4 hcond
  have hpair := pairsOf_mem paths i j hij hi hj
  unfold edgeScanAt at h
  obtain ⟨_, hall⟩ := scanFold_ok (pairsOf paths) [] [] h
  obtain ⟨lt, hlt, hsub⟩ := hall _ hpair
  have heval := edgeCheckPair_eval h1 h2 h3 h4
  rw [heval] at hlt
  simp only [Except.ok.injEq] at hlt
  rw [if_pos hcond] at hlt
  have : Conflict.edge t (paths.get ⟨i, hi⟩).1 (paths.get ⟨j, hj⟩).1 c1p c1 c2p c2 ∈
      ([] : List Conflict) := by
    refine hsub _ ?_
    rw [← hlt]
    exact List.mem_singleton.mpr rfl
  simp at this

theorem detect_conflict_total {paths : List (AgentId × List Cell)} {hold : Nat}
    (hne : ∀ ap ∈ paths, ap.2 ≠ []) :
    ∃ out, detect_conflict paths hold = .ok out := by
  by_cases hp : paths = []
  · subst hp
    exact ⟨[], rfl⟩
  · obtain ⟨vcs, hvcs⟩ := @scanFold_total Nat (fun t => vertexScanAt paths hold t)
      (List.range (detectHorizon paths hold)) (fun t _ => vertexScanAt_ok hne) []
    obtain ⟨ecs, hecs⟩ := @scanFold_total Nat (fun t => edgeScanAt paths hold t)
      (List.range' 1 (detectHorizon paths hold - 1)) (fun t _ => edgeScanAt_ok hne) []
    refine ⟨vcs ++ ecs, ?_⟩
    unfold detect_conflict
    rw [if_neg hp]
    show ((List.range (detectHorizon paths hold)).foldlM
        (fun acc t => do pure (acc ++ (← vertexScanAt paths hold t))) [] >>= fun vcs =>
        (List.range' 1 (detectHorizon paths hold - 1)).foldlM
        (fun acc t => do pure (acc ++ (← edgeScanAt paths hold t))) [] >>= fun ecs =>
        pure (vcs ++ ecs) : Except Unit (List Conflict)) = .ok (vcs ++ ecs)
    rw [hvcs]
    show ((List.range' 1 (detectHorizon paths hold - 1)).foldlM
        (fun acc t => do pure (acc ++ (← edgeScanAt paths hold t))) [] >>= fun ecs =>
        pure (vcs ++ ecs) : Except Unit (List Conflict)) = .ok (vcs ++ ecs)
    rw [hecs]
    rfl

theorem detect_conflict_times {paths : List (AgentId × List Cell)} {hold : Nat}
    {out : List Conflict} (hne : paths ≠ [])
    (h : detect_conflict paths hold = .ok out) :
    ∀ x ∈ out, x.time < detectHorizon paths hold := by
  intro x hx
  unfold detect_conflict at h
  rw [if_neg hne] at h
  obtain ⟨vcs, hvcs, hrest⟩ := except_bind_ok h
  obtain ⟨ecs, hecs, hout⟩ := except_bind_ok hrest
  simp only [pure, Except.pure, Except.ok.injEq] at hout
  subst hout
  rcases List.mem_append.mp hx with hv | he
  · rcases scanFold_origin _ [] vcs hvcs x hv with hnil | ⟨t, ht, lt, hlt, hxlt⟩
    · simp at hnil
    · obtain ⟨htime, _, _⟩ := vertexScanAt_times hlt x hxlt
      rw [htime]
      exact List.mem_range.mp ht
  · rcases scanFold_origin _ [] ecs hecs x he with hnil | ⟨t, ht, lt, hlt, hxlt⟩
    · simp at hnil
    · obtain ⟨htime, _, _⟩ := edgeScanAt_times hlt x hxlt
      rw [htime]
      obtain ⟨h1, h2⟩ := List.mem_range'_1.mp ht
      omega

/-- If the loop empties its open list (the source's `return None`), no
feasible path exists, given the open-list witness invariant. -/
theorem astarLoop_exhaust {C : SearchCtx} :
    ∀ (fuel : Nat) (openList : List AstarNode) (closed : List ((Cell × Nat) × Nat)),
      (∀ n ∈ openList, GoodNode C n) →
      OpenInv C openList closed →
      NoAccClosed C closed →
      astarLoop C.goal C.cs C.grid C.rows C.cols C.aid C.maxT fuel openList closed =
        .ok (some none) →
      ∀ π, ¬ FeasiblePath C π
  | 0, openList, closed => by
    intro hgood hinv hnoacc h π hπ
    simp [astarLoop] at h
  | fuel + 1, openList, closed => by
    intro hgood hinv hnoacc h π hπ
    unfold astarLoop at h
    cases hext : extractMin AstarNode.lt openList with
    | none =>
      obtain ⟨⟨hπne, hπhead, hπsteps⟩, hπlast, hπforb⟩ := hπ
      have hπlen : 1 ≤ π.length := List.length_pos.mpr hπne
      have hlastopen :
          ¬ closedHas closed (π.getD (π.length - 1) defaultCell, π.length - 1) := by
        intro hcov
        exact hnoacc _ _ hcov ⟨hπlast, hπforb⟩
      obtain ⟨j, hjlt, hjuncov, hjprev⟩ :=
        exists_boundary (fun j => closedHas closed (π.getD j defaultCell, j)) hπlen hlastopen
      obtain ⟨n, hnmem, _, _⟩ :=
        hinv π ⟨⟨hπne, hπhead, hπsteps⟩, hπlast, hπforb⟩ j hjlt hjuncov hjprev
      rw [extractMin_eq_none.mp hext] at hnmem
      simp at hnmem
    | some pr =>
      obtain ⟨curr, openRest⟩ := pr
      rw [hext] at h
      dsimp only at h
      have hcurr : GoodNode C curr := hgood curr (extractMin_mem hext)
      have hrest : ∀ n ∈ openRest, GoodNode C n := fun n hn =>
        hgood n ((extractMin_perm hext).symm.subset (List.mem_cons_of_mem curr hn))
      have hprocess : ∀ newNodes,
          expandNode C.goal C.cs C.grid C.rows C.cols C.aid C.maxT curr = .ok newNodes →
          ¬(curr.position = C.goal ∧
            forbiddenLater C.cs C.aid C.goal curr.time C.maxT = false) →
          astarLoop C.goal C.cs C.grid C.rows C.cols C.aid C.maxT fuel
            (openRest ++ newNodes) (((curr.position, curr.time), curr.g_cost) :: closed) =
            .ok (some none) →
          False := by
        intro newNodes hexp hnacc hrec
        have hgood2 : ∀ n ∈ openRest ++ newNodes, GoodNode C n := by
          intro n hn
          rcases List.mem_append.mp hn with h1 | h2
          · exact hrest n h1
          · obtain ⟨q, hq, rfl⟩ := expandNode_sound hexp n h2
            exact GoodNode.stepNode hcurr hq
        exact astarLoop_exhaust fuel (openRest ++ newNodes) _ hgood2
          (OpenInv.process hext hinv hexp) (NoAccClosed.push hnoacc hnacc) hrec π hπ
      cases hfind : assocFind (curr.position, curr.time) closed with
      | some g0 =>
        rw [hfind] at h
        dsimp only at h
        by_cases hle : g0 ≤ curr.g_cost
        · rw [if_pos (by simpa using hle)] at h
          have hcov : closedHas closed (curr.position, curr.time) := by
            unfold closedHas
            rw [hfind]
            rfl
          exact astarLoop_exhaust fuel openRest closed hrest
            (OpenInv.skip hext hinv hcov) hnoacc h π hπ
        · rw [if_neg (by simpa using hle)] at h
          by_cases hacc : curr.position = C.goal ∧
              forbiddenLater C.cs C.aid C.goal curr.time C.maxT = false
          · rw [if_pos hacc] at h
            simp at h
          · rw [if_neg hacc] at h
            cases hexp : expandNode C.goal C.cs C.grid C.rows C.cols C.aid C.maxT curr with
            | error e =>
              rw [hexp] at h
              simp at h
            | ok newNodes =>
              rw [hexp] at h
              dsimp only at h
              exact hprocess newNodes hexp hacc h
      | none =>
        rw [hfind] at h
        dsimp only at h
        rw [if_neg (by simp)] at h
        by_cases hacc : curr.position = C.goal ∧
            forbiddenLater C.cs C.aid C.goal curr.time C.maxT = false
        · rw [if_pos hacc] at h
          simp at h
        · rw [if_neg hacc] at h
          cases hexp : expandNode C.goal C.cs C.grid C.rows C.cols C.aid C.maxT curr with
          | error e =>
            rw [hexp] at h
            simp at h
          | ok newNodes =>
            rw [hexp] at h
            dsimp only at h
            exact hprocess newNodes hexp hacc h

/-- `astar_search` answering `None` on a well-formed grid means no feasible
path exists. -/
theorem astar_search_none {start goal : Cell} {cs : List RawConstraint} {grid : Grid}
    {aid : AgentId} {maxTimeArg : Option Int}
    (hg : ¬(grid = [] ∨ grid.headD [] = []))
    (h : astar_search start goal cs grid aid maxTimeArg = .ok (some none)) :
    ∀ π, ¬ FeasiblePath (astarCtx start goal cs grid aid maxTimeArg) π := by
  unfold astar_search at h
  rw [if_neg hg] at h
  dsimp only at h
  refine @astarLoop_exhaust (astarCtx start goal cs grid aid maxTimeArg)
    (astarFuel grid.length (grid.headD []).length
      (effectiveMaxTime maxTimeArg grid.length (grid.headD []).length))
    [AstarNode.mk start 0 (heuristic start goal) none 0] [] ?_ ?_ ?_ h
  · intro n hn
    simp only [List.mem_singleton] at hn
    subst hn
    exact GoodNode.start (astarCtx start goal cs grid aid maxTimeArg)
  · intro π2 hπ2 j hj huncov hprev
    rcases hprev with rfl | hcovered
    · refine ⟨AstarNode.mk start 0 (heuristic start goal) none 0, List.mem_singleton.mpr rfl,
        ?_, rfl⟩
      exact (hπ2.1.2.1).symm
    · exact absurd hcovered (by simp [closedHas, assocFind])
  · intro pos t hcov
    exact absurd hcov (by simp [closedHas, assocFind])

theorem except_bind_error {α β : Type} {x : Except Unit α} {g : α → Except Unit β}
    {e : Unit} (h : x >>= g = .error e) :
    x = .error e ∨ ∃ a, x = .ok a ∧ g a = .error e := by
  cases x with
  | error e2 =>
    left
    cases e2
    cases e
    rfl
  | ok a =>
    right
    refine ⟨a, rfl, ?_⟩
    exact h

/-- The only failure of one expansion step is an in-bounds cell whose row is
too short: a ragged grid. -/
theorem expandStep_error {goal : Cell} {cs : List RawConstraint} {grid : Grid}
    {rows cols : Nat} {aid : AgentId} {maxT : Nat} {curr : AstarNode}
    {acc : List AstarNode} {d : Int × Int} {e : Unit}
    (h : expandStep goal cs grid rows cols aid maxT curr acc d = .error e) :
    ∃ nx ny : Int, 0 ≤ nx ∧ nx < (rows : Int) ∧ 0 ≤ ny ∧ ny < (cols : Int) ∧
      cellAt grid nx ny = none := by
  unfold expandStep at h
  by_cases hb : 0 ≤ curr.position.1 + d.1 ∧ curr.position.1 + d.1 < (rows : Int) ∧
      0 ≤ curr.position.2 + d.2 ∧ curr.position.2 + d.2 < (cols : Int)
  · rw [if_pos hb] at h
    cases hc : cellAt grid (curr.position.1 + d.1) (curr.position.2 + d.2) with
    | none =>
      exact ⟨curr.position.1 + d.1, curr.position.2 + d.2,
        hb.1, hb.2.1, hb.2.2.1, hb.2.2.2, hc⟩
    | some ch =>
      rw [hc] at h
      dsimp only at h
      split_ifs at h <;> simp [pure, Except.pure] at h
  · rw [if_neg hb] at h
    simp [pure, Except.pure] at h

theorem expandFold_error {goal : Cell} {cs : List RawConstraint} {grid : Grid}
    {rows cols : Nat} {aid : AgentId} {maxT : Nat} {curr : AstarNode} :
    ∀ (ds : List (Int × Int)) (acc : List AstarNode) (e : Unit),
      ds.foldlM (expandStep goal cs grid rows cols aid maxT curr) acc = .error e →
      ∃ nx ny : Int, 0 ≤ nx ∧ nx < (rows : Int) ∧ 0 ≤ ny ∧ ny < (cols : Int) ∧
        cellAt grid nx ny = none
  | [], acc, e => by
    intro h
    simp [pure, Except.pure] at h
  | d :: ds, acc, e => by
    intro h
    rw [List.foldlM_cons] at h
    rcases except_bind_error h with h1 | ⟨acc1, _, h2⟩
    · exact expandStep_error h1
    · exact expandFold_error ds acc1 e h2

theorem expandNode_error {goal : Cell} {cs : List RawConstraint} {grid : Grid}
    {rows cols : Nat} {aid : AgentId} {maxT : Nat} {curr : AstarNode} {e : Unit}
    (h : expandNode goal cs grid rows cols aid maxT curr = .error e) :
    ∃ nx ny : Int, 0 ≤ nx ∧ nx < (rows : Int) ∧ 0 ≤ ny ∧ ny < (cols : Int) ∧
      cellAt grid nx ny = none :=
  expandFold_error directions [] e h

/-- The loop fails only by probing an in-bounds cell of a too-short row. -/
theorem astarLoop_error {goal : Cell} {cs : List RawConstraint} {grid : Grid}
    {rows cols : Nat} {aid : AgentId} {maxT : Nat} :
    ∀ (fuel : Nat) (openList : List AstarNode) (closed : List ((Cell × Nat) × Nat))
      (e : Unit),
      astarLoop goal cs grid rows cols aid maxT fuel openList closed = .error e →
      ∃ nx ny : Int, 0 ≤ nx ∧ nx < (rows : Int) ∧ 0 ≤ ny ∧ ny < (cols : Int) ∧
        cellAt grid nx ny = none
  | 0, openList, closed, e => by
    intro h
    simp [astarLoop] at h
  | fuel + 1, openList, closed, e => by
    intro h
    unfold astarLoop at h
    cases hext : extractMin AstarNode.lt openList with
    | none =>
      rw [hext] at h
      simp at h
    | some pr =>
      obtain ⟨curr, openRest⟩ := pr
      rw [hext] at h
      dsimp only at h
      cases hfind : assocFind (curr.position, curr.time) closed with
      | some g0 =>
        rw [hfind] at h
        dsimp only at h
        by_cases hle : g0 ≤ curr.g_cost
        · rw [if_pos (by simpa using hle)] at h
          exact astarLoop_error fuel openRest closed e h
        · rw [if_neg (by simpa using hle)] at h
          by_cases hacc : curr.position = goal ∧
              forbiddenLater cs aid goal curr.time maxT = false
          · rw [if_pos hacc] at h
            simp at h
          · rw [if_neg hacc] at h
            cases hexp : expandNode goal cs grid rows cols aid maxT curr with
            | error e2 =>
              rw [hexp] at h
              exact expandNode_error hexp
            | ok newNodes =>
              rw [hexp] at h
              dsimp only at h
              exact astarLoop_error fuel (openRest ++ newNodes) _ e h
      | none =>
        rw [hfind] at h
        dsimp only at h
        rw [if_neg (by simp)] at h
        by_cases hacc : curr.position = goal ∧
            forbiddenLater cs aid goal curr.time maxT = false
        · rw [if_pos hacc] at h
          simp at h
        · rw [if_neg hacc] at h
          cases hexp : expandNode goal cs grid rows cols aid maxT curr with
          | error e2 =>
            rw [hexp] at h
            exact expandNode_error hexp
          | ok newNodes =>
            rw [hexp] at h
            dsimp only at h
            exact astarLoop_error fuel (openRest ++ newNodes) _ e h

/-- `astar_search` raises only when the grid is ragged: some in-bounds probe
hits a row shorter than the first row. -/
theorem astar_search_error {start goal : Cell} {cs : List RawConstraint} {grid : Grid}
    {aid : AgentId} {maxTimeArg : Option Int} {e : Unit}
    (h : astar_search start goal cs grid aid maxTimeArg = .error e) :
    ∃ i j : Nat, i < grid.length ∧ j < (grid.headD []).length ∧
      (grid.getD i []).length ≤ j := by
  unfold astar_search at h
  by_cases hempty : grid = [] ∨ grid.headD [] = []
  · rw [if_pos hempty] at h
    simp at h
  · rw [if_neg hempty] at h
    dsimp only at h
    obtain ⟨nx, ny, h1, h2, h3, h4, hcell⟩ := astarLoop_error _ _ _ e h
    refine ⟨nx.toNat, ny.toNat, ?_, ?_, ?_⟩
    · omega
    · omega
    · unfold cellAt at hcell
      rw [List.get?_eq_none] at hcell
      exact hcell

/-- A CBS solution is returned only from a popped node whose paths the
detector clears. -/
theorem cbsLoop_sol {agents : List (AgentId × (Cell × Cell))} {grid : Grid}
    {maxAstar : Option Int} :
    ∀ (fuel : Nat) (heap : List CBSNode) (paths : List (AgentId × List Cell)),
      (cbsLoop agents grid maxAstar fuel heap).1 = .ok (some (some paths)) →
      detect_conflict paths 2 = .ok []
  | 0, heap => by
    intro paths h
    simp [cbsLoop] at h
  | fuel + 1, heap => by
    intro paths h
    unfold cbsLoop at h
    cases hext : extractMin CBSNode.lt heap with
    | none =>
      rw [hext] at h
      simp at h
    | some pr =>
      obtain ⟨node, rest⟩ := pr
      rw [hext] at h
      dsimp only at h
      cases hdet : detect_conflict node.paths 2 with
      | error e =>
        rw [hdet] at h
        simp at h
      | ok conflicts =>
        rw [hdet] at h
        cases conflicts with
        | nil =>
          simp only [Except.ok.injEq, Option.some.injEq] at h
          rw [← h]
          exact hdet
        | cons c0 more =>
          dsimp only at h
          cases hch : cbsChildren agents grid maxAstar node (branchList (minByTime c0 more)) with
          | error e =>
            rw [hch] at h
            simp at h
          | ok oc =>
            rw [hch] at h
            cases oc with
            | none => simp at h
            | some children =>
              dsimp only at h
              exact cbsLoop_sol fuel (rest ++ children) _ h

/-- A path mapping entry plausible for this CBS instance: the agent is
declared in `agents` and the path is an `astar_search` answer for its
start/goal under some constraint list. -/
def AgentsPath (agents : List (AgentId × (Cell × Cell))) (grid : Grid)
    (maxAstar : Option Int) (ap : AgentId × List Cell) : Prop :=
  ∃ s g cs2, (ap.1, (s, g)) ∈ agents ∧
    astar_search s g cs2 grid ap.1 maxAstar = .ok (some (some ap.2))

theorem dictSet_mem {l : List (AgentId × β)} {k : AgentId} {v : β} :
    ∀ x ∈ dictSet l k v, x ∈ l ∨ x = (k, v) := by
  induction l with
  | nil =>
    intro x hx
    simp only [dictSet, List.mem_singleton] at hx
    exact Or.inr hx
  | cons e rest ih =>
    obtain ⟨k2, v2⟩ := e
    intro x hx
    simp only [dictSet] at hx
    by_cases hk : k2 = k
    · rw [if_pos hk] at hx
      rcases List.mem_cons.mp hx with rfl | hxr
      · subst hk
        exact Or.inr rfl
      · exact Or.inl (List.mem_cons_of_mem _ hxr)
    · rw [if_neg hk] at hx
      rcases List.mem_cons.mp hx with rfl | hxr
      · exact Or.inl (List.mem_cons_self _ _)
      · rcases ih x hxr with h1 | h2
        · exact Or.inl (List.mem_cons_of_mem _ h1)
        · exact Or.inr h2

theorem cbsRootPaths_mem {grid : Grid} {extra : List RawConstraint}
    {maxAstar : Option Int} :
    ∀ (ags : List (AgentId × (Cell × Cell))) (ps : List (AgentId × List Cell)),
      cbsRootPaths grid extra maxAstar ags = .ok (some (some ps)) →
      ∀ ap ∈ ps, ∃ sg, (ap.1, sg) ∈ ags ∧
        astar_search sg.1 sg.2 extra grid ap.1 maxAstar = .ok (some (some ap.2))
  | [] => by
    intro ps h ap hap
    simp only [cbsRootPaths, Except.ok.injEq, Option.some.injEq] at h
    subst h
    simp at hap
  | (aid, sg) :: rest => by
    intro ps h ap hap
    unfold cbsRootPaths at h
    cases ha : astar_search sg.1 sg.2 extra grid aid maxAstar with
    | error e =>
      rw [ha] at h
      simp at h
    | ok r =>
      rw [ha] at h
      match r with
      | none => simp at h
      | some none => simp at h
      | some (some p) =>
        dsimp only at h
        cases hr : cbsRootPaths grid extra maxAstar rest with
        | error e =>
          rw [hr] at h
          simp at h
        | ok r2 =>
          rw [hr] at h
          match r2 with
          | none => simp at h
          | some none => simp at h
          | some (some ps2) =>
            simp only [Except.ok.injEq, Option.some.injEq] at h
            subst h
            rcases List.mem_cons.mp hap with rfl | hap2
            · exact ⟨sg, List.mem_cons_self _ _, ha⟩
            · obtain ⟨sg2, hm, ha2⟩ := cbsRootPaths_mem rest _ hr ap hap2
              exact ⟨sg2, List.mem_cons_of_mem _ hm, ha2⟩

theorem cbsChild_paths {agents : List (AgentId × (Cell × Cell))} {grid : Grid}
    {maxAstar : Option Int} {node : CBSNode} {agent : AgentId} {newC : RawConstraint}
    {child : CBSNode}
    (h : cbsChild agents grid maxAstar node agent newC = .ok (some (some child))) :
    ∀ ap ∈ child.paths, ap ∈ node.paths ∨ AgentsPath agents grid maxAstar ap := by
  intro ap hap
  unfold cbsChild at h
  cases hfind : assocFind agent agents with
  | none =>
    rw [hfind] at h
    simp at h
  | some sg =>
    rw [hfind] at h
    dsimp only at h
    cases ha : astar_search sg.1 sg.2 (node.constraints ++ [newC]) grid agent maxAstar with
    | error e =>
      rw [ha] at h
      simp at h
    | ok r =>
      rw [ha] at h
      match r with
      | none => simp at h
      | some none => simp at h
      | some (some p) =>
        dsimp only at h
        by_cases hp : p = []
        · rw [if_pos hp] at h
          simp at h
        · rw [if_neg hp] at h
          simp only [Except.ok.injEq, Option.some.injEq] at h
          subst h
          rcases dictSet_mem ap hap with h1 | h2
          · exact Or.inl h1
          · subst h2
            exact Or.inr ⟨sg.1, sg.2, node.constraints ++ [newC],
              (by simpa using assocFind_mem hfind), ha⟩

theorem cbsChildren_paths {agents : List (AgentId × (Cell × Cell))} {grid : Grid}
    {maxAstar : Option Int} {node : CBSNode} :
    ∀ (bl : List (AgentId × RawConstraint)) (children : List CBSNode),
      cbsChildren agents grid maxAstar node bl = .ok (some children) →
      ∀ child ∈ children, ∀ ap ∈ child.paths,
        ap ∈ node.paths ∨ AgentsPath agents grid maxAstar ap
  | [] => by
    intro children h child hchild
    simp only [cbsChildren, Except.ok.injEq, Option.some.injEq] at h
    subst h
    simp at hchild
  | ac :: bl => by
    intro children h child hchild ap hap
    unfold cbsChildren at h
    cases hc : cbsChild agents grid maxAstar node ac.1 ac.2 with
    | error e =>
      rw [hc] at h
      simp at h
    | ok r =>
      rw [hc] at h
      match r with
      | none => simp at h
      | some none =>
        exact cbsChildren_paths bl _ h child hchild ap hap
      | some (some c1) =>
        dsimp only at h
        cases hrest : cbsChildren agents grid maxAstar node bl with
        | error e =>
          rw [hrest] at h
          simp at h
        | ok r2 =>
          rw [hrest] at h
          match r2 with
          | none => simp at h
          | some cs2 =>
            simp only [Except.ok.injEq, Option.some.injEq] at h
            subst h
            rcases List.mem_cons.mp hchild with rfl | hc2
            · exact cbsChild_paths hc ap hap
            · exact cbsChildren_paths bl _ hrest child hc2 ap hap

theorem cbsLoop_paths {agents : List (AgentId × (Cell × Cell))} {grid : Grid}
    {maxAstar : Option Int} :
    ∀ (fuel : Nat) (heap : List CBSNode) (paths : List (AgentId × List Cell)),
      (∀ n ∈ heap, ∀ ap ∈ n.paths, AgentsPath agents grid maxAstar ap) →
      (cbsLoop agents grid maxAstar fuel heap).1 = .ok (some (some paths)) →
      ∀ ap ∈ paths, AgentsPath agents grid maxAstar ap
  | 0, heap => by
    intro paths hheap h
    simp [cbsLoop] at h
  | fuel + 1, heap => by
    intro paths hheap h
    unfold cbsLoop at h
    cases hext : extractMin CBSNode.lt heap with
    | none =>
      rw [hext] at h
      simp at h
    | some pr =>
      obtain ⟨node, rest⟩ := pr
      rw [hext] at h
      dsimp only at h
      have hnode : ∀ ap ∈ node.paths, AgentsPath agents grid maxAstar ap :=
        hheap node (extractMin_mem hext)
      have hrest : ∀ n ∈ rest, ∀ ap ∈ n.paths, AgentsPath agents grid maxAstar ap :=
        fun n hn => hheap n ((extractMin_perm hext).symm.subset (List.mem_cons_of_mem node hn))
      cases hdet : detect_conflict node.paths 2 with
      | error e =>
        rw [hdet] at h
        simp at h
      | ok conflicts =>
        rw [hdet] at h
        cases conflicts with
        | nil =>
          simp only [Except.ok.injEq, Option.some.injEq] at h
          rw [← h]
          exact hnode
        | cons c0 more =>
          dsimp only at h
          cases hch : cbsChildren agents grid maxAstar node (branchList (minByTime c0 more)) with
          | error e =>
            rw [hch] at h
            simp at h
          | ok oc =>
            rw [hch] at h
            cases oc with
            | none => simp at h
            | some children =>
              dsimp only at h
              refine cbsLoop_paths fuel (rest ++ children) _ ?_ h
              intro n hn
              rcases List.mem_append.mp hn with h1 | h2
              · exact hrest n h1
              · intro ap hap
                rcases cbsChildren_paths _ _ hch n h2 ap hap with h3 | h4
                · exact hnode ap h3
                · exact h4

/-- Every path of a `cbs_search` solution is an `astar_search` answer for the
agent's declared start and goal under some constraint list. -/
theorem cbs_search_paths {agents : List (AgentId × (Cell × Cell))} {grid : Grid}
    {extra : List RawConstraint} {maxAstar : Option Int} {fuel : Nat}
    {paths : List (AgentId × List Cell)}
    (h : (cbs_search agents grid extra maxAstar fuel).1 = .ok (some (some paths))) :
    ∀ ap ∈ paths, AgentsPath agents grid maxAstar ap := by
  unfold cbs_search at h
  cases hr : cbsRootPaths grid extra maxAstar agents with
  | error e =>
    rw [hr] at h
    simp at h
  | ok r =>
    rw [hr] at h
    match r with
    | none => simp at h
    | some none => simp at h
    | some (some rootPaths) =>
      dsimp only at h
      refine cbsLoop_paths fuel _ _ ?_ h
      intro n hn ap hap
      simp only [List.mem_singleton] at hn
      subst hn
      obtain ⟨sg, hm, ha⟩ := cbsRootPaths_mem agents _ hr ap hap
      exact ⟨sg.1, sg.2, extra, by simpa using hm, ha⟩

/-- A `cbs_search` solution mapping passes the conflict detector. -/
theorem cbs_search_sol_detect {agents : List (AgentId × (Cell × Cell))} {grid : Grid}
    {extra : List RawConstraint} {maxAstar : Option Int} {fuel : Nat}
    {paths : List (AgentId × List Cell)}
    (h : (cbs_search agents grid extra maxAstar fuel).1 = .ok (some (some paths))) :
    detect_conflict paths 2 = .ok [] := by
  unfold cbs_search at h
  cases hr : cbsRootPaths grid extra maxAstar agents with
  | error e =>
    rw [hr] at h
    simp at h
  | ok r =>
    rw [hr] at h
    match r with
    | none => simp at h
    | some none => simp at h
    | some (some rootPaths) =>
      dsimp only at h
      exact cbsLoop_sol fuel _ _ h

theorem posAt_some_lt {hold : Nat} {path : List Cell} {t : Nat} {c : Cell}
    (h : posAt hold path t = .ok (some c)) : t < path.length + hold := by
  by_cases h1 : t < path.length + hold
  · exact h1
  · rw [posAt_absent (by omega)] at h
    simp at h

theorem foldl_max_init : ∀ (l : List Nat) (b : Nat), b ≤ l.foldl max b
  | [], b => Nat.le_refl b
  | x :: xs, b =>
    Nat.le_trans (Nat.le_max_left b x) (foldl_max_init xs (max b x))

theorem le_foldl_max : ∀ (l : List Nat) (a b : Nat), a ∈ l → a ≤ l.foldl max b
  | [], a, b => by
    intro h
    simp at h
  | x :: xs, a, b => by
    intro h
    rcases List.mem_cons.mp h with rfl | hxs
    · exact Nat.le_trans (Nat.le_max_right b a) (foldl_max_init xs (max b a))
    · exact le_foldl_max xs a (max b x) hxs

theorem length_le_horizon {paths : List (AgentId × List Cell)} {hold : Nat}
    {ap : AgentId × List Cell} (h : ap ∈ paths) :
    ap.2.length + hold ≤ detectHorizon paths hold := by
  unfold detectHorizon
  have : ap.2.length ∈ paths.map fun ap => ap.2.length := List.mem_map.mpr ⟨ap, h, rfl⟩
  have := le_foldl_max _ _ 0 this
  omega

theorem detect_empty_vertexScan {paths : List (AgentId × List Cell)} {hold t : Nat}
    (hne : paths ≠ []) (h : detect_conflict paths hold = .ok [])
    (ht : t < detectHorizon paths hold) :
    vertexScanAt paths hold t = .ok [] := by
  obtain ⟨hv, _⟩ := detect_conflict_decomp hne h
  obtain ⟨lt, hlt, hsub⟩ := hv t (List.mem_range.mpr ht)
  have : lt = [] := List.eq_nil_iff_forall_not_mem.mpr fun x hx => by
    have := hsub x hx
    simp at this
  rw [this] at hlt
  exact hlt

theorem detect_empty_edgeScan {paths : List (AgentId × List Cell)} {hold t : Nat}
    (hne : paths ≠ []) (h : detect_conflict paths hold = .ok [])
    (ht1 : 1 ≤ t) (ht : t < detectHorizon paths hold) :
    edgeScanAt paths hold t = .ok [] := by
  obtain ⟨_, he⟩ := detect_conflict_decomp hne h
  obtain ⟨lt, hlt, hsub⟩ := he t (List.mem_range'_1.mpr ⟨ht1, by omega⟩)
  have : lt = [] := List.eq_nil_iff_forall_not_mem.mpr fun x hx => by
    have := hsub x hx
    simp at this
  rw [this] at hlt
  exact hlt

/-! ## CBS cost machinery -/

theorem cbs_lt_irrefl (a : CBSNode) : CBSNode.lt a a = false := by
  simp [CBSNode.lt]

theorem cbs_lt_asymm (a b : CBSNode) :
    CBSNode.lt a b = true → CBSNode.lt b a = false := by
  unfold CBSNode.lt
  intro h
  simp only [decide_eq_true_eq] at h
  simp only [decide_eq_false_iff_not]
  omega

theorem cbs_lt_negtrans (a b c : CBSNode) :
    CBSNode.lt a b = false → CBSNode.lt b c = false → CBSNode.lt a c = false := by
  unfold CBSNode.lt
  intro h1 h2
  simp only [decide_eq_false_iff_not] at h1 h2
  simp only [decide_eq_false_iff_not]
  omega

theorem extractMin_cbs_min {l : List CBSNode} {m : CBSNode} {rest : List CBSNode}
    (h : extractMin CBSNode.lt l = some (m, rest)) :
    ∀ y ∈ l, m.cost ≤ y.cost := by
  intro y hy
  have := extractMin_min cbs_lt_irrefl cbs_lt_asymm cbs_lt_negtrans h y hy
  unfold CBSNode.lt at this
  simp only [decide_eq_false_iff_not] at this
  omega

theorem minByTime_mem : ∀ (best : Conflict) (l : List Conflict),
    minByTime best l ∈ best :: l
  | best, [] => List.mem_singleton.mpr rfl
  | best, c :: rest => by
    unfold minByTime
    by_cases h : c.time < best.time
    · rw [if_pos h]
      have := minByTime_mem c rest
      rcases List.mem_cons.mp this with h1 | h2
      · exact List.mem_cons_of_mem _ (List.mem_cons.mpr (Or.inl h1))
      · exact List.mem_cons_of_mem _ (List.mem_cons_of_mem _ h2)
    · rw [if_neg h]
      have := minByTime_mem best rest
      rcases List.mem_cons.mp this with h1 | h2
      · exact List.mem_cons.mpr (Or.inl h1)
      · exact List.mem_cons_of_mem _ (List.mem_cons_of_mem _ h2)

/-- Every conflict the detector reports names two agents that are keys of
the path mapping. -/
theorem detect_conflict_agents {paths : List (AgentId × List Cell)} {hold : Nat}
    {out : List Conflict} (hne : paths ≠ [])
    (h : detect_conflict paths hold = .ok out) :
    ∀ x ∈ out, x.agent1 ∈ paths.map Prod.fst ∧ x.agent2 ∈ paths.map Prod.fst := by
  intro x hx
  unfold detect_conflict at h
  rw [if_neg hne] at h
  obtain ⟨vcs, hvcs, hrest⟩ := except_bind_ok h
  obtain ⟨ecs, hecs, hout⟩ := except_bind_ok hrest
  simp only [pure, Except.pure, Except.ok.injEq] at hout
  subst hout
  rcases List.mem_append.mp hx with hv | he
  · rcases scanFold_origin _ [] vcs hvcs x hv with hnil | ⟨t, _, lt, hlt, hxlt⟩
    · simp at hnil
    · obtain ⟨_, h1, h2⟩ := vertexScanAt_times hlt x hxlt
      exact ⟨h1, h2⟩
  · rcases scanFold_origin _ [] ecs hecs x he with hnil | ⟨t, _, lt, hlt, hxlt⟩
    · simp at hnil
    · obtain ⟨_, h1, h2⟩ := edgeScanAt_times hlt x hxlt
      exact ⟨h1, h2⟩

theorem branchList_agents {c : Conflict} {a : AgentId} {rc : RawConstraint}
    (h : (a, rc) ∈ branchList c) : a = c.agent1 ∨ a = c.agent2 := by
  cases c with
  | vertex t a1 a2 pos =>
    simp only [branchList, List.mem_cons, Prod.mk.injEq] at h
    rcases h with ⟨h1, _⟩ | ⟨h1, _⟩ | h3
    · exact Or.inl h1
    · exact Or.inr h1
    · simp at h3
  | edge t a1 a2 f1 t1 f2 t2 =>
    simp only [branchList, List.mem_cons, Prod.mk.injEq] at h
    rcases h with ⟨h1, _⟩ | ⟨h1, _⟩ | h3
    · exact Or.inl h1
    · exact Or.inr h1
    · simp at h3

theorem assocFind_of_mem_keys [DecidableEq κ] {l : List (κ × β)} {k : κ}
    (h : k ∈ l.map Prod.fst) : ∃ v, assocFind k l = some v := by
  induction l with
  | nil => simp at h
  | cons e rest ih =>
    obtain ⟨k2, v2⟩ := e
    by_cases hk : k2 = k
    · subst hk
      exact ⟨v2, by simp [assocFind]⟩
    · simp only [List.map_cons, List.mem_cons] at h
      rcases h with h1 | h2
      · exact absurd h1.symm hk
      · obtain ⟨v, hv⟩ := ih h2
        exact ⟨v, by simp [assocFind, hk, hv]⟩

theorem assocFind_nodup {l : List (κ × β)} [DecidableEq κ] {k : κ} {v : β}
    (hnodup : (l.map Prod.fst).Nodup) (h : (k, v) ∈ l) :
    assocFind k l = some v := by
  induction l with
  | nil => simp at h
  | cons e rest ih =>
    obtain ⟨k2, v2⟩ := e
    simp only [List.map_cons, List.nodup_cons] at hnodup
    rcases List.mem_cons.mp h with heq | hmem
    · injection heq with hk hv
      subst hk
      subst hv
      simp [assocFind]
    · have hk : k2 ≠ k := by
        intro hkk
        subst hkk
        exact hnodup.1 (List.mem_map.mpr ⟨(k2, v), hmem, rfl⟩)
      simp only [assocFind, if_neg hk]
      exact ih hnodup.2 hmem

theorem sumLen_aux : ∀ (l : List (AgentId × List Cell)) (n : Nat),
    l.foldl (fun acc ap => acc + ap.2.length) n =
      n + l.foldl (fun acc ap => acc + ap.2.length) 0
  | [], n => by simp
  | ap :: l, n => by
    simp only [List.foldl_cons]
    rw [sumLen_aux l (n + ap.2.length), sumLen_aux l (0 + ap.2.length)]
    omega

theorem sumLen_cons (ap : AgentId × List Cell) (l : List (AgentId × List Cell)) :
    sumLen (ap :: l) = ap.2.length + sumLen l := by
  unfold sumLen
  simp only [List.foldl_cons]
  rw [sumLen_aux l (0 + ap.2.length)]
  omega

/-- Replacing (or inserting) one agent's path changes the cost by the length
difference, stated additively. -/
theorem sumLen_dictSet : ∀ (l : List (AgentId × List Cell)) (k : AgentId) (v : List Cell),
    sumLen (dictSet l k v) + ((assocFind k l).getD []).length =
      sumLen l + v.length
  | [], k, v => by
    simp [dictSet, assocFind, sumLen_cons, sumLen]
  | (k2, v2) :: l, k, v => by
    by_cases hk : k2 = k
    · subst hk
      have h1 : dictSet ((k2, v2) :: l) k2 v = (k2, v) :: l := by simp [dictSet]
      have h2 : assocFind k2 ((k2, v2) :: l) = some v2 := by simp [assocFind]
      rw [h1, h2, sumLen_cons, sumLen_cons]
      simp only [Option.getD_some]
      omega
    · simp only [dictSet, if_neg hk, assocFind, if_neg hk]
      rw [sumLen_cons, sumLen_cons]
      have := sumLen_dictSet l k v
      omega

theorem dictSet_find_self : ∀ (l : List (AgentId × List Cell)) (k : AgentId)
    (v : List Cell), assocFind k (dictSet l k v) = some v
  | [], k, v => by simp [dictSet, assocFind]
  | (k2, v2) :: l, k, v => by
    by_cases hk : k2 = k
    · subst hk
      simp [dictSet, assocFind]
    · simp only [dictSet, if_neg hk, assocFind, if_neg hk]
      exact dictSet_find_self l k v

/-- Feasibility only shrinks when constraints are appended: a path feasible
under `cs1 ++ cs2` is feasible under `cs1` alone. -/
theorem FeasiblePath.anti {start goal : Cell} {cs1 cs2 : List RawConstraint}
    {grid : Grid} {rows cols : Nat} {aid : AgentId} {maxT : Nat} {π : List Cell}
    (h : FeasiblePath ⟨start, goal, cs1 ++ cs2, grid, rows, cols, aid, maxT⟩ π) :
    FeasiblePath ⟨start, goal, cs1, grid, rows, cols, aid, maxT⟩ π := by
  obtain ⟨⟨hne, hhead, hsteps⟩, hlast, hforb⟩ := h
  refine ⟨⟨hne, hhead, ?_⟩, hlast, ?_⟩
  · intro i hi
    obtain ⟨hgeo, hib, hch, hv1, hv2, he1, he2, hle⟩ := hsteps i hi
    refine ⟨hgeo, hib, hch, ?_, ?_, ?_, ?_, hle⟩
    · intro hmem
      exact hv1 (vertexConstraintsAt_append ▸ List.mem_append.mpr (Or.inl hmem))
    · intro hmem
      exact hv2 (vertexConstraintsAt_append ▸ List.mem_append.mpr (Or.inl hmem))
    · intro hmem
      exact he1 (edgeConstraintsAt_append ▸ List.mem_append.mpr (Or.inl hmem))
    · intro hmem
      exact he2 (edgeConstraintsAt_append ▸ List.mem_append.mpr (Or.inl hmem))
  · rw [forbiddenLater_eq_false_iff] at hforb ⊢
    intro t2 h1 h2
    obtain ⟨f1, f2⟩ := hforb t2 h1 h2
    constructor
    · intro hmem
      exact f1 (vertexConstraintsAt_append ▸ List.mem_append.mpr (Or.inl hmem))
    · intro hmem
      exact f2 (vertexConstraintsAt_append ▸ List.mem_append.mpr (Or.inl hmem))

/-- The running invariant of a CBS queue node: its cost field is the sum of
its path lengths, and every stored path is the A* answer for its agent under
some prefix of the node's constraint list. -/
def NodeInv (agents : List (AgentId × (Cell × Cell))) (grid : Grid)
    (maxAstar : Option Int) (n : CBSNode) : Prop :=
  n.cost = sumLen n.paths ∧
  ∀ ap ∈ n.paths, ∃ sg cs0 cs1,
    assocFind ap.1 agents = some sg ∧
    n.constraints = cs0 ++ cs1 ∧
    astar_search sg.1 sg.2 cs0 grid ap.1 maxAstar = .ok (some (some ap.2))

/-- A CBS child preserves the node invariant, and its cost is the parent's
cost minus the replanned agent's old path length plus its new path length —
in particular never below the parent's cost. -/
theorem cbsChild_cost {agents : List (AgentId × (Cell × Cell))} {grid : Grid}
    {maxAstar : Option Int} {node : CBSNode} {agent : AgentId} {newC : RawConstraint}
    {child : CBSNode}
    (hinv : NodeInv agents grid maxAstar node)
    (h : cbsChild agents grid maxAstar node agent newC = .ok (some (some child))) :
    NodeInv agents grid maxAstar child ∧
    node.cost ≤ child.cost ∧
    child.cost + ((assocFind agent node.paths).getD []).length =
      node.cost + ((assocFind agent child.paths).getD []).length := by
  unfold cbsChild at h
  cases hfind : assocFind agent agents with
  | none =>
    rw [hfind] at h
    simp at h
  | some sg =>
    rw [hfind] at h
    dsimp only at h
    cases ha : astar_search sg.1 sg.2 (node.constraints ++ [newC]) grid agent maxAstar with
    | error e =>
      rw [ha] at h
      simp at h
    | ok r =>
      rw [ha] at h
      match r with
      | none => simp at h
      | some none => simp at h
      | some (some p) =>
        dsimp only at h
        by_cases hp : p = []
        · rw [if_pos hp] at h
          simp at h
        · rw [if_neg hp] at h
          simp only [Except.ok.injEq, Option.some.injEq] at h
          subst h
          have hlen : ∀ old, assocFind agent node.paths = some old →
              old.length ≤ p.length := by
            intro old hold
            obtain ⟨sg2, cs0, cs1, hfind2, hsplit, ha2⟩ :=
              hinv.2 (agent, old) (assocFind_mem hold)
            rw [hfind] at hfind2
            injection hfind2 with hsg2
            subst hsg2
            have hfeas := astar_search_sound ha
            have hsplit2 : node.constraints ++ [newC] = cs0 ++ (cs1 ++ [newC]) := by
              rw [hsplit, List.append_assoc]
            rw [hsplit2] at hfeas
            have hfeas0 : FeasiblePath (astarCtx sg.1 sg.2 cs0 grid agent maxAstar) p :=
              FeasiblePath.anti hfeas
            exact astar_search_opt ha2 p hfeas0
          have hsum := sumLen_dictSet node.paths agent p
          have hfself := dictSet_find_self node.paths agent p
          constructor
          · constructor
            · rfl
            · intro ap hap
              rcases dictSet_mem ap hap with h1 | h2
              · obtain ⟨sg2, cs0, cs1, hfind2, hsplit, ha2⟩ := hinv.2 ap h1
                exact ⟨sg2, cs0, cs1 ++ [newC], hfind2,
                  by rw [hsplit, List.append_assoc], ha2⟩
              · subst h2
                exact ⟨sg, node.constraints ++ [newC], [], hfind,
                  (List.append_nil _).symm, ha⟩
          · constructor
            · show node.cost ≤ sumLen (dictSet node.paths agent p)
              rw [hinv.1]
              cases hold : assocFind agent node.paths with
              | none =>
                rw [hold] at hsum
                simp only [Option.getD_none, List.length_nil] at hsum
                omega
              | some old =>
                have := hlen old hold
                rw [hold] at hsum
                simp only [Option.getD_some] at hsum
                omega

            · show sumLen (dictSet node.paths agent p) +
                  ((assocFind agent node.paths).getD []).length =
                  node.cost + ((assocFind agent (dictSet node.paths agent p)).getD []).length
              rw [hfself, hinv.1]
              simp only [Option.getD_some]
              omega

theorem cbsChildren_inv {agents : List (AgentId × (Cell × Cell))} {grid : Grid}
    {maxAstar : Option Int} {node : CBSNode} :
    ∀ (bl : List (AgentId × RawConstraint)) (children : List CBSNode),
      NodeInv agents grid maxAstar node →
      cbsChildren agents grid maxAstar node bl = .ok (some children) →
      ∀ child ∈ children, NodeInv agents grid maxAstar child ∧ node.cost ≤ child.cost
  | [], children => by
    intro hinv h child hchild
    simp only [cbsChildren, Except.ok.injEq, Option.some.injEq] at h
    subst h
    simp at hchild
  | ac :: bl, children => by
    intro hinv h child hchild
    unfold cbsChildren at h
    cases hc : cbsChild agents grid maxAstar node ac.1 ac.2 with
    | error e =>
      rw [hc] at h
      simp at h
    | ok r =>
      rw [hc] at h
      match r with
      | none => simp at h
      | some none =>
        exact cbsChildren_inv bl children hinv h child hchild
      | some (some c1) =>
        dsimp only at h
        cases hrest : cbsChildren agents grid maxAstar node bl with
        | error e =>
          rw [hrest] at h
          simp at h
        | ok r2 =>
          rw [hrest] at h
          match r2 with
          | none => simp at h
          | some cs2 =>
            simp only [Except.ok.injEq, Option.some.injEq] at h
            subst h
            rcases List.mem_cons.mp hchild with rfl | hc2
            · obtain ⟨h1, h2, _⟩ := cbsChild_cost hinv hc
              exact ⟨h1, h2⟩
            · exact cbsChildren_inv bl cs2 hinv hrest child hc2

/-- The trace of popped CBS node costs is non-decreasing, and bounded below
by any lower bound of the queue. -/
theorem cbsLoop_sorted {agents : List (AgentId × (Cell × Cell))} {grid : Grid}
    {maxAstar : Option Int} :
    ∀ (fuel : Nat) (heap : List CBSNode) (low : Nat),
      (∀ n ∈ heap, NodeInv agents grid maxAstar n) →
      (∀ n ∈ heap, low ≤ n.cost) →
      ∀ res trace, cbsLoop agents grid maxAstar fuel heap = (res, trace) →
        List.Chain' (fun a b => a ≤ b) trace ∧ ∀ c ∈ trace, low ≤ c
  | 0, heap, low => by
    intro hinv hlow res trace h
    simp only [cbsLoop, Prod.mk.injEq] at h
    rw [← h.2]
    exact ⟨List.chain'_nil, by simp⟩
  | fuel + 1, heap, low => by
    intro hinv hlow res trace h
    unfold cbsLoop at h
    cases hext : extractMin CBSNode.lt heap with
    | none =>
      rw [hext] at h
      simp only [Prod.mk.injEq] at h
      rw [← h.2]
      exact ⟨List.chain'_nil, by simp⟩
    | some pr =>
      obtain ⟨node, rest⟩ := pr
      rw [hext] at h
      dsimp only at h
      have hnodelow : low ≤ node.cost := hlow node (extractMin_mem hext)
      have hsingle : trace = [node.cost] →
          List.Chain' (fun a b => a ≤ b) trace ∧ ∀ c ∈ trace, low ≤ c := by
        intro ht
        rw [ht]
        refine ⟨List.chain'_singleton _, ?_⟩
        intro c hc
        rw [List.mem_singleton] at hc
        subst hc
        exact hnodelow
      cases hdet : detect_conflict node.paths 2 with
      | error e =>
        rw [hdet] at h
        simp only [Prod.mk.injEq] at h
        exact hsingle h.2.symm
      | ok conflicts =>
        rw [hdet] at h
        cases conflicts with
        | nil =>
          simp only [Prod.mk.injEq] at h
          exact hsingle h.2.symm
        | cons c0 more =>
          dsimp only at h
          cases hch : cbsChildren agents grid maxAstar node (branchList (minByTime c0 more)) with
          | error e =>
            rw [hch] at h
            simp only [Prod.mk.injEq] at h
            exact hsingle h.2.symm
          | ok oc =>
            rw [hch] at h
            cases oc with
            | none =>
              simp only [Prod.mk.injEq] at h
              exact hsingle h.2.symm
            | some children =>
              dsimp only at h
              simp only [Prod.mk.injEq] at h
              have hnodeinv : NodeInv agents grid maxAstar node :=
                hinv node (extractMin_mem hext)
              have hrestinv : ∀ n ∈ rest, NodeInv agents grid maxAstar n := fun n hn =>
                hinv n ((extractMin_perm hext).symm.subset (List.mem_cons_of_mem node hn))
              have hinv2 : ∀ n ∈ rest ++ children, NodeInv agents grid maxAstar n := by
                intro n hn
                rcases List.mem_append.mp hn with h1 | h2
                · exact hrestinv n h1
                · exact (cbsChildren_inv _ children hnodeinv hch n h2).1
              have hlow2 : ∀ n ∈ rest ++ children, node.cost ≤ n.cost := by
                intro n hn
                rcases List.mem_append.mp hn with h1 | h2
                · exact extractMin_cbs_min hext n
                    ((extractMin_perm hext).symm.subset (List.mem_cons_of_mem node h1))
                · exact (cbsChildren_inv _ children hnodeinv hch n h2).2
              obtain ⟨hchain, hbound⟩ := cbsLoop_sorted fuel (rest ++ children) node.cost
                hinv2 hlow2 (cbsLoop agents grid maxAstar fuel (rest ++ children)).1
                (cbsLoop agents grid maxAstar fuel (rest ++ children)).2 rfl
              rw [← h.2]
              constructor
              · rw [List.chain'_cons']
                refine ⟨?_, hchain⟩
                intro y hy
                exact hbound y (List.mem_of_mem_head? hy)
              · intro c hc
                rcases List.mem_cons.mp hc with rfl | hc2
                · exact hnodelow
                · exact Nat.le_trans hnodelow (hbound c hc2)

/-- The popped-cost trace of a whole `cbs_search` run is non-decreasing,
provided the agent ids are distinct (Python dict keys). -/
theorem cbs_search_sorted {agents : List (AgentId × (Cell × Cell))} {grid : Grid}
    {extra : List RawConstraint} {maxAstar : Option Int} {fuel : Nat}
    (hnodup : (agents.map Prod.fst).Nodup) :
    List.Chain' (fun a b => a ≤ b) (cbs_search agents grid extra maxAstar fuel).2 := by
  unfold cbs_search
  cases hr : cbsRootPaths grid extra maxAstar agents with
  | error e => exact List.chain'_nil
  | ok r =>
    match r with
    | none => exact List.chain'_nil
    | some none => exact List.chain'_nil
    | some (some rootPaths) =>
      dsimp only
      have hrootinv : NodeInv agents grid maxAstar
          (CBSNode.mk extra rootPaths (sumLen rootPaths)) := by
        constructor
        · rfl
        · intro ap hap
          obtain ⟨sg, hm, ha⟩ := cbsRootPaths_mem agents _ hr ap hap
          exact ⟨sg, extra, [], assocFind_nodup hnodup hm,
            (List.append_nil _).symm, ha⟩
      obtain ⟨hchain, _⟩ := cbsLoop_sorted fuel
        [CBSNode.mk extra rootPaths (sumLen rootPaths)] 0
        (by
          intro n hn
          rw [List.mem_singleton] at hn
          subst hn
          exact hrootinv)
        (by
          intro n hn
          exact Nat.zero_le _)
        (cbsLoop agents grid maxAstar fuel
          [CBSNode.mk extra rootPaths (sumLen rootPaths)]).1
        (cbsLoop agents grid maxAstar fuel
          [CBSNode.mk extra rootPaths (sumLen rootPaths)]).2 rfl
      exact hchain

/-! ## Auction materialization -/

theorem mem_auctionConstraints {bc : List Cell} {c : RawConstraint} :
    c ∈ auctionConstraints bc ↔ ∃ pos ∈ bc, ∃ t : Nat, t < 50 ∧
      c = ⟨none, some (t : Int), some "vertex", some pos, none, none⟩ := by
  simp only [auctionConstraints, List.mem_flatMap, List.mem_map, List.mem_range]
  constructor
  · rintro ⟨pos, hpos, t, ht, hct⟩
    exact ⟨pos, hpos, t, ht, hct.symm⟩
  · rintro ⟨pos, hpos, t, ht, rfl⟩
    exact ⟨pos, hpos, t, ht, rfl⟩

/-- When a round of the auction reaches the constraint-materialization step,
the constraint list handed to `cbs_search` is exactly the one generated from
the current round's bid cells; and a non-empty CBS solution under those
constraints ends the auction with that solution and the extended history. -/
theorem auctionRoundStep_materialize {agents : List (AgentId × (Cell × Cell))}
    {grid : Grid} {strategy : String} {lnApprox : ℚ → ℚ} {tape : Nat → ℚ}
    {cbsFuel : Nat} {roundId : Nat} {basePrice : ℚ} {history : List RoundRecord}
    {ti : Nat} {st : StepRes} {bc : List Cell} {arg : List RawConstraint}
    (h : auctionRoundStep agents grid strategy lnApprox tape cbsFuel roundId
      basePrice history ti = .ok (st, some (bc, arg))) :
    arg = auctionConstraints bc ∧
    ∀ sol, (cbs_search agents grid arg (some 200) cbsFuel).1 = .ok (some (some sol)) →
      sol ≠ [] → ∃ rec, st = .done (.solution sol (some (history ++ [rec]))) := by
  unfold auctionRoundStep at h
  cases hip : independentPaths grid agents with
  | error e =>
    rw [hip] at h
    simp at h
  | ok r =>
    rw [hip] at h
    match r with
    | none => simp at h
    | some (.inl aid) => simp at h
    | some (.inr rootPaths) =>
      dsimp only at h
      cases hdet : detect_conflict rootPaths 2 with
      | error e =>
        rw [hdet] at h
        simp at h
      | ok conflicts =>
        rw [hdet] at h
        dsimp only at h
        cases hcc : congestionCounter conflicts with
        | nil =>
          rw [hcc] at h
          simp at h
        | cons c1 crest =>
          rw [hcc] at h
          dsimp only at h
          by_cases hb : (simulateBids tape
              (auctionPrices strategy lnApprox basePrice (c1 :: crest)) ti).1 = []
          · rw [if_pos hb] at h
            simp at h
          · rw [if_neg hb] at h
            cases hcbs : (cbs_search agents grid
                (auctionConstraints ((simulateBids tape
                  (auctionPrices strategy lnApprox basePrice (c1 :: crest)) ti).1.map
                    Prod.fst)) (some 200) cbsFuel).1 with
            | error e =>
              rw [hcbs] at h
              simp at h
            | ok r2 =>
              rw [hcbs] at h
              match r2 with
              | none =>
                simp only [Except.ok.injEq, Prod.mk.injEq, Option.some.injEq] at h
                obtain ⟨hst, hbc, harg⟩ := h
                subst hbc
                subst harg
                refine ⟨rfl, ?_⟩
                intro sol hsol hne
                rw [hcbs] at hsol
                simp at hsol
              | some none =>
                simp only [Except.ok.injEq, Prod.mk.injEq, Option.some.injEq] at h
                obtain ⟨hst, hbc, harg⟩ := h
                subst hbc
                subst harg
                refine ⟨rfl, ?_⟩
                intro sol hsol hne
                rw [hcbs] at hsol
                simp at hsol
              | some (some sol2) =>
                dsimp only at h
                by_cases hnil : sol2 = []
                · rw [if_pos hnil] at h
                  simp only [Except.ok.injEq, Prod.mk.injEq, Option.some.injEq] at h
                  obtain ⟨hst, hbc, harg⟩ := h
                  subst hbc
                  subst harg
                  refine ⟨rfl, ?_⟩
                  intro sol hsol hne
                  rw [hcbs] at hsol
                  simp only [Except.ok.injEq, Option.some.injEq] at hsol
                  subst hsol
                  exact absurd hnil hne
                · rw [if_neg hnil] at h
                  simp only [Except.ok.injEq, Prod.mk.injEq, Option.some.injEq] at h
                  obtain ⟨hst, hbc, harg⟩ := h
                  subst hbc
                  subst harg
                  refine ⟨rfl, ?_⟩
                  intro sol hsol hne
                  rw [hcbs] at hsol
                  simp only [Except.ok.injEq, Option.some.injEq] at hsol
                  subst hsol
                  exact ⟨_, hst.symm⟩

/-! ## Path-shape helpers -/

/-- Each legal step is a wait or a 4-neighbor move: Manhattan distance at
most 1. -/
theorem stepOK_manhattan {C : SearchCtx} {p : Cell} {t : Nat} {q : Cell}
    (h : stepOK C p t q) : heuristic p q ≤ 1 := by
  obtain ⟨⟨d, hd, rfl⟩, _⟩ := h
  simp only [directions, List.mem_cons, List.mem_singleton] at hd
  rcases hd with rfl | rfl | rfl | rfl | rfl | h5
  · simp only [heuristic]
    omega
  · simp only [heuristic]
    omega
  · simp only [heuristic]
    omega
  · simp only [heuristic]
    omega
  · simp only [heuristic]
    omega
  · simp at h5

/-- A feasible path never outlives the time horizon. -/
theorem FeasiblePath.length_le {C : SearchCtx} {π : List Cell}
    (h : FeasiblePath C π) : π.length ≤ C.maxT + 1 := by
  obtain ⟨⟨hne, _, hsteps⟩, _, _⟩ := h
  by_cases h2 : π.length ≤ 1
  · omega
  · have hstep := hsteps (π.length - 2) (by omega)
    have hle := hstep.2.2.2.2.2.2.2
    omega

/-- The shape facts of claim C4, minus the start-cell obstacle check: a
returned path is nonempty, runs from start to goal, moves by waits or
4-neighbor steps, and never *enters* a static obstacle (indices ≥ 1). -/
def PathShape (grid : Grid) (s g : Cell) (p : List Cell) : Prop :=
  p ≠ [] ∧ p.getD 0 defaultCell = s ∧ p.getD (p.length - 1) defaultCell = g ∧
  ∀ i, i + 1 < p.length →
    heuristic (p.getD i defaultCell) (p.getD (i + 1) defaultCell) ≤ 1 ∧
    ∃ ch, cellAt grid (p.getD (i + 1) defaultCell).1 (p.getD (i + 1) defaultCell).2 =
      some ch ∧ ch ≠ '#'

theorem astar_path_shape {start goal : Cell} {cs : List RawConstraint} {grid : Grid}
    {aid : AgentId} {maxTimeArg : Option Int} {p : List Cell}
    (h : astar_search start goal cs grid aid maxTimeArg = .ok (some (some p))) :
    PathShape grid start goal p := by
  obtain ⟨⟨hne, hhead, hsteps⟩, hlast, _⟩ := astar_search_sound h
  refine ⟨hne, hhead, hlast, ?_⟩
  intro i hi
  have hstep := hsteps i hi
  exact ⟨stepOK_manhattan hstep, hstep.2.2.1⟩

/-! ## The claims -/

/-- C1: when the A* loop pops a node standing on the goal cell (and does not
skip it as already closed), it reconstructs and returns the path exactly when
no vertex constraint keyed to `(agent_id, t')` or to the global scope
`(None, t')` forbids the goal for any `t'` from the node's time through
`t_max`; otherwise the node is expanded and the search continues. -/
theorem astar_goal_acceptance {goal : Cell} {cs : List RawConstraint} {grid : Grid}
    {rows cols : Nat} {aid : AgentId} {maxT fuel : Nat}
    {openList openRest : List AstarNode} {closed : List ((Cell × Nat) × Nat)}
    {curr : AstarNode}
    (hpop : extractMin AstarNode.lt openList = some (curr, openRest))
    (hskip : assocFind (curr.position, curr.time) closed = none ∨
      ∃ g0, assocFind (curr.position, curr.time) closed = some g0 ∧ ¬(g0 ≤ curr.g_cost))
    (hgoal : curr.position = goal) :
    ((∀ t2 : Nat, curr.time ≤ t2 → t2 ≤ maxT →
        goal ∉ vertexConstraintsAt cs (some aid) (t2 : Int) ∧
        goal ∉ vertexConstraintsAt cs none (t2 : Int)) →
      astarLoop goal cs grid rows cols aid maxT (fuel + 1) openList closed =
        .ok (some (some curr.revPath.reverse))) ∧
    (¬(∀ t2 : Nat, curr.time ≤ t2 → t2 ≤ maxT →
        goal ∉ vertexConstraintsAt cs (some aid) (t2 : Int) ∧
        goal ∉ vertexConstraintsAt cs none (t2 : Int)) →
      astarLoop goal cs grid rows cols aid maxT (fuel + 1) openList closed =
        match expandNode goal cs grid rows cols aid maxT curr with
        | .error e => .error e
        | .ok newNodes => astarLoop goal cs grid rows cols aid maxT fuel
            (openRest ++ newNodes) (((curr.position, curr.time), curr.g_cost) :: closed)) := by
  constructor
  · intro hok
    have hforb : forbiddenLater cs aid goal curr.time maxT = false :=
      forbiddenLater_eq_false_iff.mpr hok
    unfold astarLoop
    rw [hpop]
    dsimp only
    rcases hskip with hnone | ⟨g0, hsome, hgt⟩
    · rw [hnone]
      dsimp only
      rw [if_neg (by simp), if_pos ⟨hgoal, hforb⟩]
    · rw [hsome]
      dsimp only
      rw [if_neg (by simpa using hgt), if_pos ⟨hgoal, hforb⟩]
  · intro hnot
    have hforb : forbiddenLater cs aid goal curr.time maxT = true := by
      cases hf : forbiddenLater cs aid goal curr.time maxT
      · exact absurd (forbiddenLater_eq_false_iff.mp hf) hnot
      · rfl
    have hcond : ¬(curr.position = goal ∧
        forbiddenLater cs aid goal curr.time maxT = false) := by
      rintro ⟨_, hf⟩
      rw [hforb] at hf
      cases hf
    conv_lhs => unfold astarLoop
    rw [hpop]
    dsimp only
    rcases hskip with hnone | ⟨g0, hsome, hgt⟩
    · rw [hnone]
      dsimp only
      rw [if_neg (by simp), if_neg hcond]
    · rw [hsome]
      dsimp only
      rw [if_neg (by simpa using hgt), if_neg hcond]

theorem astar_goal_acceptance_witness :
    astarLoop (0,0) [] [['.']] 1 1 0 2 1 [AstarNode.mk (0,0) 0 0 none 0] [] =
      .ok (some (some (AstarNode.mk ((0:Int),(0:Int)) 0 0 none 0).revPath.reverse)) :=
  (@astar_goal_acceptance (0,0) [] [['.']] 1 1 0 2 1
      [AstarNode.mk (0,0) 0 0 none 0] [] [] (AstarNode.mk (0,0) 0 0 none 0)
      rfl (Or.inl rfl) rfl).1
    (fun t2 _ _ => ⟨by simp [vertexConstraintsAt], by simp [vertexConstraintsAt]⟩)

/-- C3 (corrected): a path returned by `astar_search` violates none of the
given constraints at timesteps `t ≥ 1`, and the goal is free of agent-keyed
and global vertex constraints on the whole window from arrival through
`t_max`.  The original claim's "including t = 0" is false: the start cell is
pushed without any constraint check (see the counterexample). -/
theorem astar_respects_constraints {start goal : Cell} {cs : List RawConstraint}
    {grid : Grid} {aid : AgentId} {maxTimeArg : Option Int} {p : List Cell}
    (h : astar_search start goal cs grid aid maxTimeArg = .ok (some (some p))) :
    (∀ i, 1 ≤ i → i < p.length →
      p.getD i defaultCell ∉ vertexConstraintsAt cs (some aid) (i : Int) ∧
      p.getD i defaultCell ∉ vertexConstraintsAt cs none (i : Int) ∧
      (p.getD (i - 1) defaultCell, p.getD i defaultCell) ∉
        edgeConstraintsAt cs (some aid) (i : Int) ∧
      (p.getD (i - 1) defaultCell, p.getD i defaultCell) ∉
        edgeConstraintsAt cs none (i : Int)) ∧
    (∀ t : Nat, p.length - 1 ≤ t →
      t ≤ effectiveMaxTime maxTimeArg grid.length (grid.headD []).length →
      goal ∉ vertexConstraintsAt cs (some aid) (t : Int) ∧
      goal ∉ vertexConstraintsAt cs none (t : Int)) := by
  obtain ⟨⟨hne, hhead, hsteps⟩, hlast, hforb⟩ := astar_search_sound h
  constructor
  · intro i h1 hi
    have hstep := hsteps (i - 1) (by omega)
    have heq : i - 1 + 1 = i := by omega
    rw [heq] at hstep
    exact ⟨hstep.2.2.2.1, hstep.2.2.2.2.1, hstep.2.2.2.2.2.1, hstep.2.2.2.2.2.2.1⟩
  · intro t h1 h2
    exact forbiddenLater_eq_false_iff.mp hforb t h1 h2

/-- C3 counterexample: a vertex constraint binding this agent to avoid the
start cell at `t = 0` is ignored — the returned path stands on the
constrained cell at time 0. -/
theorem astar_respects_constraints_cex :
    astar_search (0,0) (0,1) [⟨some 0, some 0, none, some (0,0), none, none⟩]
        [['.','.']] 0 (some 3) = .ok (some (some [(0,0),(0,1)])) ∧
    ((0:Int),(0:Int)) ∈ vertexConstraintsAt
      [⟨some 0, some 0, none, some (0,0), none, none⟩] (some 0) 0 := by
  decide

theorem astar_respects_constraints_witness :
    ((0:Int),(1:Int)) ∉ vertexConstraintsAt [] (some 0) ((1 : Nat) : Int) :=
  ((astar_respects_constraints (by decide :
      astar_search (0,0) (0,1) [] [['.','.']] 0 (some 3) =
        .ok (some (some [(0,0),(0,1)])))).1 1 (by decide) (by decide)).1

/-- C4 (corrected): every returned path runs from the agent's start to its
goal, moves only by waits or 4-neighbor steps, and never *enters* a static
obstacle (no obstacle at any index ≥ 1) — both for `astar_search` answers
and for every path of a `cbs_search` solution.  The original "no cell is an
obstacle at any index" is false at index 0: the start cell is never checked
(see the counterexample). -/
theorem returned_paths_shape {grid : Grid} :
    (∀ (start goal : Cell) (cs : List RawConstraint) (aid : AgentId)
       (maxTimeArg : Option Int) (p : List Cell),
       astar_search start goal cs grid aid maxTimeArg = .ok (some (some p)) →
       PathShape grid start goal p) ∧
    (∀ (agents : List (AgentId × (Cell × Cell))) (extra : List RawConstraint)
       (maxAstar : Option Int) (fuel : Nat) (paths : List (AgentId × List Cell)),
       (cbs_search agents grid extra maxAstar fuel).1 = .ok (some (some paths)) →
       ∀ ap ∈ paths, ∃ s g, (ap.1, (s, g)) ∈ agents ∧ PathShape grid s g ap.2) := by
  constructor
  · intro start goal cs aid maxTimeArg p h
    exact astar_path_shape h
  · intro agents extra maxAstar fuel paths h ap hap
    obtain ⟨s, g, cs2, hm, ha⟩ := cbs_search_paths h ap hap
    exact ⟨s, g, hm, astar_path_shape ha⟩

/-- C4 counterexample: with a static obstacle on the start cell the planner
still returns a path standing on it at index 0. -/
theorem returned_paths_shape_cex :
    astar_search (0,0) (0,1) [] [['#','.']] 0 (some 3) =
      .ok (some (some [(0,0),(0,1)])) ∧
    cellAt [['#','.']] 0 0 = some '#' := by
  decide

theorem returned_paths_shape_witness :
    PathShape [['.','.']] (0,0) (0,1) [(0,0),(0,1)] ∧
    (∀ ap ∈ [((0 : AgentId), [((0:Int),(0:Int)), ((0:Int),(1:Int))])],
      ∃ s g, (ap.1, (s, g)) ∈ [((0 : AgentId), (((0:Int),(0:Int)), ((0:Int),(1:Int))))] ∧
        PathShape [['.','.']] s g ap.2) :=
  ⟨returned_paths_shape.1 (0,0) (0,1) [] 0 (some 3) [(0,0),(0,1)] (by decide),
   returned_paths_shape.2 [(0, ((0,0),(0,1)))] [] (some 3) 2 [(0, [(0,0),(0,1)])]
     (by decide)⟩

/-- C7 (corrected): an entry with a missing time, a vertex-branch entry
(type absent or `'vertex'`) with a missing pos, an edge entry with a missing
from/to, and an entry with an *unknown* type string are silently dropped and
have no effect on the search.  The original claim also asserts this for a
*missing* type field, which is false: a missing type is treated as
`'vertex'` (see the counterexample). -/
theorem malformed_constraints_dropped {c : RawConstraint}
    (h : c.time = none ∨
         ((c.ctype = none ∨ c.ctype = some "vertex") ∧ c.pos = none) ∨
         (c.ctype = some "edge" ∧ (c.src = none ∨ c.dst = none)) ∨
         (∃ s, c.ctype = some s ∧ s ≠ "vertex" ∧ s ≠ "edge")) :
    indexEntry c = none ∧
    ∀ (start goal : Cell) (l1 l2 : List RawConstraint) (grid : Grid)
      (aid : AgentId) (maxTimeArg : Option Int),
      astar_search start goal (l1 ++ c :: l2) grid aid maxTimeArg =
        astar_search start goal (l1 ++ l2) grid aid maxTimeArg := by
  have hidx : indexEntry c = none := by
    cases hti : c.time with
    | none => simp [indexEntry, hti]
    | some t =>
      rcases h with h1 | ⟨h2 | h2, h3⟩ | ⟨h2, h3 | h3⟩ | ⟨s, h2, h3, h4⟩
      · rw [h1] at hti
        cases hti
      · simp [indexEntry, hti, h2, h3]
      · simp [indexEntry, hti, h2, h3]
      · simp [indexEntry, hti, h2, h3]
      · cases hsrc : c.src <;> simp [indexEntry, hti, h2, h3, hsrc]
      · simp [indexEntry, hti, h2, h3, h4]
  exact ⟨hidx, fun start goal l1 l2 grid aid maxTimeArg =>
    astar_search_dropped hidx start goal l1 l2 grid aid maxTimeArg⟩

/-- C7 counterexample: a constraint with *no* type field is indexed as a
vertex constraint and changes the search answer, so it is not dropped. -/
theorem malformed_constraints_dropped_cex :
    indexEntry ⟨none, some 1, none, some ((0:Int),(1:Int)), none, none⟩ ≠ none ∧
    astar_search (0,0) (0,1) [⟨none, some 1, none, some (0,1), none, none⟩]
        [['.','.']] 0 (some 3) = .ok (some (some [(0,0),(0,0),(0,1)])) ∧
    astar_search (0,0) (0,1) [] [['.','.']] 0 (some 3) =
      .ok (some (some [(0,0),(0,1)])) := by
  decide

theorem malformed_constraints_dropped_witness :
    indexEntry ⟨some 0, none, some "vertex", some ((0:Int),(0:Int)), none, none⟩ = none ∧
    astar_search (0,0) (0,1)
        ([] ++ ⟨some 0, none, some "vertex", some (0,0), none, none⟩ :: [])
        [['.','.']] 0 (some 3) =
      astar_search (0,0) (0,1) ([] ++ []) [['.','.']] 0 (some 3) :=
  ⟨(malformed_constraints_dropped (Or.inl rfl)).1,
   (malformed_constraints_dropped (Or.inl rfl)).2 (0,0) (0,1) [] [] [['.','.']] 0 (some 3)⟩

/-- C9 (corrected): the `rows*cols*2` time bound applies exactly when the
`max_time` argument is not a positive int (a non-int value, modelled by
`none`, or an int `≤ 0`); in that case a returned path stays within it.  The
claim's premise — that *omitting* the argument yields this bound — is false:
the Python default is `200` (see the counterexample). -/
theorem default_time_bound {start goal : Cell} {cs : List RawConstraint}
    {grid : Grid} {aid : AgentId} {maxTimeArg : Option Int} {p : List Cell}
    (hdef : maxTimeArg = none ∨ ∃ k, maxTimeArg = some k ∧ k ≤ 0)
    (h : astar_search start goal cs grid aid maxTimeArg = .ok (some (some p))) :
    effectiveMaxTime maxTimeArg grid.length (grid.headD []).length =
      grid.length * (grid.headD []).length * 2 ∧
    p.length ≤ grid.length * (grid.headD []).length * 2 + 1 := by
  have heff : effectiveMaxTime maxTimeArg grid.length (grid.headD []).length =
      grid.length * (grid.headD []).length * 2 := by
    rcases hdef with rfl | ⟨k, rfl, hk⟩
    · rfl
    · simp [effectiveMaxTime, hk]
  refine ⟨heff, ?_⟩
  have hlen := FeasiblePath.length_le (astar_search_sound h)
  have hmt : (astarCtx start goal cs grid aid maxTimeArg).maxT =
      effectiveMaxTime maxTimeArg grid.length (grid.headD []).length := rfl
  rw [hmt, heff] at hlen
  omega

/-- C9 counterexample: under the Python default `max_time = 200` (the value
used when the caller omits the argument, as `cbs_search` does), the planner
returns a 6-step path on a 1×2 grid, exceeding the claimed
`rows*cols*2 = 4` bound. -/
theorem default_time_bound_cex :
    astar_search (0,0) (0,1)
        [⟨none, some 0, some "vertex", some ((0:Int),(1:Int)), none, none⟩,
         ⟨none, some 1, some "vertex", some (0,1), none, none⟩,
         ⟨none, some 2, some "vertex", some (0,1), none, none⟩,
         ⟨none, some 3, some "vertex", some (0,1), none, none⟩,
         ⟨none, some 4, some "vertex", some (0,1), none, none⟩]
        [['.','.']] 0 (some 200) =
      .ok (some (some [(0,0),(0,0),(0,0),(0,0),(0,0),(0,1)])) ∧
    ¬([((0:Int),(0:Int)),(0,0),(0,0),(0,0),(0,0),(0,1)].length ≤ 1 * 2 * 2 + 1) := by
  constructor
  · decide
  · decide

theorem default_time_bound_witness :
    effectiveMaxTime none 1 2 = 1 * 2 * 2 ∧
    [((0:Int),(0:Int)), ((0:Int),(1:Int))].length ≤ 1 * 2 * 2 + 1 :=
  default_time_bound (Or.inl rfl)
    (by decide : astar_search (0,0) (0,1) [] [['.','.']] 0 none =
      .ok (some (some [(0,0),(0,1)])))

/-- C10: `detect_conflict` is total on its intended domain: on the empty
mapping it returns the empty list; when every path is nonempty, every
time-indexed lookup is answered (a cell for `t < len + landing_hold`, `None`
afterwards), the call returns a conflict list without failing, and every
emitted conflict's time lies below the horizon (max path length plus
landing hold). -/
theorem detect_conflict_total_spec :
    (∀ hold : Nat, detect_conflict [] hold = .ok []) ∧
    ∀ (paths : List (AgentId × List Cell)) (hold : Nat),
      (∀ ap ∈ paths, ap.2 ≠ []) →
      (∀ ap ∈ paths, ∀ t : Nat,
        (t < ap.2.length + hold → ∃ c, posAt hold ap.2 t = .ok (some c)) ∧
        (ap.2.length + hold ≤ t → posAt hold ap.2 t = .ok none)) ∧
      ∃ out, detect_conflict paths hold = .ok out ∧
        ∀ x ∈ out, x.time < detectHorizon paths hold := by
  constructor
  · intro hold
    rfl
  · intro paths hold hne
    constructor
    · intro ap hap t
      constructor
      · intro hlt
        by_cases h1 : t < ap.2.length
        · obtain ⟨c, _, hc⟩ := @posAt_lt_length hold _ _ h1
          exact ⟨c, hc⟩
        · obtain ⟨c, _, hc⟩ := @posAt_hold hold _ t (hne ap hap) (by omega) (by omega)
          exact ⟨c, hc⟩
      · intro hge
        exact posAt_absent hge
    · by_cases hp : paths = []
      · subst hp
        exact ⟨[], rfl, by simp⟩
      · obtain ⟨out, hout⟩ := detect_conflict_total hne
        exact ⟨out, hout, detect_conflict_times hp hout⟩

theorem detect_conflict_total_spec_witness :
    ∃ out, detect_conflict [(0, [((0:Int), (0:Int))])] 2 = .ok out ∧
      ∀ x ∈ out, x.time < detectHorizon [(0, [((0:Int), (0:Int))])] 2 :=
  (detect_conflict_total_spec.2 [(0, [(0,0)])] 2 (by decide)).2

/-- C2: whenever `cbs_search` returns a path mapping, the paths are pairwise
conflict-free under the detector's semantics with landing hold 2: at no
timestep (inside or outside the horizon) do two of the held-extended paths
occupy the same cell, and no pair swaps cells between consecutive
timesteps. -/
theorem cbs_solution_conflict_free {agents : List (AgentId × (Cell × Cell))}
    {grid : Grid} {extra : List RawConstraint} {maxAstar : Option Int} {fuel : Nat}
    {paths : List (AgentId × List Cell)}
    (h : (cbs_search agents grid extra maxAstar fuel).1 = .ok (some (some paths))) :
    ∀ (i j : Nat) (hi : i < paths.length) (hj : j < paths.length), i < j → ∀ t : Nat,
      (∀ c : Cell, ¬(posAt 2 (paths.get ⟨i, hi⟩).2 t = .ok (some c) ∧
                     posAt 2 (paths.get ⟨j, hj⟩).2 t = .ok (some c))) ∧
      (∀ c1 c1p c2 c2p : Cell,
        posAt 2 (paths.get ⟨i, hi⟩).2 t = .ok (some c1) →
        posAt 2 (paths.get ⟨i, hi⟩).2 (t - 1) = .ok (some c1p) →
        posAt 2 (paths.get ⟨j, hj⟩).2 t = .ok (some c2) →
        posAt 2 (paths.get ⟨j, hj⟩).2 (t - 1) = .ok (some c2p) →
        ¬(c1 = c2p ∧ c2 = c1p ∧ c1p ≠ c1)) := by
  intro i j hi hj hij t
  have hdet := cbs_search_sol_detect h
  have hne : paths ≠ [] := by
    intro he
    subst he
    simp at hi
  have hmem : paths.get ⟨i, hi⟩ ∈ paths := List.get_mem paths i hi
  constructor
  · intro c hcl
    have ht : t < detectHorizon paths 2 := by
      have ha := posAt_some_lt hcl.1
      have hb := @length_le_horizon paths 2 (paths.get ⟨i, hi⟩) hmem
      omega
    exact vertexScanAt_empty_no_clash (detect_empty_vertexScan hne hdet ht)
      i j hi hj hij c hcl
  · intro c1 c1p c2 c2p h1 h2 h3 h4 hcond
    rcases Nat.eq_zero_or_pos t with rfl | htpos
    · simp only [Nat.zero_sub] at h2
      rw [h1] at h2
      injection h2 with h2a
      injection h2a with h2b
      exact hcond.2.2 h2b.symm
    · have ht : t < detectHorizon paths 2 := by
        have ha := posAt_some_lt h1
        have hb := @length_le_horizon paths 2 (paths.get ⟨i, hi⟩) hmem
        omega
      exact edgeScanAt_empty_no_swap (detect_empty_edgeScan hne hdet htpos ht)
        i j hi hj hij c1 c1p c2 c2p h1 h2 h3 h4 hcond

theorem cbs_solution_conflict_free_witness :
    ¬(posAt 2 [((0:Int),(0:Int))] 0 = .ok (some ((0:Int),(0:Int))) ∧
      posAt 2 [((1:Int),(1:Int))] 0 = .ok (some ((0:Int),(0:Int)))) :=
  (cbs_solution_conflict_free
     (by decide : (cbs_search [(0, ((0,0),(0,0))), (1, ((1,1),(1,1)))]
       [['.','.'],['.','.']] [] (some 4) 2).1 =
       .ok (some (some [(0, [(0,0)]), (1, [(1,1)])])))
     0 1 (by decide) (by decide) (by decide) 0).1 (0,0)

/-- C5: in `cbs_search` (with distinct agent ids, as Python dict keys) the
sequence of node costs popped from the priority queue is non-decreasing over
the run, and each generated child's cost equals its parent's cost minus the
replanned agent's old path length plus that agent's new path length — in
particular it is at least that bound. -/
theorem cbs_cost_monotone {agents : List (AgentId × (Cell × Cell))} {grid : Grid}
    {extra : List RawConstraint} {maxAstar : Option Int} {fuel : Nat}
    (hnodup : (agents.map Prod.fst).Nodup) :
    List.Chain' (fun a b => a ≤ b) (cbs_search agents grid extra maxAstar fuel).2 ∧
    ∀ (node : CBSNode) (agent : AgentId) (newC : RawConstraint) (child : CBSNode),
      NodeInv agents grid maxAstar node →
      cbsChild agents grid maxAstar node agent newC = .ok (some (some child)) →
      node.cost ≤ child.cost ∧
      child.cost + ((assocFind agent node.paths).getD []).length =
        node.cost + ((assocFind agent child.paths).getD []).length :=
  ⟨cbs_search_sorted hnodup,
   fun _ _ _ _ hinv hc => (cbsChild_cost hinv hc).2⟩

theorem cbs_cost_monotone_witness :
    List.Chain' (fun a b => a ≤ b)
      (cbs_search [(0, (((0:Int),(0:Int)), ((0:Int),(1:Int))))] [['.','.']] []
        (some 3) 2).2 :=
  (cbs_cost_monotone (by decide)).1

/-- C6: for a well-formed nonempty grid, a `None` answer of `astar_search`
means no feasible path exists (and conversely infeasibility never yields a
path); the search raises only after probing an in-bounds cell of a row
shorter than the first row — a ragged grid — never because of the content of
the constraint list; and an empty grid yields the `None` sentinel
immediately. -/
theorem astar_none_error_conditions {start goal : Cell} {cs : List RawConstraint}
    {grid : Grid} {aid : AgentId} {maxTimeArg : Option Int} :
    (¬(grid = [] ∨ grid.headD [] = []) →
      astar_search start goal cs grid aid maxTimeArg = .ok (some none) →
      ∀ π, ¬ FeasiblePath (astarCtx start goal cs grid aid maxTimeArg) π) ∧
    ((¬∃ π, FeasiblePath (astarCtx start goal cs grid aid maxTimeArg) π) →
      ∀ p, astar_search start goal cs grid aid maxTimeArg ≠ .ok (some (some p))) ∧
    (∀ e, astar_search start goal cs grid aid maxTimeArg = .error e →
      ∃ i j : Nat, i < grid.length ∧ j < (grid.headD []).length ∧
        (grid.getD i []).length ≤ j) ∧
    ((grid = [] ∨ grid.headD [] = []) →
      astar_search start goal cs grid aid maxTimeArg = .ok (some none)) := by
  refine ⟨?_, ?_, ?_, ?_⟩
  · intro hg h
    exact astar_search_none hg h
  · intro hnex p hp
    exact hnex ⟨p, astar_search_sound hp⟩
  · intro e he
    exact astar_search_error he
  · intro hg
    unfold astar_search
    rw [if_pos hg]

theorem astar_none_error_conditions_witness :
    (∀ π, ¬ FeasiblePath (astarCtx (0,0) (2,2) [] [['.']] 0 (some 2)) π) ∧
    astar_search (0,0) (0,0) [] [] 0 (some 2) = .ok (some none) :=
  ⟨astar_none_error_conditions.1 (by decide) (by decide),
   astar_none_error_conditions.2.2.2 (Or.inl rfl)⟩

/-- C8 (corrected): whenever a round of `multi_round_auction` reaches the
constraint-materialization step, the list handed to `cbs_search` consists of
exactly one global (`agent = None`) vertex constraint per *current-round*
bid cell per time `t ∈ [0, 50)` — the list is rebuilt from scratch each
round rather than accumulated across rounds (see the counterexample) — and
when that `cbs_search` call returns a non-empty solution the auction ends
with it together with the extended round history. -/
theorem auction_round_constraints {agents : List (AgentId × (Cell × Cell))}
    {grid : Grid} {strategy : String} {lnApprox : ℚ → ℚ} {tape : Nat → ℚ}
    {cbsFuel : Nat} {roundId : Nat} {basePrice : ℚ} {history : List RoundRecord}
    {ti : Nat} {st : StepRes} {bc : List Cell} {arg : List RawConstraint}
    (h : auctionRoundStep agents grid strategy lnApprox tape cbsFuel roundId
      basePrice history ti = .ok (st, some (bc, arg))) :
    (∀ c : RawConstraint, c ∈ arg ↔ ∃ pos ∈ bc, ∃ t : Nat, t < 50 ∧
      c = ⟨none, some (t : Int), some "vertex", some pos, none, none⟩) ∧
    ∀ sol, (cbs_search agents grid arg (some 200) cbsFuel).1 = .ok (some (some sol)) →
      sol ≠ [] → ∃ rec, st = .done (.solution sol (some (history ++ [rec]))) := by
  obtain ⟨harg, hsol⟩ := auctionRoundStep_materialize h
  subst harg
  exact ⟨fun c => mem_auctionConstraints, hsol⟩

def cexAgents : List (AgentId × (Cell × Cell)) := [(0, ((0,0),(0,3))), (1, ((0,3),(0,0)))]

def cexGrid : Grid := [['.','.','.','.'], ['.','.','.','.']]

def cexTape : Nat → ℚ := fun i => if i = 0 then 9/10 else 0

def cexHistory : List RoundRecord :=
  [⟨1, [⟨(0,2), 1, 10⟩, ⟨(0,1), 1, 10⟩], [((0,2), 12)]⟩]

set_option maxRecDepth 1000000 in
set_option maxHeartbeats 4000000 in
unseal Rat.mul Rat.add Rat.sub Rat.inv in
/-- C8 counterexample: a round-2 state whose history shows cell `(0,2)` won
a bid in round 1; in round 2 only `(0,1)` receives a bid, and the constraint
list handed to `cbs_search` is rebuilt from the round-2 bid cells alone — no
constraint mentions the round-1 cell `(0,2)`, so constraints are not
accumulated across rounds. -/
theorem auction_round_constraints_cex :
    auctionRoundStep cexAgents cexGrid "linear" (fun q => q) cexTape 0 2 10
        cexHistory 0 =
      .ok (.done .undetermined, some ([(0,1)], auctionConstraints [(0,1)])) ∧
    ((0:Int),(2:Int)) ∈ (cexHistory.flatMap fun r => r.bids.map Prod.fst) ∧
    ∀ c ∈ auctionConstraints [((0:Int),(1:Int))], c.pos ≠ some ((0:Int),(2:Int)) := by
  refine ⟨by decide, by decide, by decide⟩

set_option maxRecDepth 1000000 in
set_option maxHeartbeats 4000000 in
unseal Rat.mul Rat.add Rat.sub Rat.inv in
theorem auction_round_constraints_witness :
    (⟨none, some 0, some "vertex", some ((0:Int),(1:Int)), none, none⟩ : RawConstraint) ∈
      auctionConstraints [((0:Int),(1:Int))] :=
  ((auction_round_constraints
      (by decide : auctionRoundStep cexAgents cexGrid "linear" (fun q => q) cexTape 0 2 10
        cexHistory 0 =
        .ok (.done .undetermined, some ([(0,1)], auctionConstraints [(0,1)])))).1
    _).mpr ⟨(0,1), by decide, 0, by decide, rfl⟩

end UrbanAirspaceSim
